import Mathlib

/-!
# WebCrawler (`crawler.c`): the URL queue, the link scanner, the worker loop and `main`

A shallow embedding of `crawler.c`.

* C strings are lists of characters (the characters before the terminating NUL).
* `URLQueueNode`s live in a heap addressed by natural numbers; `malloc` always succeeds
  and returns the next unused address (`brk`), so a node keeps its address for the
  whole run. `free` only releases storage the program never reads again and is not
  represented.
* `int` depths are integers. The only arithmetic on them is `depth + 1` in
  `parse_html`; in every call made by `fetch_url` the depth has passed the test
  `depth < MAX_DEPTH`, so the sum is exact there and `parse_html` computes it in the
  integers. For `parse_html` called on its own with an arbitrary `int`, `parse_html_int`
  computes the sum in 32-bit `int` (`int_add`); the two agree whenever
  `depth < INT_MAX`.
* `pthread_mutex_lock`/`unlock` bracket `enqueue` and `dequeue`; each of the two is
  one atomic step in the model of several workers.
* Writes to `log_file` do not influence control flow and are left out.
* `write_callback` works on a buffer of bytes; `size_t` products are taken modulo
  `2 ^ 64`.
* `main` is observed after the threads have taken the steps of a schedule; its walk
  over the queue at lines 210-214, `destroyQueue` and `fclose` leave the returned value
  alone and are not represented.
-/

namespace WebCrawler

/-- The content of a NUL-terminated C string. -/
abbrev Str := List Char

/-- The macro `MAX_DEPTH` (line 9). -/
def MAX_DEPTH : Int := 3

/-- The constant `NUM_THREADS` of `main` (line 216). -/
def NUM_THREADS : Nat := 4

/-- The struct `URLQueueNode`: `next` is a pointer, `none` for `NULL`. -/
structure URLQueueNode where
  url : Str
  depth : Int
  next : Option Nat
deriving DecidableEq, Repr, Inhabited

/-- The struct `URLQueue` without its mutex: two node pointers. -/
structure URLQueue where
  head : Option Nat
  tail : Option Nat
deriving DecidableEq, Repr, Inhabited

/-- The memory seen by the queue operations: the heap cells holding nodes, the next
address `malloc` will hand out, and the single `URLQueue` object of `main`. -/
structure Store where
  cell : Nat → URLQueueNode
  brk : Nat
  queue : URLQueue

/-- A work item as the program sees it: the `url` and `depth` fields of a node. -/
abbrev Item := Str × Int

/-- The `(url, depth)` pair stored in the node at address `p`. -/
def Store.item (s : Store) (p : Nat) : Item := ((s.cell p).url, (s.cell p).depth)

/-- `initQueue` (lines 27-30): `queue->head = queue->tail = NULL`. -/
def initQueue (s : Store) : Store :=
  { s with queue := { head := none, tail := none } }

/-- `enqueue` (lines 33-56): allocate a node holding a copy of `url` and `depth` with
`next = NULL`; if `queue->tail` is set, link the node after it, otherwise make it the
head; in both cases it becomes the tail. -/
def enqueue (s : Store) (url : Str) (depth : Int) : Store :=
  let newNode := s.brk
  let cell1 := Function.update s.cell newNode { url := url, depth := depth, next := none }
  match s.queue.tail with
  | some t =>
    { cell := Function.update cell1 t { cell1 t with next := some newNode }
      brk := s.brk + 1
      queue := { head := s.queue.head, tail := some newNode } }
  | none =>
    { cell := cell1
      brk := s.brk + 1
      queue := { head := some newNode, tail := some newNode } }

/-- `dequeue` (lines 59-73): `NULL` on an empty queue; otherwise unlink the head node,
resetting `tail` when the queue becomes empty, and return the node's address. -/
def dequeue (s : Store) : Option Nat × Store :=
  match s.queue.head with
  | none => (none, s)
  | some temp =>
    match (s.cell temp).next with
    | none => (some temp, { s with queue := { head := none, tail := none } })
    | some n => (some temp, { s with queue := { head := some n, tail := s.queue.tail } })

/-- The items reachable from pointer `p` by following `next`, at most `fuel` nodes. -/
def walk (cell : Nat → URLQueueNode) : Nat → Option Nat → List Item
  | 0, _ => []
  | _ + 1, none => []
  | fuel + 1, some p => ((cell p).url, (cell p).depth) :: walk cell fuel (cell p).next

/-- The queue contents, oldest first: the chain of nodes from `queue->head` (the walk
is what `destroyQueue` and the loop of `main` at lines 210-214 do). No chain of
distinct allocated nodes is longer than `brk`. -/
def contents (s : Store) : List Item := walk s.cell s.brk s.queue.head

/-- An empty heap with an uninitialised queue object, as `main` has before `initQueue`. -/
def Store.fresh : Store :=
  { cell := fun _ => default, brk := 0, queue := default }

/-- `Linked cell p addrs`: following `next` from pointer `p` visits exactly the nodes
`addrs`, in that order, and then reaches `NULL`. -/
def Linked (cell : Nat → URLQueueNode) : Option Nat → List Nat → Prop
  | p, [] => p = none
  | p, a :: rest => p = some a ∧ Linked cell (cell a).next rest

/-- `QueueChain s addrs`: the queue of `s` is the chain of the distinct allocated nodes
`addrs` from `head`, and `tail` points at the last of them (`NULL` when there is none). -/
structure QueueChain (s : Store) (addrs : List Nat) : Prop where
  nodup : addrs.Nodup
  bound : ∀ a ∈ addrs, a < s.brk
  linked : Linked s.cell s.queue.head addrs
  tail : s.queue.tail = addrs.getLast?

/-- The structural invariant of the linked queue. -/
def WellFormed (s : Store) : Prop := ∃ addrs, QueueChain s addrs

/-- A call on the queue: `enqueue(queue, url, depth)` or `dequeue(queue)`. -/
inductive QueueOp where
  | enq (url : Str) (depth : Int)
  | deq
deriving DecidableEq, Repr

/-- Perform the calls in order on the linked queue. The second component lists what
each `dequeue` returned: the `url` and `depth` of the returned node, or `none` for
`NULL`. -/
def runOps : List QueueOp → Store → Store × List (Option Item)
  | [], s => (s, [])
  | QueueOp.enq url depth :: ops, s => runOps ops (enqueue s url depth)
  | QueueOp.deq :: ops, s =>
    let r := dequeue s
    let rest := runOps ops r.2
    (rest.1, r.1.map r.2.item :: rest.2)

/-- The FIFO sequence of the specification: `push` appends at the end, `pop` removes
and returns the first item, or returns `empty` when there is none. -/
def fifoOps : List QueueOp → List Item → List Item × List (Option Item)
  | [], q => (q, [])
  | QueueOp.enq url depth :: ops, q => fifoOps ops (q ++ [(url, depth)])
  | QueueOp.deq :: ops, [] => ((fifoOps ops []).1, none :: (fifoOps ops []).2)
  | QueueOp.deq :: ops, x :: q => ((fifoOps ops q).1, some x :: (fifoOps ops q).2)

/-- Two callers `A` and `B` each perform one `dequeue`; the mutex makes the two calls
atomic, so one of them runs first (`aFirst` says which). Returns what `A` got, what
`B` got, and the memory afterwards. -/
def dequeueTwice (aFirst : Bool) (s : Store) : Option Nat × Option Nat × Store :=
  let r1 := dequeue s
  let r2 := dequeue r1.2
  if aFirst then (r1.1, r2.1, r2.2) else (r2.1, r1.1, r2.2)

/-- The double-quote character. -/
def DQUOTE : Char := Char.ofNat 34

/-- The string literal `<a` searched for at line 141. -/
def ANCHOR : Str := ['<', 'a']

/-- The six-character string literal `href=` followed by a double quote (line 142). -/
def HREF : Str := ['h', 'r', 'e', 'f', '=', DQUOTE]

/-- `strstr(haystack, needle)`: the rest of `haystack` from the first occurrence of
`needle`, or `none` (`NULL`) when there is none. -/
def strstr : Str → Str → Option Str
  | [], needle => if needle = [] then some [] else none
  | c :: rest, needle =>
    if needle.isPrefixOf (c :: rest) then some (c :: rest) else strstr rest needle

/-- `strchr(s, c)` for a character `c` other than NUL: the rest of `s` from the first
`c`, or `none` (`NULL`). -/
def strchr : Str → Char → Option Str
  | [], _ => none
  | x :: rest, c => if x = c then some (x :: rest) else strchr rest c

/-- One evaluation of the loop condition and body of `parse_html` (lines 141-158) with
the cursor at `cursor`: `none` when `strstr(cursor, "<a")` is `NULL` and the loop
exits, otherwise the cursor and the memory at the end of the body. The sum `depth + 1`
is taken in the integers, which is the `int` sum of the source for every
`depth < INT_MAX` (`parse_html_iter_int` covers `INT_MAX` too). -/
def parse_html_iter (depth : Int) (cursor : Str) (s : Store) : Option (Str × Store) :=
  match strstr cursor ANCHOR with
  | none => none
  | some cursor1 =>
    match strstr cursor1 HREF with
    | none => some (cursor1.drop 1, s)
    | some href =>
      let href_start := href.drop 6
      match strchr href_start DQUOTE with
      | none => some (cursor1.drop 1, s)
      | some href_end =>
        let url_length := href_start.length - href_end.length
        let url := href_start.take url_length
        some (href_end.drop 1, enqueue s url (depth + 1))

/-- The `while` loop of `parse_html`, run for at most `fuel` iterations. -/
def parse_html_loop (depth : Int) : Nat → Str → Store → Store
  | 0, _, s => s
  | fuel + 1, cursor, s =>
    match parse_html_iter depth cursor s with
    | none => s
    | some (cursor2, s2) => parse_html_loop depth fuel cursor2 s2

/-- `parse_html` (lines 137-159) as `fetch_url` calls it, with `depth < MAX_DEPTH`; for
an arbitrary `int` argument see `parse_html_int`. Every iteration moves the cursor
forward by at least one character, so `html_content.length` iterations are enough
(`parse_html_loop_fuel`). -/
def parse_html (html_content : Str) (s : Store) (depth : Int) : Store :=
  parse_html_loop depth html_content.length html_content s

/-- The scanning part of one iteration of the loop of `parse_html`, without the
queue: the next cursor and the URL handed to `enqueue`, if any. -/
def scan_iter (cursor : Str) : Option (Str × Option Str) :=
  match strstr cursor ANCHOR with
  | none => none
  | some cursor1 =>
    match strstr cursor1 HREF with
    | none => some (cursor1.drop 1, none)
    | some href =>
      match strchr (href.drop 6) DQUOTE with
      | none => some (cursor1.drop 1, none)
      | some href_end =>
        some (href_end.drop 1,
          some ((href.drop 6).take ((href.drop 6).length - href_end.length)))

/-- The URLs the loop of `parse_html` hands to `enqueue`, in order. -/
def links_loop : Nat → Str → List Str
  | 0, _ => []
  | fuel + 1, cursor =>
    match scan_iter cursor with
    | none => []
    | some (cursor2, none) => links_loop fuel cursor2
    | some (cursor2, some url) => url :: links_loop fuel cursor2

/-- The URLs `parse_html` enqueues for a body (`parse_html_contents`). -/
def extract_links (html_content : Str) : List Str :=
  links_loop html_content.length html_content

/-- The part of `main` that fills the queue (lines 202-208): `initQueue`, then
`enqueue(&queue, argv[i], 0)` for every URL argument. -/
def seed_queue (urls : List Str) (s : Store) : Store :=
  urls.foldl (fun acc url => enqueue acc url 0) (initQueue s)

/-- The state of one thread running `fetch_url` alone: the memory, and the record of
the calls `fetch_html_content(node->url)` made so far, each with the `url` and `depth`
of the node it was made for, oldest first. -/
structure Crawl where
  store : Store
  fetched : List Item

/-- One evaluation of the loop condition and body of `fetch_url` (lines 166-184).
`none`: `dequeue` returned `NULL` (it changes nothing then) and the loop exits.
The function `fetch_html_content` stands for lines 101-134: `none` is `NULL`.
`maxDepth` is the value of the macro `MAX_DEPTH`. -/
def fetch_url_iter (fetch_html_content : Str → Option Str) (maxDepth : Int) (c : Crawl) :
    Option Crawl :=
  match dequeue c.store with
  | (none, _) => none
  | (some node, s1) =>
    if (s1.cell node).depth ≥ maxDepth then
      some { store := s1, fetched := c.fetched }
    else
      match fetch_html_content (s1.cell node).url with
      | some html_content =>
        some { store := parse_html html_content s1 (s1.cell node).depth
               fetched := c.fetched ++ [s1.item node] }
      | none => some { store := s1, fetched := c.fetched ++ [s1.item node] }

/-- `fetch_url` (lines 162-187) run by a single thread for at most `fuel` iterations;
`none` when the fuel runs out before `dequeue` returns `NULL`. -/
def fetch_url (fetch_html_content : Str → Option Str) (maxDepth : Int) :
    Nat → Crawl → Option Crawl
  | 0, _ => none
  | fuel + 1, c =>
    match fetch_url_iter fetch_html_content maxDepth c with
    | none => some c
    | some c1 => fetch_url fetch_html_content maxDepth fuel c1

/-- The state in which a single thread enters `fetch_url` after `main` has enqueued
the seed URLs. -/
def Crawl.start (seeds : List Str) : Crawl :=
  { store := seed_queue seeds Store.fresh, fetched := [] }

/-- Where a thread running `fetch_url` stands between two atomic steps. -/
inductive Worker where
  /-- About to call `dequeue` in the loop condition. -/
  | atDequeue
  /-- Holds the node `dequeue` returned; depth test and fetch are still to come. -/
  | holding (node : Nat)
  /-- Inside the loop of `parse_html` on the body fetched for `node`. -/
  | parsing (node : Nat) (cursor : Str)
  /-- Has left the loop: `fetch_url` returned. -/
  | returned
deriving DecidableEq, Repr

/-- A worker that holds a dequeued node it has not finished with. -/
def Worker.inFlight : Worker → Bool
  | Worker.holding _ => true
  | Worker.parsing _ _ => true
  | _ => false

/-- Several threads running `fetch_url` on the one queue, with the record of the
calls of `fetch_html_content`. -/
structure Pool where
  store : Store
  workers : List Worker
  fetched : List Item

/-- The number of dequeued nodes whose processing is not complete. -/
def Pool.inFlight (p : Pool) : Nat := p.workers.countP Worker.inFlight

/-- Worker `i` performs its next step. The steps are: the `dequeue` of the loop
condition; the depth test with the call of `fetch_html_content`; one iteration of the
loop of `parse_html` (at most one `enqueue`). A worker that has returned, or an index
that names no worker, leaves the state as it is. -/
def Pool.step (fetch_html_content : Str → Option Str) (maxDepth : Int) (p : Pool)
    (i : Nat) : Pool :=
  match p.workers[i]? with
  | none => p
  | some Worker.returned => p
  | some Worker.atDequeue =>
    match dequeue p.store with
    | (none, s1) =>
      { store := s1, workers := p.workers.set i Worker.returned, fetched := p.fetched }
    | (some node, s1) =>
      { store := s1, workers := p.workers.set i (Worker.holding node), fetched := p.fetched }
  | some (Worker.holding node) =>
    if (p.store.cell node).depth ≥ maxDepth then
      { store := p.store, workers := p.workers.set i Worker.atDequeue, fetched := p.fetched }
    else
      match fetch_html_content (p.store.cell node).url with
      | some html_content =>
        { store := p.store
          workers := p.workers.set i (Worker.parsing node html_content)
          fetched := p.fetched ++ [p.store.item node] }
      | none =>
        { store := p.store
          workers := p.workers.set i Worker.atDequeue
          fetched := p.fetched ++ [p.store.item node] }
  | some (Worker.parsing node cursor) =>
    match parse_html_iter (p.store.cell node).depth cursor p.store with
    | none =>
      { store := p.store, workers := p.workers.set i Worker.atDequeue, fetched := p.fetched }
    | some (cursor2, s2) =>
      { store := s2
        workers := p.workers.set i (Worker.parsing node cursor2)
        fetched := p.fetched }

/-- The state after the workers have taken steps in the order `schedule` names them. -/
def Pool.run (fetch_html_content : Str → Option Str) (maxDepth : Int) (p : Pool)
    (schedule : List Nat) : Pool :=
  schedule.foldl (Pool.step fetch_html_content maxDepth) p

/-- The state of `main` once the seeds are enqueued and `n` threads are created
(`n` is `NUM_THREADS` in the source). -/
def Pool.start (n : Nat) (seeds : List Str) : Pool :=
  { store := seed_queue seeds Store.fresh
    workers := List.replicate n Worker.atDequeue
    fetched := [] }

/-- The items `fetch_url` enqueues while it processes the item `x` once `x` has passed
the depth test: one per link of the fetched body, at depth `x.depth + 1`; none when
the fetch fails. -/
def children (fetch_html_content : Str → Option Str) (x : Item) : List Item :=
  match fetch_html_content x.1 with
  | some html_content => (extract_links html_content).map (fun u => (u, x.2 + 1))
  | none => []

/-- The items enqueued while `x` is processed: nothing for an item discarded by the
depth test, the children otherwise. -/
def enqueuedFor (fetch_html_content : Str → Option Str) (maxDepth : Int) (x : Item) :
    List Item :=
  if x.2 ≥ maxDepth then [] else children fetch_html_content x

/-- The items of `q` that pass the depth test. -/
def fetchable (maxDepth : Int) (q : List Item) : List Item :=
  q.filter (fun x => decide (x.2 < maxDepth))

/-- What processing all of `q` puts into the queue. -/
def expand (fetch_html_content : Str → Option Str) (maxDepth : Int) (q : List Item) :
    List Item :=
  q.flatMap (enqueuedFor fetch_html_content maxDepth)

/-- The queue after `k` rounds, a round processing everything the queue held at its
start. -/
def generation (fetch_html_content : Str → Option Str) (maxDepth : Int) :
    Nat → List Item → List Item
  | 0, q => q
  | k + 1, q =>
    generation fetch_html_content maxDepth k (expand fetch_html_content maxDepth q)

/-- The calls of `fetch_html_content` made in the first `k` rounds. -/
def roundsFetched (fetch_html_content : Str → Option Str) (maxDepth : Int) :
    Nat → List Item → List Item
  | 0, _ => []
  | k + 1, q =>
    fetchable maxDepth q ++
      roundsFetched fetch_html_content maxDepth k (expand fetch_html_content maxDepth q)

/-- The number of loop iterations in the first `k` rounds. -/
def roundsSteps (fetch_html_content : Str → Option Str) (maxDepth : Int) :
    Nat → List Item → Nat
  | 0, _ => 0
  | k + 1, q =>
    q.length + roundsSteps fetch_html_content maxDepth k (expand fetch_html_content maxDepth q)

/-- The link occurrences `k` hops from the seeds: level `0` is the seed list at depth
`0`, level `k + 1` has the children of the items of level `k`, in order, duplicates
included. -/
def level (fetch_html_content : Str → Option Str) (seeds : List Str) : Nat → List Item
  | 0 => seeds.map (fun u => (u, 0))
  | k + 1 => (level fetch_html_content seeds k).flatMap (children fetch_html_content)

/-- The URL `u` is reachable in `d` hops: a seed for `d = 0`, otherwise a link
extracted from the body of a successfully fetched page reachable in `d - 1` hops. -/
inductive Reachable (fetch_html_content : Str → Option Str) (seeds : List Str) :
    Str → Nat → Prop where
  | seed {u : Str} : u ∈ seeds → Reachable fetch_html_content seeds u 0
  | link {v u html_content : Str} {d : Nat} :
    Reachable fetch_html_content seeds v d →
    fetch_html_content v = some html_content →
    u ∈ extract_links html_content →
    Reachable fetch_html_content seeds u (d + 1)

/-- The markup of an anchor element whose `href` attribute is `u`. -/
def anchor (u : Str) : Str := ANCHOR ++ [' '] ++ HREF ++ u ++ [DQUOTE, '>']

/-- The URL `http://a` of the scenario in section 8 of the specification. -/
def urlA : Str := "http://a".toList

/-- The URL `http://b` of the scenario. -/
def urlB : Str := "http://b".toList

/-- The URL `http://c` of the scenario. -/
def urlC : Str := "http://c".toList

/-- The URL `http://d` of the scenario. -/
def urlD : Str := "http://d".toList

/-- The web of the scenario: page `a` links to `b` and `c`, page `b` links to `a` and
`d`, pages `c` and `d` have no links, and every other fetch fails. -/
def scenarioWeb (url : Str) : Option Str :=
  if url = urlA then some (anchor urlB ++ anchor urlC)
  else if url = urlB then some (anchor urlA ++ anchor urlD)
  else if url = urlC then some []
  else if url = urlD then some []
  else none

/-- A web in which every fetch fails. -/
def deadWeb (_ : Str) : Option Str := none

/-- Every node `enqueue` has created so far, in the order of creation: addresses are
handed out in sequence and nodes are never overwritten, so this is the list of all
items ever enqueued. -/
def allocated (s : Store) : List Item := (List.range s.brk).map s.item

/-- The items `k` hops from the items of `q`. -/
def levelFrom (fetch_html_content : Str → Option Str) : Nat → List Item → List Item
  | 0, q => q
  | k + 1, q => levelFrom fetch_html_content k (q.flatMap (children fetch_html_content))

/-- A number of iterations after which the loop of `fetch_url`, started on the seeds,
has ended. -/
def crawlFuel (fetch_html_content : Str → Option Str) (maxDepth : Int) (seeds : List Str) :
    Nat :=
  roundsSteps fetch_html_content maxDepth (maxDepth.toNat + 1) (seeds.map (fun u => (u, 0))) + 1

/-- The state of the single-threaded loop of `fetch_url` after at most `n` iterations
(fewer when `dequeue` returned `NULL` earlier). -/
def fetch_url_steps (fetch_html_content : Str → Option Str) (maxDepth : Int) :
    Nat → Crawl → Crawl
  | 0, c => c
  | n + 1, c =>
    match fetch_url_iter fetch_html_content maxDepth c with
    | none => c
    | some c1 => fetch_url_steps fetch_html_content maxDepth n c1

/-- The items enqueued in the first `k` rounds. -/
def roundsEnqueued (fetch_html_content : Str → Option Str) (maxDepth : Int) :
    Nat → List Item → List Item
  | 0, _ => []
  | k + 1, q =>
    expand fetch_html_content maxDepth q ++
      roundsEnqueued fetch_html_content maxDepth k (expand fetch_html_content maxDepth q)

/-- The last node of the chain that starts at pointer `p`, that is the node whose
`next` is `NULL`, looked for among at most `fuel` nodes; `none` for an empty chain. -/
def chainLast (cell : Nat → URLQueueNode) : Nat → Option Nat → Option Nat
  | 0, _ => none
  | _ + 1, none => none
  | fuel + 1, some p =>
    match (cell p).next with
    | none => some p
    | some n => chainLast cell fuel (some n)

/-- The structural invariant of the linked queue as the code relies on it: `head` is
`NULL` exactly when `tail` is; `tail` is the last node of the chain from `head`; and
`tail->next` is `NULL`. -/
def structuralInvariant (s : Store) : Prop :=
  (s.queue.head = none ↔ s.queue.tail = none) ∧
  s.queue.tail = chainLast s.cell s.brk s.queue.head ∧
  s.queue.tail.bind (fun t => (s.cell t).next) = none

/-- The NUL character that terminates a C string. -/
def NUL : Char := Char.ofNat 0

/-- The number of values of `size_t` (64 bits). -/
def SIZE_MODULUS : Nat := 2 ^ 64

/-- `realloc(block, n)` when it succeeds: a block of `n` bytes that starts with the old
bytes, as many as fit; `NULL` (`none`) counts as an empty old block. The bytes beyond
the old content are indeterminate; the model fills them with NUL. -/
def realloc (block : Option Str) (n : Nat) : Str :=
  ((block.getD []) ++ List.replicate n NUL).take n

/-- `memcpy(dst, src, n)`: the first `n` bytes of `dst` are replaced by those of `src`. -/
def memcpy (dst src : Str) (n : Nat) : Str :=
  src.take n ++ dst.drop n

/-- `write_callback` (lines 88-98) with `realloc` succeeding. `ptr` is the data block
handed over by libcurl, `html_content` the buffer `*html_content` before the call
(`none` for `NULL`). Returns the return value and the buffer after the call. -/
def write_callback (ptr : Str) (size nmemb : Nat) (html_content : Option Str) :
    Nat × Option Str :=
  let total_size := (size * nmemb) % SIZE_MODULUS
  let block := realloc html_content (total_size + 1)
  let copied := memcpy block ptr total_size
  (total_size, some (copied.set total_size NUL))

/-- The calls libcurl makes for a response body that arrives in the pieces `chunks`:
one call of `write_callback` per piece, in order, with `size = 1` and `nmemb` the
number of bytes of the piece, all on the same buffer. Returns the return values of the
calls and the buffer after the last one. -/
def deliver : List Str → Option Str → List Nat × Option Str
  | [], html_content => ([], html_content)
  | chunk :: rest, html_content =>
    let r := write_callback chunk 1 chunk.length html_content
    let rs := deliver rest r.2
    (r.1 :: rs.1, rs.2)

/-- The nine characters that open a link in the documents of claim C13: `<a`, a blank,
and `href=` with the opening double quote. -/
def LINK_OPEN : Str := ANCHOR ++ [' '] ++ HREF

/-- The document `s0 ++ link u1 ++ s1 ++ ... ++ link un ++ sn`, where `link u` is
`LINK_OPEN ++ u` followed by a double quote; `segments` lists the pairs `(ui, si)`. -/
def linkDocument (s0 : Str) (segments : List (Str × Str)) : Str :=
  s0 ++ segments.flatMap (fun p => LINK_OPEN ++ p.1 ++ [DQUOTE] ++ p.2)

/-- Two links in a paragraph, each followed by its text and closing tag. -/
def sampleSegments : List (Str × Str) :=
  [(urlB, ">b</a> and ".toList), (urlC, ">c</a></p>".toList)]

/-- The loop of `parse_html` with its exit made visible: `some` once
`strstr(cursor, "<a")` has returned `NULL`, `none` if that has not happened within
`fuel` evaluations of the loop condition. -/
def parse_html_run (depth : Int) : Nat → Str → Store → Option Store
  | 0, _, _ => none
  | fuel + 1, cursor, s =>
    match parse_html_iter depth cursor s with
    | none => some s
    | some (cursor2, s2) => parse_html_run depth fuel cursor2 s2

/-- Malformed markup: an anchor without `href`. -/
def noHrefDocument : Str := "<a name=x>text</a>".toList

/-- Malformed markup: a good link, then an `href` whose value has no closing quote. -/
def openQuoteDocument : Str := anchor urlB ++ "<a href=".toList ++ [DQUOTE] ++ urlC

/-- Malformed markup: the text ends right after `<a`. -/
def anchorAtEndDocument : Str := "text<a".toList

/-- A document without any `a` element: an `abbr` element and a style-sheet `link`. -/
def abbrDocument : Str :=
  "<abbr>HTML</abbr><link href=".toList ++ [DQUOTE] ++ "style.css".toList ++ [DQUOTE, '>']

/-- A document whose only `a` element has no `href` attribute, followed by a
style-sheet `link`. -/
def bareAnchorDocument : Str :=
  "<a name=".toList ++ [DQUOTE] ++ "top".toList ++ [DQUOTE] ++ "></a><link href=".toList
    ++ [DQUOTE] ++ "style.css".toList ++ [DQUOTE, '>']

/-- An upper bound on the number of steps the workers spend on an item and on
everything that descends from it, `n` being the number of depths left below the bound:
the `dequeue`, the depth test with the fetch, one step per iteration of the loop of
`parse_html` and one for its exit, and the same for every link of the body. -/
def treeCost (fetch_html_content : Str → Option Str) : Nat → Item → Nat
  | 0, _ => 2
  | n + 1, x =>
    match fetch_html_content x.1 with
    | none => 2
    | some html_content =>
      html_content.length + 3 +
        ((extract_links html_content).map
          (fun v => treeCost fetch_html_content n (v, x.2 + 1))).sum

/-- The cost of an item at its depth. -/
def itemCost (fetch_html_content : Str → Option Str) (maxDepth : Int) (x : Item) : Nat :=
  treeCost fetch_html_content (maxDepth - x.2).toNat x

/-- The cost of the links still to be found from `cursor` in a body fetched for an
item of depth `depth`. -/
def linksCost (fetch_html_content : Str → Option Str) (maxDepth : Int) (depth : Int)
    (cursor : Str) : Nat :=
  ((extract_links cursor).map
    (fun v => itemCost fetch_html_content maxDepth (v, depth + 1))).sum

/-- The node a worker holds, if any. -/
def Worker.held : Worker → Option Nat
  | Worker.holding node => some node
  | Worker.parsing node _ => some node
  | _ => none

/-- The steps a worker still has to take for the node it holds, plus the final
`dequeue` that makes it return. -/
def workerCost (fetch_html_content : Str → Option Str) (maxDepth : Int) (s : Store) :
    Worker → Nat
  | Worker.atDequeue => 1
  | Worker.returned => 0
  | Worker.holding node => itemCost fetch_html_content maxDepth (s.item node)
  | Worker.parsing node cursor =>
    cursor.length + 2 + linksCost fetch_html_content maxDepth (s.item node).2 cursor

/-- The measure that every step of a worker that has not returned decreases: the cost
of the queued items plus the cost of what the workers have in hand. -/
def Pool.potential (fetch_html_content : Str → Option Str) (maxDepth : Int) (p : Pool) :
    Nat :=
  ((contents p.store).map (itemCost fetch_html_content maxDepth)).sum +
    (p.workers.map (workerCost fetch_html_content maxDepth p.store)).sum

/-- The invariant of the workers on the shared queue: the queue is well formed and
every node held by a worker has been allocated. -/
def Pool.Valid (p : Pool) : Prop :=
  WellFormed p.store ∧ ∀ w ∈ p.workers, ∀ node, w.held = some node → node < p.store.brk

/-- The number of steps of `schedule` that are taken by a worker that has not
returned. -/
def Pool.effectiveSteps (fetch_html_content : Str → Option Str) (maxDepth : Int) :
    Pool → List Nat → Nat
  | _, [] => 0
  | p, i :: rest =>
    (match p.workers[i]? with
      | none => 0
      | some Worker.returned => 0
      | some _ => 1) +
    Pool.effectiveSteps fetch_html_content maxDepth
      (Pool.step fetch_html_content maxDepth p i) rest

/-- What an observer of `main` sees. -/
structure MainRun where
  /-- The value `main` has returned; `none` while it still waits in `pthread_join`. -/
  status : Option Int
  /-- The queue and the threads, once `initQueue` has run and the threads have been
  created; `none` when `main` has done neither. -/
  pool : Option Pool

/-- `main` (lines 190-232). `argv` are the program arguments, the program name first,
so `argc` is `argv.length`; `logOpens` tells whether `fopen` of the log file succeeds;
`schedule` is the order in which the threads take their steps up to the moment of
observation. `pthread_join` returns for a thread when it has returned from
`fetch_url`. -/
def main (argv : List Str) (logOpens : Bool) (fetch_html_content : Str → Option Str)
    (schedule : List Nat) : MainRun :=
  if argv.length < 2 then
    { status := some 1, pool := none }
  else if logOpens = false then
    { status := some 1, pool := none }
  else
    let p := Pool.run fetch_html_content MAX_DEPTH (Pool.start NUM_THREADS (argv.drop 1))
      schedule
    if p.workers.all (fun w => decide (w = Worker.returned)) = true then
      { status := some 0, pool := some p }
    else
      { status := none, pool := some p }

/-- The program name, `argv[0]`. -/
def programName : Str := "./crawler".toList

/-- The largest value of the 32-bit `int` of the source. -/
def INT_MAX : Int := 2147483647

/-- The smallest value of the 32-bit `int` of the source. -/
def INT_MIN : Int := -2147483648

/-- The sum of two `int` values as the compiled program computes it: the exact sum
when it is representable, otherwise the sum reduced modulo `2 ^ 32` into the range of
`int` (`INT_MAX + 1` gives `INT_MIN`). -/
def int_add (a b : Int) : Int := (a + b + 2147483648) % 4294967296 - 2147483648

/-- One evaluation of the loop condition and body of `parse_html` (lines 141-158), with
`depth + 1` computed in `int` as the source does (line 152). It differs from
`parse_html_iter` only at `depth = INT_MAX`. -/
def parse_html_iter_int (depth : Int) (cursor : Str) (s : Store) : Option (Str × Store) :=
  match strstr cursor ANCHOR with
  | none => none
  | some cursor1 =>
    match strstr cursor1 HREF with
    | none => some (cursor1.drop 1, s)
    | some href =>
      let href_start := href.drop 6
      match strchr href_start DQUOTE with
      | none => some (cursor1.drop 1, s)
      | some href_end =>
        let url_length := href_start.length - href_end.length
        let url := href_start.take url_length
        some (href_end.drop 1, enqueue s url (int_add depth 1))

/-- The `while` loop of `parse_html` with `int` arithmetic, for at most `fuel`
iterations. -/
def parse_html_loop_int (depth : Int) : Nat → Str → Store → Store
  | 0, _, s => s
  | fuel + 1, cursor, s =>
    match parse_html_iter_int depth cursor s with
    | none => s
    | some (cursor2, s2) => parse_html_loop_int depth fuel cursor2 s2

/-- `parse_html(html_content, queue, depth)` (lines 137-159) for an arbitrary `int`
argument `depth`, with `depth + 1` computed in `int`. -/
def parse_html_int (html_content : Str) (s : Store) (depth : Int) : Store :=
  parse_html_loop_int depth html_content.length html_content s

/-- The item a worker has dequeued but not yet put to the depth test and the fetch. -/
def Worker.inHand (s : Store) : Worker → List Item
  | Worker.holding node => [s.item node]
  | _ => []

/-- The items a worker inside `parse_html` has still to enqueue: the links between its
cursor and the end of the body, at the depth after that of its node. -/
def Worker.pending (s : Store) : Worker → List Item
  | Worker.parsing node cursor =>
    (extract_links cursor).map (fun u => (u, (s.item node).2 + 1))
  | _ => []

/-- The node a worker has dequeued but not yet put to the depth test and the fetch. -/
def Worker.holdingNode : Worker → List Nat
  | Worker.holding node => [node]
  | _ => []

/-- The bookkeeping of a crawl by several workers on the queue seeded with `seeds`,
`k` being the number of nodes dequeued so far and `nodes` the nodes for which
`fetch_html_content` has been called, in the order of the calls. The queue is the
chain of the nodes `k, k + 1, ...` up to the last one allocated; the workers hold nodes
dequeued earlier; the fetch record lists the items of `nodes`; no node occurs twice
among `nodes` and the nodes still in hand; every fetch recorded was for an item below
the depth bound; counted with multiplicity, the fetches recorded and the items still in
hand are the dequeued items of depth below the bound; and the nodes allocated plus the
links still pending are the seeds plus the children of the fetches recorded. -/
structure Pool.Ledger (fetch_html_content : Str → Option Str) (maxDepth : Int)
    (seeds : List Str) (p : Pool) (k : Nat) (nodes : List Nat) : Prop where
  chain : QueueChain p.store (List.range' k (p.store.brk - k))
  kle : k ≤ p.store.brk
  held : ∀ w ∈ p.workers, ∀ node, w.held = some node → node < k
  record : p.fetched = nodes.map p.store.item
  dequeued : ∀ a ∈ nodes, a < k
  once : ∀ a : Nat,
    nodes.count a + (p.workers.map (fun w => w.holdingNode.count a)).sum ≤ 1
  depth : ∀ x ∈ p.fetched, x.2 < maxDepth
  fetchedCount : ∀ x : Item, x.2 < maxDepth →
    p.fetched.count x + (p.workers.map (fun w => (w.inHand p.store).count x)).sum
      = ((List.range k).map p.store.item).count x
  enqueuedCount : ∀ x : Item,
    (allocated p.store).count x + (p.workers.map (fun w => (w.pending p.store).count x)).sum
      = (seeds.map (fun u => (u, (0 : Int)))).count x
        + (p.fetched.flatMap (children fetch_html_content)).count x

/-- A schedule of the four workers that runs the crawl of the scenario to completion:
worker 0 dequeues the seed, fetches `a` and enqueues `b`; worker 1 dequeues `b` while
worker 0 goes on to enqueue `c`, dequeue it and fetch it; then the two take turns. -/
def interleaved : List Nat :=
  [0, 0, 0, 1, 0, 0, 0, 0, 1] ++ (List.replicate 9 [0, 1]).flatten ++ [2, 3]

/-! ## Theorems -/

theorem Linked.congr {cell cell2 : Nat → URLQueueNode} :
    ∀ {addrs : List Nat} {p : Option Nat}, (∀ a ∈ addrs, cell2 a = cell a) →
      Linked cell p addrs → Linked cell2 p addrs
  | [], _, _, h => h
  | a :: rest, _, hc, h => by
    refine ⟨h.1, ?_⟩
    rw [hc a (List.mem_cons_self _ _)]
    exact Linked.congr (fun b hb => hc b (List.mem_cons_of_mem _ hb)) h.2

theorem walk_of_linked {cell : Nat → URLQueueNode} :
    ∀ {addrs : List Nat} {p : Option Nat} {fuel : Nat}, Linked cell p addrs →
      addrs.length ≤ fuel →
      walk cell fuel p = addrs.map (fun a => ((cell a).url, (cell a).depth))
  | [], p, fuel, h, _ => by
    have hp : p = none := h
    subst hp
    cases fuel <;> rfl
  | a :: rest, p, fuel, h, hl => by
    obtain ⟨hp, hrest⟩ := h
    subst hp
    cases fuel with
    | zero => simp at hl
    | succ f =>
      simp only [walk, List.map_cons]
      rw [walk_of_linked hrest (by simpa using hl)]

theorem length_le_of_nodup_bound {addrs : List Nat} {n : Nat} (hn : addrs.Nodup)
    (hb : ∀ a ∈ addrs, a < n) : addrs.length ≤ n := by
  have h1 : addrs.toFinset ⊆ Finset.range n := by
    intro a ha
    simp only [List.mem_toFinset] at ha
    simpa using hb a ha
  have h2 := Finset.card_le_card h1
  rwa [List.toFinset_card_of_nodup hn, Finset.card_range] at h2

theorem QueueChain.contents_eq {s : Store} {addrs : List Nat} (h : QueueChain s addrs) :
    contents s = addrs.map s.item :=
  walk_of_linked h.linked (length_le_of_nodup_bound h.nodup h.bound)

theorem Linked.snoc {cell : Nat → URLQueueNode} {n : Nat} :
    ∀ {addrs : List Nat} {p : Option Nat} {t : Nat}, Linked cell p (addrs ++ [t]) →
      t ∉ addrs → n ∉ addrs → n ≠ t →
      ∀ (node : URLQueueNode), node.next = none →
      Linked (Function.update (Function.update cell n node) t
        { Function.update cell n node t with next := some n }) p (addrs ++ [t] ++ [n])
  | [], p, t, h, _, _, hnt, node, hnode => by
    obtain ⟨hp, _⟩ := h
    refine ⟨hp, ?_, ?_⟩
    · simp
    · simp only [Function.update_same, Function.update_noteq hnt, hnode]
      rfl
  | a :: rest, p, t, h, ht, hn, hnt, node, hnode => by
    obtain ⟨hp, hrest⟩ := h
    have hat : a ≠ t := fun e => ht (by simp [e])
    have han : a ≠ n := fun e => hn (by simp [e])
    refine ⟨hp, ?_⟩
    rw [Function.update_noteq hat, Function.update_noteq han]
    exact Linked.snoc hrest (fun m => ht (List.mem_cons_of_mem _ m))
      (fun m => hn (List.mem_cons_of_mem _ m)) hnt node hnode

theorem QueueChain.tail_none {s : Store} {addrs : List Nat} (h : QueueChain s addrs)
    (ht : s.queue.tail = none) : addrs = [] := by
  have := h.tail
  rw [ht] at this
  simpa using this.symm

theorem QueueChain.tail_some {s : Store} {addrs : List Nat} {t : Nat} (h : QueueChain s addrs)
    (ht : s.queue.tail = some t) : ∃ init, addrs = init ++ [t] := by
  have h1 := h.tail
  rw [ht] at h1
  rcases List.eq_nil_or_concat addrs with h0 | ⟨init, b, hb⟩
  · subst h0; simp at h1
  · subst hb
    simp at h1
    exact ⟨init, by rw [h1, List.concat_eq_append]⟩

/-- `enqueue` on a well-formed queue links a new node, at address `brk`, after the
nodes already there, and leaves their `url` and `depth` fields alone. -/
theorem enqueue_chain {s : Store} {addrs : List Nat} (h : QueueChain s addrs) (url : Str)
    (depth : Int) :
    QueueChain (enqueue s url depth) (addrs ++ [s.brk]) ∧
      (enqueue s url depth).item s.brk = (url, depth) ∧
      (enqueue s url depth).brk = s.brk + 1 ∧
      ∀ a, a ≠ s.brk → (enqueue s url depth).item a = s.item a := by
  have hfresh : s.brk ∉ addrs := fun m => Nat.lt_irrefl _ (h.bound _ m)
  cases ht : s.queue.tail with
  | none =>
    have h0 := h.tail_none ht
    subst h0
    have hhead : s.queue.head = none := h.linked
    refine ⟨⟨by simp, by simp [enqueue, ht], ?_, by simp [enqueue, ht]⟩, ?_, ?_, ?_⟩
    · simp [enqueue, ht, Linked]
    · simp [enqueue, ht, Store.item]
    · simp [enqueue, ht]
    · intro a ha
      simp [enqueue, ht, Store.item, Function.update_noteq ha]
  | some t =>
    obtain ⟨init, hinit⟩ := h.tail_some ht
    subst hinit
    have hnd := h.nodup
    rw [List.nodup_append] at hnd
    have htinit : t ∉ init := fun m => hnd.2.2 m (by simp)
    have htb : t < s.brk := h.bound t (by simp)
    have hnt : s.brk ≠ t := fun e => by omega
    refine ⟨⟨?_, ?_, ?_, by simp [enqueue, ht]⟩, ?_, ?_, ?_⟩
    · rw [List.nodup_append]
      refine ⟨h.nodup, by simp, ?_⟩
      intro a ha hb
      simp at hb
      subst hb
      exact hfresh ha
    · intro a ha
      simp only [enqueue, ht]
      rcases List.mem_append.1 ha with m | m
      · exact Nat.lt_succ_of_lt (h.bound a m)
      · simp at m; omega
    · simp only [enqueue, ht]
      exact Linked.snoc h.linked htinit (fun m => hfresh (by simp [m])) hnt _ rfl
    · simp [enqueue, ht, Store.item, Function.update_noteq hnt]
    · simp [enqueue, ht]
    · intro a ha
      simp only [enqueue, ht, Store.item]
      by_cases hat : a = t
      · subst hat
        simp [Function.update_noteq ha]
      · simp [Function.update_noteq hat, Function.update_noteq ha]

/-- `dequeue` on an empty well-formed queue returns `NULL` and changes nothing. -/
theorem dequeue_chain_nil {s : Store} (h : QueueChain s []) : dequeue s = (none, s) := by
  have hhead : s.queue.head = none := h.linked
  simp [dequeue, hhead]

/-- `dequeue` on a non-empty well-formed queue returns the first node and leaves the
chain of the others; the heap is untouched. -/
theorem dequeue_chain_cons {s : Store} {a : Nat} {rest : List Nat} (h : QueueChain s (a :: rest)) :
    (dequeue s).1 = some a ∧ QueueChain (dequeue s).2 rest ∧
      (dequeue s).2.cell = s.cell ∧ (dequeue s).2.brk = s.brk := by
  obtain ⟨hhead, hrest⟩ := h.linked
  have hnd := h.nodup
  rw [List.nodup_cons] at hnd
  cases rest with
  | nil =>
    have hn : (s.cell a).next = none := hrest
    have hd : dequeue s = (some a, { s with queue := { head := none, tail := none } }) := by
      simp [dequeue, hhead, hn]
    rw [hd]
    exact ⟨rfl, ⟨by simp, by simp, rfl, by simp⟩, rfl, rfl⟩
  | cons b rest2 =>
    obtain ⟨hn, hrest2⟩ := hrest
    have hd : dequeue s =
        (some a, { s with queue := { head := some b, tail := s.queue.tail } }) := by
      simp [dequeue, hhead, hn]
    rw [hd]
    refine ⟨rfl, ⟨hnd.2, ?_, ⟨rfl, hrest2⟩, ?_⟩, rfl, rfl⟩
    · intro x hx
      exact h.bound x (List.mem_cons_of_mem _ hx)
    · have := h.tail
      simpa [List.getLast?_cons_cons] using this

theorem initQueue_chain (s : Store) : QueueChain (initQueue s) [] :=
  ⟨List.nodup_nil, by simp, rfl, rfl⟩

theorem enqueue_contents {s : Store} (h : WellFormed s) (url : Str) (depth : Int) :
    WellFormed (enqueue s url depth) ∧
      contents (enqueue s url depth) = contents s ++ [(url, depth)] := by
  obtain ⟨addrs, hr⟩ := h
  obtain ⟨hr2, hnew, _, hold⟩ := enqueue_chain hr url depth
  refine ⟨⟨_, hr2⟩, ?_⟩
  rw [hr2.contents_eq, hr.contents_eq, List.map_append, List.map_singleton, hnew]
  congr 1
  apply List.map_congr_left
  intro a ha
  exact hold a (fun e => Nat.lt_irrefl _ (e ▸ hr.bound a ha))

theorem dequeue_contents {s : Store} (h : WellFormed s) :
    WellFormed (dequeue s).2 ∧
      (dequeue s).1.map (dequeue s).2.item = (contents s).head? ∧
      contents (dequeue s).2 = (contents s).tail ∧
      (dequeue s).2.cell = s.cell := by
  obtain ⟨addrs, hr⟩ := h
  cases addrs with
  | nil =>
    rw [dequeue_chain_nil hr, hr.contents_eq]
    exact ⟨⟨_, hr⟩, rfl, rfl, rfl⟩
  | cons a rest =>
    obtain ⟨h1, h2, h3, _⟩ := dequeue_chain_cons hr
    refine ⟨⟨_, h2⟩, ?_, ?_, h3⟩
    · rw [h1, hr.contents_eq]
      simp [Store.item, h3]
    · rw [h2.contents_eq, hr.contents_eq]
      simp only [List.map_cons, List.tail_cons]
      apply List.map_congr_left
      intro b _
      simp [Store.item, h3]

theorem dequeue_empty {s : Store} (h : WellFormed s) (he : contents s = []) :
    dequeue s = (none, s) := by
  obtain ⟨addrs, hr⟩ := h
  rw [hr.contents_eq] at he
  have h0 : addrs = [] := by simpa using he
  subst h0
  exact dequeue_chain_nil hr

theorem runOps_fifo : ∀ (ops : List QueueOp) (s : Store), WellFormed s →
    WellFormed (runOps ops s).1 ∧ (runOps ops s).2 = (fifoOps ops (contents s)).2 ∧
      contents (runOps ops s).1 = (fifoOps ops (contents s)).1
  | [], s, h => ⟨h, rfl, rfl⟩
  | QueueOp.enq url depth :: ops, s, h => by
    obtain ⟨hw, hc⟩ := enqueue_contents h url depth
    have ih := runOps_fifo ops _ hw
    rw [hc] at ih
    exact ih
  | QueueOp.deq :: ops, s, h => by
    obtain ⟨hw, hout, hc, _⟩ := dequeue_contents h
    have ih := runOps_fifo ops _ hw
    rw [hc] at ih
    simp only [runOps]
    cases hq : contents s with
    | nil =>
      rw [hq] at ih hout
      simp only [fifoOps]
      exact ⟨ih.1, by rw [hout, ih.2.1]; rfl, ih.2.2⟩
    | cons x q =>
      rw [hq] at ih hout
      simp only [fifoOps]
      exact ⟨ih.1, by rw [hout, ih.2.1]; rfl, ih.2.2⟩

/-- **C6.** The linked queue is FIFO. For every sequence of `enqueue` and `dequeue`
calls made after `initQueue`, the values returned by the `dequeue` calls and the final
queue contents are those of a first-in-first-out sequence; in the state reached, a
further `enqueue` appends its `(url, depth)` pair after the unchanged existing items,
and a further `dequeue` returns the oldest item (or `NULL` when there is none) and
leaves the others in order. -/
theorem queue_is_fifo (s0 : Store) (ops : List QueueOp) :
    (runOps ops (initQueue s0)).2 = (fifoOps ops []).2 ∧
    contents (runOps ops (initQueue s0)).1 = (fifoOps ops []).1 ∧
    (∀ (url : Str) (depth : Int),
      contents (enqueue (runOps ops (initQueue s0)).1 url depth)
        = contents (runOps ops (initQueue s0)).1 ++ [(url, depth)]) ∧
    (dequeue (runOps ops (initQueue s0)).1).1.map
        (dequeue (runOps ops (initQueue s0)).1).2.item
      = (contents (runOps ops (initQueue s0)).1).head? ∧
    contents (dequeue (runOps ops (initQueue s0)).1).2
      = (contents (runOps ops (initQueue s0)).1).tail := by
  have h0 : WellFormed (initQueue s0) := ⟨[], initQueue_chain s0⟩
  have hc0 : contents (initQueue s0) = [] := (initQueue_chain s0).contents_eq
  obtain ⟨hw, hout, hc⟩ := runOps_fifo ops _ h0
  rw [hc0] at hout hc
  obtain ⟨_, hd1, hd2, _⟩ := dequeue_contents hw
  exact ⟨hout, hc, fun url depth => (enqueue_contents hw url depth).2, hd1, hd2⟩

/-- **C7.** In every state reached from `initQueue`: `dequeue` on an empty queue
returns `NULL` and leaves the memory as it was, so the queue is still empty and a
later `enqueue` makes its item the only one; and when the queue holds exactly one item
`x`, of two atomic `dequeue` calls by callers `A` and `B`, in either order, exactly one
returns a node, which carries `x`, the other returns `NULL`, and the queue ends empty. -/
theorem dequeue_empty_and_single (s0 : Store) (ops : List QueueOp) :
    (contents (runOps ops (initQueue s0)).1 = [] →
      dequeue (runOps ops (initQueue s0)).1 = (none, (runOps ops (initQueue s0)).1) ∧
      contents (dequeue (runOps ops (initQueue s0)).1).2 = [] ∧
      ∀ (url : Str) (depth : Int),
        contents (enqueue (dequeue (runOps ops (initQueue s0)).1).2 url depth)
          = [(url, depth)]) ∧
    (∀ (x : Item) (aFirst : Bool), contents (runOps ops (initQueue s0)).1 = [x] →
      ((∃ p, (dequeueTwice aFirst (runOps ops (initQueue s0)).1).1 = some p ∧
            (dequeueTwice aFirst (runOps ops (initQueue s0)).1).2.2.item p = x ∧
            (dequeueTwice aFirst (runOps ops (initQueue s0)).1).2.1 = none) ∨
        (∃ p, (dequeueTwice aFirst (runOps ops (initQueue s0)).1).2.1 = some p ∧
            (dequeueTwice aFirst (runOps ops (initQueue s0)).1).2.2.item p = x ∧
            (dequeueTwice aFirst (runOps ops (initQueue s0)).1).1 = none)) ∧
      contents (dequeueTwice aFirst (runOps ops (initQueue s0)).1).2.2 = []) := by
  have h0 : WellFormed (initQueue s0) := ⟨[], initQueue_chain s0⟩
  obtain ⟨hw, _, _⟩ := runOps_fifo ops _ h0
  generalize (runOps ops (initQueue s0)).1 = s at hw ⊢
  refine ⟨fun he => ?_, fun x aFirst hx => ?_⟩
  · have hd := dequeue_empty hw he
    rw [hd]
    refine ⟨rfl, he, fun url depth => ?_⟩
    rw [(enqueue_contents hw url depth).2, he]
    rfl
  · obtain ⟨hw1, hout1, hc1, hcell1⟩ := dequeue_contents hw
    rw [hx] at hout1 hc1
    have hd2 := dequeue_empty hw1 hc1
    cases h1 : (dequeue s).1 with
    | none => rw [h1] at hout1; simp at hout1
    | some p =>
      rw [h1] at hout1
      have hp : (dequeue s).2.item p = x := by simpa using hout1
      cases aFirst
      · refine ⟨Or.inr ⟨p, ?_, ?_, ?_⟩, ?_⟩ <;> simp [dequeueTwice, hd2, h1, hp, hc1]
      · refine ⟨Or.inl ⟨p, ?_, ?_, ?_⟩, ?_⟩ <;> simp [dequeueTwice, hd2, h1, hp, hc1]

theorem strstr_length : ∀ (hay needle r : Str), strstr hay needle = some r →
    r.length ≤ hay.length ∧ needle.length ≤ r.length
  | [], needle, r, h => by
    simp only [strstr] at h
    split at h
    · rename_i hn
      cases h
      simp [hn]
    · cases h
  | c :: rest, needle, r, h => by
    simp only [strstr] at h
    split at h
    · rename_i hp
      cases h
      exact ⟨le_refl _, (List.isPrefixOf_iff_prefix.1 hp).length_le⟩
    · have := strstr_length rest needle r h
      exact ⟨Nat.le_succ_of_le this.1, this.2⟩

theorem strchr_length : ∀ (s : Str) (c : Char) (r : Str), strchr s c = some r →
    r.length ≤ s.length ∧ 0 < r.length
  | [], _, _, h => by cases h
  | x :: rest, c, r, h => by
    simp only [strchr] at h
    split at h
    · cases h
      simp
    · have := strchr_length rest c r h
      exact ⟨Nat.le_succ_of_le this.1, this.2⟩

theorem scan_iter_length {cursor cursor2 : Str} {u : Option Str}
    (h : scan_iter cursor = some (cursor2, u)) : cursor2.length < cursor.length := by
  unfold scan_iter at h
  split at h
  · cases h
  · rename_i c1 h1
    have l1 := strstr_length _ _ _ h1
    have la : ANCHOR.length = 2 := rfl
    split at h
    · cases h
      simp only [List.length_drop]
      omega
    · rename_i href h2
      have l2 := strstr_length _ _ _ h2
      split at h
      · cases h
        simp only [List.length_drop]
        omega
      · rename_i href_end h3
        have l3 := strchr_length _ _ _ h3
        cases h
        simp only [List.length_drop] at l3 ⊢
        omega

theorem parse_html_iter_eq (depth : Int) (cursor : Str) (s : Store) :
    parse_html_iter depth cursor s = (scan_iter cursor).map (fun r =>
      (r.1, match r.2 with
        | none => s
        | some url => enqueue s url (depth + 1))) := by
  unfold parse_html_iter scan_iter
  cases strstr cursor ANCHOR with
  | none => rfl
  | some c1 =>
    dsimp only
    cases strstr c1 HREF with
    | none => rfl
    | some href =>
      dsimp only
      cases strchr (href.drop 6) DQUOTE <;> rfl

/-- Fuel beyond the length of the remaining text changes nothing: the loop of
`parse_html` has exited by then. -/
theorem parse_html_loop_fuel (depth : Int) : ∀ (fuel : Nat) (cursor : Str) (s : Store),
    cursor.length ≤ fuel →
      parse_html_loop depth fuel cursor s = parse_html_loop depth cursor.length cursor s := by
  intro fuel
  induction fuel using Nat.strong_induction_on with
  | _ fuel ih =>
    intro cursor s hl
    cases fuel with
    | zero =>
      have : cursor.length = 0 := by omega
      rw [this]
    | succ f =>
      cases hc : cursor.length with
      | zero =>
        have hnil : cursor = [] := List.length_eq_zero.1 hc
        subst hnil
        simp [parse_html_loop, parse_html_iter, strstr, ANCHOR]
      | succ n =>
        simp only [parse_html_loop]
        rw [parse_html_iter_eq]
        cases hs : scan_iter cursor with
        | none => rfl
        | some r =>
          obtain ⟨c2, u⟩ := r
          have hlt := scan_iter_length hs
          simp only [Option.map_some']
          rw [ih f (Nat.lt_succ_self _) c2 _ (by omega),
            ih n (by omega) c2 _ (by omega)]

theorem links_loop_fuel : ∀ (fuel : Nat) (cursor : Str), cursor.length ≤ fuel →
    links_loop fuel cursor = links_loop cursor.length cursor := by
  intro fuel
  induction fuel using Nat.strong_induction_on with
  | _ fuel ih =>
    intro cursor hl
    cases fuel with
    | zero =>
      have : cursor.length = 0 := by omega
      rw [this]
    | succ f =>
      cases hc : cursor.length with
      | zero =>
        have hnil : cursor = [] := List.length_eq_zero.1 hc
        subst hnil
        simp [links_loop, scan_iter, strstr, ANCHOR]
      | succ n =>
        simp only [links_loop]
        cases hs : scan_iter cursor with
        | none => rfl
        | some r =>
          obtain ⟨c2, u⟩ := r
          have hlt := scan_iter_length hs
          cases u with
          | none =>
            simp only
            rw [ih f (Nat.lt_succ_self _) c2 (by omega), ih n (by omega) c2 (by omega)]
          | some url =>
            simp only
            rw [ih f (Nat.lt_succ_self _) c2 (by omega), ih n (by omega) c2 (by omega)]

theorem parse_html_loop_contents (depth : Int) : ∀ (fuel : Nat) (cursor : Str) (s : Store),
    WellFormed s →
      WellFormed (parse_html_loop depth fuel cursor s) ∧
      contents (parse_html_loop depth fuel cursor s)
        = contents s ++ (links_loop fuel cursor).map (fun u => (u, depth + 1))
  | 0, _, s, h => ⟨h, by simp [parse_html_loop, links_loop]⟩
  | fuel + 1, cursor, s, h => by
    simp only [parse_html_loop, links_loop]
    rw [parse_html_iter_eq]
    cases hs : scan_iter cursor with
    | none => exact ⟨h, by simp⟩
    | some r =>
      obtain ⟨c2, u⟩ := r
      cases u with
      | none => exact parse_html_loop_contents depth fuel c2 s h
      | some url =>
        obtain ⟨hw, hc⟩ := enqueue_contents h url (depth + 1)
        obtain ⟨hw2, hc2⟩ := parse_html_loop_contents depth fuel c2 _ hw
        refine ⟨hw2, ?_⟩
        simp only [Option.map_some'] at hw2 hc2 ⊢
        rw [hc2, hc]
        simp

/-- The effect of `parse_html` on a well-formed queue: the links of the body are
appended, in order, at depth `depth + 1`. -/
theorem parse_html_contents (html_content : Str) (s : Store) (depth : Int)
    (h : WellFormed s) :
    WellFormed (parse_html html_content s depth) ∧
      contents (parse_html html_content s depth)
        = contents s ++ (extract_links html_content).map (fun u => (u, depth + 1)) :=
  parse_html_loop_contents depth _ _ s h

theorem dequeue_eq_none {s : Store} (h : (dequeue s).1 = none) :
    s.queue.head = none ∧ dequeue s = (none, s) := by
  unfold dequeue at h ⊢
  cases hh : s.queue.head with
  | none => simp
  | some t =>
    rw [hh] at h
    cases hn : (s.cell t).next <;> simp [hn] at h

theorem contents_of_head_none {s : Store} (h : s.queue.head = none) : contents s = [] := by
  unfold contents
  rw [h]
  cases s.brk <;> rfl

theorem Pool.step_length (f : Str → Option Str) (m : Int) (p : Pool) (i : Nat) :
    (Pool.step f m p i).workers.length = p.workers.length := by
  unfold Pool.step
  split
  · rfl
  · rfl
  · split <;> simp
  · split
    · simp
    · split <;> simp
  · split <;> simp

/-- A step leaves worker `i` in the state `returned` only if it was there already (and
then nothing changes) or if its `dequeue` found `head == NULL`, which changes nothing
in memory. -/
theorem Pool.step_returned (f : Str → Option Str) (m : Int) (p : Pool) (i : Nat)
    (h : (Pool.step f m p i).workers[i]? = some Worker.returned) :
    (p.workers[i]? = some Worker.returned ∧ Pool.step f m p i = p) ∨
    (p.workers[i]? = some Worker.atDequeue ∧ p.store.queue.head = none ∧
      (Pool.step f m p i).store = p.store) := by
  unfold Pool.step at h ⊢
  cases hw : p.workers[i]? with
  | none =>
    rw [hw] at h
    simp only at h
    rw [hw] at h
    cases h
  | some w =>
    have hi : i < p.workers.length := by
      rcases List.getElem?_eq_some.1 hw with ⟨hi, _⟩
      exact hi
    rw [hw] at h
    cases w with
    | returned => exact Or.inl ⟨rfl, rfl⟩
    | atDequeue =>
      right
      simp only at h ⊢
      cases hd : dequeue p.store with
      | mk r s1 =>
        cases r with
        | none =>
          have := dequeue_eq_none (s := p.store) (by rw [hd])
          rw [hd] at this
          refine ⟨trivial, this.1, ?_⟩
          simp only
          exact (Prod.mk.inj this.2).2
        | some node =>
          rw [hd] at h
          simp only [List.getElem?_set_self hi] at h
          cases h
    | holding node =>
      exfalso
      simp only at h
      split at h
      · simp only [List.getElem?_set_self hi] at h
        cases h
      · split at h <;> simp only [List.getElem?_set_self hi] at h <;> cases h
    | parsing node cursor =>
      exfalso
      simp only at h
      split at h <;> simp only [List.getElem?_set_self hi] at h <;> cases h

theorem Pool.step_out_of_range (f : Str → Option Str) (m : Int) (p : Pool) (i : Nat)
    (h : p.workers.length ≤ i) : Pool.step f m p i = p := by
  unfold Pool.step
  rw [List.getElem?_eq_none h]

theorem Pool.step_all_returned (f : Str → Option Str) (m : Int) (p : Pool) (i : Nat)
    (hinv : (∀ w ∈ p.workers, w = Worker.returned) → p.store.queue.head = none)
    (h : ∀ w ∈ (Pool.step f m p i).workers, w = Worker.returned) :
    (Pool.step f m p i).store.queue.head = none := by
  by_cases hi : i < p.workers.length
  · have hi2 : i < (Pool.step f m p i).workers.length := by
      rw [Pool.step_length]; exact hi
    have hget : (Pool.step f m p i).workers[i]? = some Worker.returned := by
      rw [List.getElem?_eq_getElem hi2]
      exact congrArg some (h _ (List.getElem_mem _))
    rcases Pool.step_returned f m p i hget with ⟨_, hs⟩ | ⟨_, hh, hs⟩
    · rw [hs] at h ⊢
      exact hinv h
    · rw [hs]; exact hh
  · have hs := Pool.step_out_of_range f m p i (Nat.le_of_not_lt hi)
    rw [hs] at h ⊢
    exact hinv h

theorem Pool.run_all_returned (f : Str → Option Str) (m : Int) :
    ∀ (schedule : List Nat) (p : Pool),
      ((∀ w ∈ p.workers, w = Worker.returned) → p.store.queue.head = none) →
      (∀ w ∈ (Pool.run f m p schedule).workers, w = Worker.returned) →
      (Pool.run f m p schedule).store.queue.head = none
  | [], _, hinv, h => hinv h
  | i :: rest, p, hinv, h =>
    Pool.run_all_returned f m rest (Pool.step f m p i)
      (Pool.step_all_returned f m p i hinv) h

theorem Pool.inFlight_of_all_returned {p : Pool}
    (h : ∀ w ∈ p.workers, w = Worker.returned) : p.inFlight = 0 := by
  unfold Pool.inFlight
  rw [List.countP_eq_zero]
  intro w hw
  rw [h w hw]
  simp [Worker.inFlight]

/-- **C4.** Workers interleave on the shared queue, each `dequeue` and each `enqueue`
being one atomic step. In every state reachable from the start of `n > 0` workers on
the seeded queue in which all workers have returned from `fetch_url`, the queue is
empty (`head == NULL`, no items) and no worker holds an unfinished node; stated the
other way round, while the queue holds an item some worker has not returned. -/
theorem all_returned_queue_empty (fetch_html_content : Str → Option Str) (maxDepth : Int)
    (n : Nat) (seeds : List Str) (schedule : List Nat) (hn : 0 < n) :
    ((∀ w ∈ (Pool.run fetch_html_content maxDepth (Pool.start n seeds) schedule).workers,
        w = Worker.returned) →
      (Pool.run fetch_html_content maxDepth (Pool.start n seeds) schedule).store.queue.head
          = none ∧
      contents (Pool.run fetch_html_content maxDepth (Pool.start n seeds) schedule).store
          = [] ∧
      (Pool.run fetch_html_content maxDepth (Pool.start n seeds) schedule).inFlight = 0) ∧
    (contents (Pool.run fetch_html_content maxDepth (Pool.start n seeds) schedule).store
          ≠ [] →
      ∃ w ∈ (Pool.run fetch_html_content maxDepth (Pool.start n seeds) schedule).workers,
        w ≠ Worker.returned) := by
  have hstart : (∀ w ∈ (Pool.start n seeds).workers, w = Worker.returned) →
      (Pool.start n seeds).store.queue.head = none := by
    intro h
    have hm : Worker.atDequeue ∈ (Pool.start n seeds).workers := by
      simp only [Pool.start, List.mem_replicate]
      exact ⟨Nat.pos_iff_ne_zero.1 hn, trivial⟩
    cases h _ hm
  have key := Pool.run_all_returned fetch_html_content maxDepth schedule _ hstart
  refine ⟨fun h => ⟨key h, contents_of_head_none (key h),
    Pool.inFlight_of_all_returned h⟩, fun hne => ?_⟩
  by_contra hall
  push_neg at hall
  exact hne (contents_of_head_none (key hall))

/-- Witness for C4: with every fetch failing, worker 0 drains the one seed and all
four workers return; the queue is then empty. -/
theorem all_returned_queue_empty_witness :
    0 < NUM_THREADS ∧
    (∀ w ∈ (Pool.run deadWeb MAX_DEPTH (Pool.start NUM_THREADS [urlA])
        [0, 0, 0, 1, 2, 3]).workers, w = Worker.returned) ∧
    contents (Pool.run deadWeb MAX_DEPTH (Pool.start NUM_THREADS [urlA])
        [0, 0, 0, 1, 2, 3]).store = [] :=
  ⟨by decide, by decide,
    ((all_returned_queue_empty deadWeb MAX_DEPTH NUM_THREADS [urlA] [0, 0, 0, 1, 2, 3]
      (by decide)).1 (by decide)).2.1⟩

/-- Counterexample to C5: worker 0 has dequeued the seed `http://a` and not yet
fetched it; worker 1 then finds the queue empty and returns although one item is in
flight. Worker 0 goes on to enqueue `http://b`, which worker 1 never sees. -/
theorem returns_while_sibling_in_flight :
    (Pool.run scenarioWeb MAX_DEPTH (Pool.start NUM_THREADS [urlA]) [0]).workers[1]?
        = some Worker.atDequeue ∧
    (Pool.run scenarioWeb MAX_DEPTH (Pool.start NUM_THREADS [urlA]) [0]).inFlight = 1 ∧
    (Pool.run scenarioWeb MAX_DEPTH (Pool.start NUM_THREADS [urlA]) [0, 1]).workers[1]?
        = some Worker.returned ∧
    (Pool.run scenarioWeb MAX_DEPTH (Pool.start NUM_THREADS [urlA]) [0, 1]).workers[0]?
        = some (Worker.holding 0) ∧
    (Pool.run scenarioWeb MAX_DEPTH (Pool.start NUM_THREADS [urlA]) [0, 1]).inFlight = 1 ∧
    contents (Pool.run scenarioWeb MAX_DEPTH (Pool.start NUM_THREADS [urlA])
        [0, 1, 0, 0]).store = [(urlB, 1)] ∧
    (Pool.run scenarioWeb MAX_DEPTH (Pool.start NUM_THREADS [urlA])
        [0, 1, 0, 0]).workers[1]? = some Worker.returned := by
  decide

/-- **C5, as amended.** In every state of the workers on the shared queue, a worker
that has not returned reaches the state `returned` in a step only from the `dequeue` of
its loop condition and only when the queue is empty at that step (the queue stays
empty in the step); and a worker whose `dequeue` finds the queue empty returns in that
very step. The count of in-flight items plays no part. -/
theorem returns_iff_dequeue_finds_empty (fetch_html_content : Str → Option Str)
    (maxDepth : Int) (p : Pool) (i : Nat) :
    (p.workers[i]? ≠ some Worker.returned →
      (Pool.step fetch_html_content maxDepth p i).workers[i]? = some Worker.returned →
      p.workers[i]? = some Worker.atDequeue ∧ p.store.queue.head = none ∧
        contents p.store = [] ∧
        contents (Pool.step fetch_html_content maxDepth p i).store = []) ∧
    (p.workers[i]? = some Worker.atDequeue → p.store.queue.head = none →
      (Pool.step fetch_html_content maxDepth p i).workers[i]? = some Worker.returned ∧
        (Pool.step fetch_html_content maxDepth p i).inFlight = p.inFlight) := by
  refine ⟨fun hne h => ?_, fun hw hh => ?_⟩
  · rcases Pool.step_returned fetch_html_content maxDepth p i h with ⟨h1, _⟩ | ⟨h1, h2, h3⟩
    · exact absurd h1 hne
    · exact ⟨h1, h2, contents_of_head_none h2, by rw [h3]; exact contents_of_head_none h2⟩
  · have hi : i < p.workers.length := by
      rcases List.getElem?_eq_some.1 hw with ⟨hi, _⟩
      exact hi
    have hget : p.workers[i] = Worker.atDequeue := by
      rcases List.getElem?_eq_some.1 hw with ⟨_, hg⟩
      exact hg
    have hd : dequeue p.store = (none, p.store) := by
      simp [dequeue, hh]
    have hs : Pool.step fetch_html_content maxDepth p i =
        { store := p.store, workers := p.workers.set i Worker.returned,
          fetched := p.fetched } := by
      unfold Pool.step
      rw [hw]
      simp only [hd]
    rw [hs]
    refine ⟨List.getElem?_set_self hi, ?_⟩
    simp only [Pool.inFlight]
    rw [List.countP_set _ _ _ _ hi, hget]
    simp [Worker.inFlight]

/-- Witness for C5 as amended: in the scenario, after worker 0 has dequeued the seed,
worker 1 returns on the empty queue. -/
theorem returns_iff_dequeue_finds_empty_witness :
    (Pool.run scenarioWeb MAX_DEPTH (Pool.start NUM_THREADS [urlA]) [0]).workers[1]?
        = some Worker.atDequeue ∧
    contents (Pool.run scenarioWeb MAX_DEPTH (Pool.start NUM_THREADS [urlA]) [0]).store
        = [] :=
  ⟨((returns_iff_dequeue_finds_empty scenarioWeb MAX_DEPTH
      (Pool.run scenarioWeb MAX_DEPTH (Pool.start NUM_THREADS [urlA]) [0]) 1).1
      (by decide) (by decide)).1,
   ((returns_iff_dequeue_finds_empty scenarioWeb MAX_DEPTH
      (Pool.run scenarioWeb MAX_DEPTH (Pool.start NUM_THREADS [urlA]) [0]) 1).1
      (by decide) (by decide)).2.2.1⟩

theorem allocated_enqueue (s : Store) (url : Str) (depth : Int) :
    allocated (enqueue s url depth) = allocated s ++ [(url, depth)] := by
  have hbrk : (enqueue s url depth).brk = s.brk + 1 := by
    unfold enqueue
    cases s.queue.tail <;> rfl
  have hnew : (enqueue s url depth).item s.brk = (url, depth) := by
    unfold enqueue Store.item
    cases s.queue.tail with
    | none => simp
    | some t =>
      by_cases ht : s.brk = t
      · subst ht; simp
      · simp [Function.update_noteq ht]
  have hold : ∀ a, a ≠ s.brk → (enqueue s url depth).item a = s.item a := by
    intro a ha
    unfold enqueue Store.item
    cases s.queue.tail with
    | none => simp [Function.update_noteq ha]
    | some t =>
      by_cases hat : a = t
      · subst hat; simp [Function.update_noteq ha]
      · simp [Function.update_noteq hat, Function.update_noteq ha]
  unfold allocated
  rw [hbrk, List.range_succ, List.map_append, List.map_singleton, hnew]
  congr 1
  apply List.map_congr_left
  intro a ha
  exact hold a (Nat.ne_of_lt (List.mem_range.1 ha))

theorem allocated_dequeue (s : Store) : allocated (dequeue s).2 = allocated s := by
  unfold dequeue
  cases s.queue.head with
  | none => rfl
  | some t =>
    dsimp only
    cases (s.cell t).next <;> rfl

theorem allocated_parse_html_loop (depth : Int) : ∀ (fuel : Nat) (cursor : Str) (s : Store),
    allocated (parse_html_loop depth fuel cursor s)
      = allocated s ++ (links_loop fuel cursor).map (fun u => (u, depth + 1))
  | 0, _, s => by simp [parse_html_loop, links_loop]
  | fuel + 1, cursor, s => by
    simp only [parse_html_loop, links_loop]
    rw [parse_html_iter_eq]
    cases hs : scan_iter cursor with
    | none => simp
    | some r =>
      obtain ⟨c2, u⟩ := r
      cases u with
      | none => exact allocated_parse_html_loop depth fuel c2 s
      | some url =>
        simp only [Option.map_some']
        rw [allocated_parse_html_loop depth fuel c2, allocated_enqueue]
        simp

theorem fetchable_singleton (m : Int) (x : Item) :
    fetchable m [x] = if x.2 ≥ m then [] else [x] := by
  unfold fetchable
  by_cases h : x.2 < m
  · have h2 : ¬ x.2 ≥ m := not_le.2 h
    simp [List.filter, h, h2]
  · have h2 : x.2 ≥ m := not_lt.1 h
    simp [List.filter, h, h2]

/-- One iteration of the loop of `fetch_url` on a well-formed queue, in terms of the
queue contents. -/
theorem fetch_url_iter_spec (f : Str → Option Str) (m : Int) (c : Crawl)
    (hw : WellFormed c.store) :
    (contents c.store = [] → fetch_url_iter f m c = none) ∧
    (∀ x rest, contents c.store = x :: rest →
      ∃ c1, fetch_url_iter f m c = some c1 ∧ WellFormed c1.store ∧
        contents c1.store = rest ++ enqueuedFor f m x ∧
        c1.fetched = c.fetched ++ fetchable m [x] ∧
        allocated c1.store = allocated c.store ++ enqueuedFor f m x) := by
  obtain ⟨hw1, hout, hc, _⟩ := dequeue_contents hw
  have hal := allocated_dequeue c.store
  refine ⟨fun he => ?_, fun x rest hx => ?_⟩
  · unfold fetch_url_iter
    rw [dequeue_empty hw he]
  · rw [hx] at hout hc
    unfold fetch_url_iter
    cases hd : dequeue c.store with
    | mk r s1 =>
      rw [hd] at hw1 hout hc hal
      simp only at hw1 hout hc hal
      cases r with
      | none => simp at hout
      | some node =>
        have hitem : s1.item node = x := by simpa using hout
        have hurl : (s1.cell node).url = x.1 := by rw [← hitem]; rfl
        have hdepth : (s1.cell node).depth = x.2 := by rw [← hitem]; rfl
        simp only [hurl, hdepth, hitem]
        rw [fetchable_singleton]
        unfold enqueuedFor children
        by_cases hge : x.2 ≥ m
        · simp only [hge, if_true]
          exact ⟨_, rfl, hw1, by simpa using hc, by simp, by simpa using hal⟩
        · simp only [hge, if_false]
          cases hf : f x.1 with
          | none => exact ⟨_, rfl, hw1, by simpa using hc, rfl, by simpa using hal⟩
          | some html =>
            obtain ⟨hw2, hc2⟩ := parse_html_contents html s1 x.2 hw1
            refine ⟨_, rfl, hw2, by rw [hc2, hc]; rfl, rfl, ?_⟩
            simp only [parse_html]
            rw [allocated_parse_html_loop, hal]
            rfl

/-- Processing the first part `xs` of the queue takes `xs.length` iterations, appends
what those items enqueue and records those that are fetched. -/
theorem fetch_url_sweep (f : Str → Option Str) (m : Int) :
    ∀ (xs ys : List Item) (c : Crawl), WellFormed c.store → contents c.store = xs ++ ys →
      ∃ c1, WellFormed c1.store ∧ contents c1.store = ys ++ expand f m xs ∧
        c1.fetched = c.fetched ++ fetchable m xs ∧
        allocated c1.store = allocated c.store ++ expand f m xs ∧
        ∀ fuel, fetch_url f m (xs.length + fuel) c = fetch_url f m fuel c1
  | [], ys, c, hw, hc =>
    ⟨c, hw, by simpa [expand] using hc, by simp [fetchable], by simp [expand],
      fun fuel => by simp⟩
  | x :: xs, ys, c, hw, hc => by
    obtain ⟨c1, h1, hw1, hc1, hf1, ha1⟩ := (fetch_url_iter_spec f m c hw).2 x (xs ++ ys) hc
    obtain ⟨c2, hw2, hc2, hf2, ha2, hrun⟩ :=
      fetch_url_sweep f m xs (ys ++ enqueuedFor f m x) c1 hw1
        (by rw [hc1, List.append_assoc])
    refine ⟨c2, hw2, ?_, ?_, ?_, fun fuel => ?_⟩
    · rw [hc2]
      simp [expand]
    · rw [hf2, hf1]
      simp [fetchable, List.filter_cons]
      split <;> simp
    · rw [ha2, ha1]
      simp [expand]
    · have : (x :: xs).length + fuel = (xs.length + fuel) + 1 := by
        simp only [List.length_cons]; omega
      rw [this]
      simp only [fetch_url, h1]
      exact hrun fuel

/-- The loop of `fetch_url` proceeds in rounds. -/
theorem fetch_url_rounds (f : Str → Option Str) (m : Int) :
    ∀ (k : Nat) (c : Crawl), WellFormed c.store →
      ∃ c1, WellFormed c1.store ∧ contents c1.store = generation f m k (contents c.store) ∧
        c1.fetched = c.fetched ++ roundsFetched f m k (contents c.store) ∧
        allocated c1.store = allocated c.store ++ roundsEnqueued f m k (contents c.store) ∧
        ∀ fuel, fetch_url f m (roundsSteps f m k (contents c.store) + fuel) c
          = fetch_url f m fuel c1
  | 0, c, hw =>
    ⟨c, hw, rfl, by simp [roundsFetched], by simp [roundsEnqueued],
      fun fuel => by simp [roundsSteps]⟩
  | k + 1, c, hw => by
    obtain ⟨c1, hw1, hc1, hf1, ha1, hrun1⟩ :=
      fetch_url_sweep f m (contents c.store) [] c hw (by simp)
    simp only [List.nil_append] at hc1
    obtain ⟨c2, hw2, hc2, hf2, ha2, hrun2⟩ := fetch_url_rounds f m k c1 hw1
    rw [hc1] at hc2 hf2 ha2 hrun2
    refine ⟨c2, hw2, hc2, ?_, ?_, fun fuel => ?_⟩
    · rw [hf2, hf1]
      simp [roundsFetched]
    · rw [ha2, ha1]
      simp [roundsEnqueued]
    · simp only [roundsSteps]
      rw [Nat.add_assoc, hrun1, hrun2]

/-- When the queue is empty after `k` rounds, the loop has ended: the fuel
`roundsSteps k + 1` yields the final state, with the queue empty and the fetches and
the enqueued items of those rounds recorded. -/
theorem fetch_url_terminates_of_generation (f : Str → Option Str) (m : Int) (k : Nat)
    (c : Crawl) (hw : WellFormed c.store) (hk : generation f m k (contents c.store) = []) :
    ∃ c1, fetch_url f m (roundsSteps f m k (contents c.store) + 1) c = some c1 ∧
      contents c1.store = [] ∧
      c1.fetched = c.fetched ++ roundsFetched f m k (contents c.store) ∧
      allocated c1.store = allocated c.store ++ roundsEnqueued f m k (contents c.store) := by
  obtain ⟨c1, hw1, hc1, hf1, ha1, hrun⟩ := fetch_url_rounds f m k c hw
  rw [hk] at hc1
  refine ⟨c1, ?_, hc1, hf1, ha1⟩
  rw [hrun 1]
  simp only [fetch_url, (fetch_url_iter_spec f m c1 hw1).1 hc1]

/-- The result of `fetch_url` does not depend on the fuel, once there is enough. -/
theorem fetch_url_fuel_unique (f : Str → Option Str) (m : Int) :
    ∀ (fuel1 fuel2 : Nat) (c r1 r2 : Crawl), fetch_url f m fuel1 c = some r1 →
      fetch_url f m fuel2 c = some r2 → r1 = r2
  | 0, _, _, _, _, h, _ => by simp [fetch_url] at h
  | _ + 1, 0, _, _, _, _, h => by simp [fetch_url] at h
  | a + 1, b + 1, c, r1, r2, h1, h2 => by
    simp only [fetch_url] at h1 h2
    cases hi : fetch_url_iter f m c with
    | none =>
      rw [hi] at h1 h2
      simp only [Option.some.injEq] at h1 h2
      rw [← h1, ← h2]
    | some c1 =>
      rw [hi] at h1 h2
      exact fetch_url_fuel_unique f m a b c1 r1 r2 h1 h2

theorem enqueue_foldl_contents : ∀ (urls : List Str) (s : Store), WellFormed s →
    WellFormed (urls.foldl (fun acc url => enqueue acc url 0) s) ∧
      contents (urls.foldl (fun acc url => enqueue acc url 0) s)
        = contents s ++ urls.map (fun u => (u, (0 : Int))) ∧
      allocated (urls.foldl (fun acc url => enqueue acc url 0) s)
        = allocated s ++ urls.map (fun u => (u, (0 : Int)))
  | [], s, h => ⟨h, by simp, by simp⟩
  | u :: urls, s, h => by
    obtain ⟨hw, hc⟩ := enqueue_contents h u 0
    obtain ⟨hw2, hc2, ha2⟩ := enqueue_foldl_contents urls (enqueue s u 0) hw
    refine ⟨hw2, ?_, ?_⟩
    · simp only [List.foldl_cons, List.map_cons]
      rw [hc2, hc]
      simp
    · simp only [List.foldl_cons, List.map_cons]
      rw [ha2, allocated_enqueue]
      simp

/-- The queue `main` hands to the workers is well formed and holds the seed URLs at
depth 0, in argument order; nothing else has been allocated. -/
theorem seed_queue_contents (seeds : List Str) :
    WellFormed (seed_queue seeds Store.fresh) ∧
      contents (seed_queue seeds Store.fresh) = seeds.map (fun u => (u, (0 : Int))) ∧
      allocated (seed_queue seeds Store.fresh) = seeds.map (fun u => (u, (0 : Int))) := by
  have h0 : WellFormed (initQueue Store.fresh) := ⟨[], initQueue_chain _⟩
  obtain ⟨hw, hc, ha⟩ := enqueue_foldl_contents seeds _ h0
  refine ⟨hw, ?_, ?_⟩
  · unfold seed_queue
    rw [hc, (initQueue_chain Store.fresh).contents_eq]
    rfl
  · unfold seed_queue
    rw [ha]
    rfl

theorem children_depth (f : Str → Option Str) (x y : Item) (h : y ∈ children f x) :
    y.2 = x.2 + 1 := by
  unfold children at h
  cases hf : f x.1 with
  | none => simp [hf] at h
  | some html =>
    simp only [hf, List.mem_map] at h
    obtain ⟨u, _, hu⟩ := h
    rw [← hu]

theorem levelFrom_succ (f : Str → Option Str) : ∀ (i : Nat) (q : List Item),
    levelFrom f (i + 1) q = (levelFrom f i q).flatMap (children f)
  | 0, _ => rfl
  | i + 1, q => by
    have := levelFrom_succ f i (q.flatMap (children f))
    simpa only [levelFrom] using this

theorem level_eq_levelFrom (f : Str → Option Str) (seeds : List Str) : ∀ (i : Nat),
    level f seeds i = levelFrom f i (seeds.map (fun u => (u, (0 : Int))))
  | 0 => rfl
  | i + 1 => by
    rw [levelFrom_succ, ← level_eq_levelFrom f seeds i]
    rfl

theorem expand_of_depth_ge (f : Str → Option Str) (m : Int) (q : List Item)
    (h : ∀ x ∈ q, m ≤ x.2) : expand f m q = [] ∧ fetchable m q = [] := by
  constructor
  · unfold expand
    rw [List.flatMap_eq_nil_iff]
    intro x hx
    simp [enqueuedFor, h x hx]
  · unfold fetchable
    rw [List.filter_eq_nil_iff]
    intro x hx
    simpa using h x hx

theorem expand_of_depth_lt (f : Str → Option Str) (m : Int) (q : List Item)
    (h : ∀ x ∈ q, x.2 < m) : expand f m q = q.flatMap (children f) ∧ fetchable m q = q := by
  constructor
  · unfold expand
    induction q with
    | nil => rfl
    | cons x q ih =>
      have hx : ¬ x.2 ≥ m := not_le.2 (h x (List.mem_cons_self _ _))
      simp only [List.flatMap_cons, enqueuedFor, hx, if_false]
      rw [ih (fun y hy => h y (List.mem_cons_of_mem _ hy))]
  · unfold fetchable
    rw [List.filter_eq_self]
    intro x hx
    simpa using h x hx

/-- On a queue whose items all have depth `j`, the loop runs `n + 1` rounds, where
`n` is the number of depths from `j` up to but excluding the bound: it fetches the
first `n` levels and the last round discards the level at the bound. -/
theorem rounds_closed_form (f : Str → Option Str) (m : Int) : ∀ (n : Nat) (q : List Item)
    (j : Nat), (∀ x ∈ q, x.2 = (j : Int)) → (m - j).toNat = n →
      generation f m (n + 1) q = [] ∧
      roundsFetched f m (n + 1) q = (List.range n).flatMap (fun i => levelFrom f i q) ∧
      roundsEnqueued f m (n + 1) q
        = (List.range n).flatMap (fun i => levelFrom f (i + 1) q)
  | 0, q, j, hq, hn => by
    have hge : ∀ x ∈ q, m ≤ x.2 := by
      intro x hx
      rw [hq x hx]
      omega
    obtain ⟨he, hf⟩ := expand_of_depth_ge f m q hge
    simp [generation, roundsFetched, roundsEnqueued, he, hf]
  | n + 1, q, j, hq, hn => by
    have hlt : ∀ x ∈ q, x.2 < m := by
      intro x hx
      rw [hq x hx]
      omega
    obtain ⟨he, hf⟩ := expand_of_depth_lt f m q hlt
    have hq2 : ∀ y ∈ q.flatMap (children f), y.2 = ((j + 1 : Nat) : Int) := by
      intro y hy
      obtain ⟨x, hx, hyx⟩ := List.mem_flatMap.1 hy
      rw [children_depth f x y hyx, hq x hx]
      push_cast
      rfl
    obtain ⟨ih1, ih2, ih3⟩ :=
      rounds_closed_form f m n (q.flatMap (children f)) (j + 1) hq2 (by push_cast; omega)
    refine ⟨?_, ?_, ?_⟩
    · simp only [generation] at ih1 ⊢
      rw [he]
      exact ih1
    · rw [roundsFetched, he, hf, ih2, List.range_succ_eq_map, List.flatMap_cons,
        List.flatMap_map]
      rfl
    · rw [roundsEnqueued, he, ih3, List.range_succ_eq_map, List.flatMap_cons,
        List.flatMap_map]
      rfl

/-- The whole run of the single-threaded loop from the seeds: it ends within
`crawlFuel` iterations with the queue empty; the calls of `fetch_html_content` are,
in order, the items of levels `0` to `maxDepth - 1`, and the items ever enqueued are
those of levels `0` to `maxDepth`. -/
theorem fetch_url_closed_form (f : Str → Option Str) (m : Int) (seeds : List Str) :
    ∃ c, fetch_url f m (crawlFuel f m seeds) (Crawl.start seeds) = some c ∧
      contents c.store = [] ∧
      c.fetched = (List.range m.toNat).flatMap (level f seeds) ∧
      allocated c.store = (List.range (m.toNat + 1)).flatMap (level f seeds) := by
  obtain ⟨hw, hc, ha⟩ := seed_queue_contents seeds
  have hq : ∀ x ∈ seeds.map (fun u => (u, (0 : Int))), x.2 = ((0 : Nat) : Int) := by
    intro x hx
    obtain ⟨u, _, hu⟩ := List.mem_map.1 hx
    rw [← hu]
    rfl
  obtain ⟨h1, h2, h3⟩ :=
    rounds_closed_form f m m.toNat (seeds.map (fun u => (u, (0 : Int)))) 0 hq (by simp)
  have hlev : (fun i => levelFrom f i (seeds.map (fun u => (u, (0 : Int)))))
      = level f seeds := by
    funext i
    exact (level_eq_levelFrom f seeds i).symm
  have hlev2 : (fun i => levelFrom f (i + 1) (seeds.map (fun u => (u, (0 : Int)))))
      = (level f seeds) ∘ Nat.succ := by
    funext i
    exact (level_eq_levelFrom f seeds (i + 1)).symm
  obtain ⟨c, hrun, hce, hfe, hae⟩ :=
    fetch_url_terminates_of_generation f m (m.toNat + 1) (Crawl.start seeds) hw
      (by rw [show (Crawl.start seeds).store = seed_queue seeds Store.fresh from rfl, hc]
          exact h1)
  rw [show (Crawl.start seeds).store = seed_queue seeds Store.fresh from rfl] at hrun hfe hae
  rw [hc] at hrun hfe hae
  refine ⟨c, hrun, hce, ?_, ?_⟩
  · rw [hfe, h2, hlev]
    rfl
  · rw [hae, ha, h3, hlev2, List.range_succ_eq_map, List.flatMap_cons, List.flatMap_map]
    rfl

theorem fetch_url_iter_fetched (f : Str → Option Str) (m : Int) (c c1 : Crawl)
    (h : fetch_url_iter f m c = some c1) (hb : ∀ x ∈ c.fetched, x.2 < m) :
    ∀ x ∈ c1.fetched, x.2 < m := by
  unfold fetch_url_iter at h
  cases hd : dequeue c.store with
  | mk r s1 =>
    rw [hd] at h
    cases r with
    | none => cases h
    | some node =>
      simp only at h
      split at h
      · cases h
        exact hb
      · rename_i hlt
        have hlt2 : (s1.cell node).depth < m := not_le.1 hlt
        split at h <;>
        · cases h
          intro x hx
          simp only [List.mem_append, List.mem_singleton] at hx
          rcases hx with hx | hx
          · exact hb x hx
          · rw [hx]
            exact hlt2

theorem fetch_url_steps_fetched (f : Str → Option Str) (m : Int) :
    ∀ (n : Nat) (c : Crawl), (∀ x ∈ c.fetched, x.2 < m) →
      ∀ x ∈ (fetch_url_steps f m n c).fetched, x.2 < m
  | 0, _, hb => hb
  | n + 1, c, hb => by
    simp only [fetch_url_steps]
    cases hi : fetch_url_iter f m c with
    | none => exact hb
    | some c1 =>
      exact fetch_url_steps_fetched f m n c1 (fetch_url_iter_fetched f m c c1 hi hb)

theorem fetch_url_eq_steps (f : Str → Option Str) (m : Int) :
    ∀ (fuel : Nat) (c r : Crawl), fetch_url f m fuel c = some r →
      r = fetch_url_steps f m fuel c
  | 0, _, _, h => by simp [fetch_url] at h
  | fuel + 1, c, r, h => by
    simp only [fetch_url, fetch_url_steps] at h ⊢
    cases hi : fetch_url_iter f m c with
    | none =>
      rw [hi] at h
      simp only [Option.some.injEq] at h
      exact h.symm
    | some c1 =>
      rw [hi] at h
      exact fetch_url_eq_steps f m fuel c1 r h

theorem Pool.step_fetched (f : Str → Option Str) (m : Int) (p : Pool) (i : Nat)
    (hb : ∀ x ∈ p.fetched, x.2 < m) : ∀ x ∈ (Pool.step f m p i).fetched, x.2 < m := by
  unfold Pool.step
  split
  · exact hb
  · exact hb
  · split <;> exact hb
  · rename_i node _
    split
    · exact hb
    · rename_i hlt
      have hlt2 : (p.store.cell node).depth < m := not_le.1 hlt
      split <;>
      · intro x hx
        simp only [List.mem_append, List.mem_singleton] at hx
        rcases hx with hx | hx
        · exact hb x hx
        · rw [hx]
          exact hlt2
  · split <;> exact hb

theorem Pool.run_fetched (f : Str → Option Str) (m : Int) :
    ∀ (schedule : List Nat) (p : Pool), (∀ x ∈ p.fetched, x.2 < m) →
      ∀ x ∈ (Pool.run f m p schedule).fetched, x.2 < m
  | [], _, hb => hb
  | i :: rest, p, hb =>
    Pool.run_fetched f m rest (Pool.step f m p i) (Pool.step_fetched f m p i hb)

/-- **C1.** The depth bound of `fetch_url`, for any value `maxDepth` of `MAX_DEPTH`.
(1) At every point of a single-threaded run from any memory state, and (2) at every
point of any interleaved run of `n` workers from the seeded queue, every item for which
`fetch_html_content` has been called has depth `< maxDepth`. (3) An iteration that
dequeues an item of depth `≥ maxDepth` from a well-formed queue makes no fetch and
enqueues nothing: the queue is left with the remaining items and no node is created.
(4) An iteration that dequeues an item of depth `maxDepth - 1` whose fetch succeeds
records the fetch and appends the links of the body at depth `maxDepth`. -/
theorem depth_bound_respected (fetch_html_content : Str → Option Str) (maxDepth : Int) :
    (∀ (s : Store) (n : Nat),
      ∀ x ∈ (fetch_url_steps fetch_html_content maxDepth n
              { store := s, fetched := [] }).fetched, x.2 < maxDepth) ∧
    (∀ (n : Nat) (seeds : List Str) (schedule : List Nat),
      ∀ x ∈ (Pool.run fetch_html_content maxDepth (Pool.start n seeds) schedule).fetched,
        x.2 < maxDepth) ∧
    (∀ (c : Crawl) (u : Str) (d : Int) (rest : List Item), WellFormed c.store →
      contents c.store = (u, d) :: rest → maxDepth ≤ d →
      ∃ c1, fetch_url_iter fetch_html_content maxDepth c = some c1 ∧
        c1.fetched = c.fetched ∧ contents c1.store = rest ∧
        allocated c1.store = allocated c.store) ∧
    (∀ (c : Crawl) (u : Str) (rest : List Item) (html_content : Str), WellFormed c.store →
      contents c.store = (u, maxDepth - 1) :: rest →
      fetch_html_content u = some html_content →
      ∃ c1, fetch_url_iter fetch_html_content maxDepth c = some c1 ∧
        c1.fetched = c.fetched ++ [(u, maxDepth - 1)] ∧
        contents c1.store
          = rest ++ (extract_links html_content).map (fun v => (v, maxDepth))) := by
  refine ⟨fun s n => ?_, fun n seeds schedule => ?_, ?_, ?_⟩
  · exact fetch_url_steps_fetched fetch_html_content maxDepth n _ (by simp)
  · exact Pool.run_fetched fetch_html_content maxDepth schedule _ (by simp [Pool.start])
  · intro c u d rest hw hc hd
    obtain ⟨c1, h1, _, hc1, hf1, ha1⟩ :=
      (fetch_url_iter_spec fetch_html_content maxDepth c hw).2 (u, d) rest hc
    have hge : (u, d).2 ≥ maxDepth := hd
    refine ⟨c1, h1, ?_, ?_, ?_⟩
    · rw [hf1, fetchable_singleton]
      simp [hge]
    · rw [hc1]
      simp [enqueuedFor, hge]
    · rw [ha1]
      simp [enqueuedFor, hge]
  · intro c u rest html hw hc hf
    obtain ⟨c1, h1, _, hc1, hf1, _⟩ :=
      (fetch_url_iter_spec fetch_html_content maxDepth c hw).2 (u, maxDepth - 1) rest hc
    have hlt : ¬ (u, maxDepth - 1).2 ≥ maxDepth := by
      simp
    refine ⟨c1, h1, ?_, ?_⟩
    · rw [hf1, fetchable_singleton]
      simp only [hlt, if_false]
    · rw [hc1]
      simp only [enqueuedFor, hlt, if_false, children, hf]
      simp

/-- Witness for C1 with `MAX_DEPTH = 3` on the web of the scenario: an item at depth 3
is discarded, an item at depth 2 is fetched and its links are enqueued at depth 3. -/
theorem depth_bound_respected_witness :
    (∃ c1, fetch_url_iter scenarioWeb MAX_DEPTH
        { store := enqueue (initQueue Store.fresh) urlA 3, fetched := [] } = some c1 ∧
      c1.fetched = [] ∧ contents c1.store = [] ∧
      allocated c1.store = allocated (enqueue (initQueue Store.fresh) urlA 3)) ∧
    (∃ c1, fetch_url_iter scenarioWeb MAX_DEPTH
        { store := enqueue (initQueue Store.fresh) urlA (MAX_DEPTH - 1), fetched := [] }
          = some c1 ∧
      c1.fetched = [] ++ [(urlA, MAX_DEPTH - 1)] ∧
      contents c1.store = [] ++ (extract_links (anchor urlB ++ anchor urlC)).map
        (fun v => (v, MAX_DEPTH))) :=
  ⟨(depth_bound_respected scenarioWeb MAX_DEPTH).2.2.1
      { store := enqueue (initQueue Store.fresh) urlA 3, fetched := [] } urlA 3 []
      (enqueue_contents ⟨[], initQueue_chain _⟩ urlA 3).1 (by decide) (by decide),
   (depth_bound_respected scenarioWeb MAX_DEPTH).2.2.2
      { store := enqueue (initQueue Store.fresh) urlA (MAX_DEPTH - 1), fetched := [] }
      urlA [] (anchor urlB ++ anchor urlC)
      (enqueue_contents ⟨[], initQueue_chain _⟩ urlA (MAX_DEPTH - 1)).1 (by decide)
      (by decide)⟩

/-- **C9.** When the item at the head of a well-formed queue has depth `< maxDepth`
and its fetch fails, the iteration of the loop of `fetch_url` records the fetch and
enqueues nothing: the queue afterwards is the queue before without its head and no
node has been created. The loop does not exit: it continues from that state, and if
items remain the next iteration dequeues one. -/
theorem failed_fetch_yields_no_children (fetch_html_content : Str → Option Str)
    (maxDepth : Int) (c : Crawl) (u : Str) (d : Int) (rest : List Item)
    (hw : WellFormed c.store) (hc : contents c.store = (u, d) :: rest)
    (hd : d < maxDepth) (hfail : fetch_html_content u = none) :
    ∃ c1, fetch_url_iter fetch_html_content maxDepth c = some c1 ∧
      contents c1.store = rest ∧
      allocated c1.store = allocated c.store ∧
      c1.fetched = c.fetched ++ [(u, d)] ∧
      (∀ fuel, fetch_url fetch_html_content maxDepth (fuel + 1) c
        = fetch_url fetch_html_content maxDepth fuel c1) ∧
      (rest ≠ [] → (fetch_url_iter fetch_html_content maxDepth c1).isSome = true) := by
  obtain ⟨c1, h1, hw1, hc1, hf1, ha1⟩ :=
    (fetch_url_iter_spec fetch_html_content maxDepth c hw).2 (u, d) rest hc
  have hlt : ¬ (u, d).2 ≥ maxDepth := not_le.2 hd
  have hkids : enqueuedFor fetch_html_content maxDepth (u, d) = [] := by
    simp only [enqueuedFor, hlt, if_false, children, hfail]
  rw [hkids, List.append_nil] at hc1 ha1
  refine ⟨c1, h1, hc1, ha1, ?_, fun fuel => ?_, fun hne => ?_⟩
  · rw [hf1, fetchable_singleton]
    simp only [hlt, if_false]
  · simp only [fetch_url, h1]
  · cases hr : rest with
    | nil => exact absurd hr hne
    | cons y rest2 =>
      obtain ⟨c2, h2, _⟩ :=
        (fetch_url_iter_spec fetch_html_content maxDepth c1 hw1).2 y rest2 (by rw [hc1, hr])
      rw [h2]
      rfl

/-- Witness for C9: two seeds on a web where every fetch fails. -/
theorem failed_fetch_yields_no_children_witness :
    ∃ c1, fetch_url_iter deadWeb MAX_DEPTH (Crawl.start [urlA, urlB]) = some c1 ∧
      contents c1.store = [(urlB, 0)] ∧
      allocated c1.store = allocated (Crawl.start [urlA, urlB]).store ∧
      c1.fetched = (Crawl.start [urlA, urlB]).fetched ++ [(urlA, 0)] ∧
      (∀ fuel, fetch_url deadWeb MAX_DEPTH (fuel + 1) (Crawl.start [urlA, urlB])
        = fetch_url deadWeb MAX_DEPTH fuel c1) ∧
      ([(urlB, (0 : Int))] ≠ [] → (fetch_url_iter deadWeb MAX_DEPTH c1).isSome = true) :=
  failed_fetch_yields_no_children deadWeb MAX_DEPTH (Crawl.start [urlA, urlB]) urlA 0
    [(urlB, 0)] (seed_queue_contents [urlA, urlB]).1 (by decide) (by decide) rfl

theorem level_range_one (f : Str → Option Str) (seeds : List Str) :
    (List.range 1).flatMap (level f seeds) = seeds.map (fun u => (u, (0 : Int))) := by
  rw [show List.range 1 = [0] from rfl, List.flatMap_cons, List.flatMap_nil,
    List.append_nil]
  rfl

/-- Counterexample to C10: with the depth bound 0 and the seed `http://a`, whose page
exists, the loop ends without any fetch; the seed is not fetched. -/
theorem depth_zero_fetches_no_seed :
    (fetch_url scenarioWeb 0 2 (Crawl.start [urlA])).map (fun c => c.fetched) = some [] ∧
    (fetch_url scenarioWeb 0 2 (Crawl.start [urlA])).map
      (fun c => c.fetched.map Prod.fst) ≠ some [urlA] := by
  decide

/-- **C10, as amended.** With the depth bound 0 the loop of `fetch_url`, started on
the seeded queue, ends after dequeuing each seed once, fetches nothing and enqueues
nothing: every seed has depth `0 ≥ 0` and is discarded. It is with the depth bound 1
that the loop fetches exactly the seeds, each once and in order, and nothing else. -/
theorem depth_zero_fetches_nothing (fetch_html_content : Str → Option Str)
    (seeds : List Str) :
    (∃ c, fetch_url fetch_html_content 0 (seeds.length + 1) (Crawl.start seeds) = some c ∧
      c.fetched = [] ∧ contents c.store = [] ∧
      allocated c.store = seeds.map (fun u => (u, (0 : Int)))) ∧
    (∃ c, fetch_url fetch_html_content 1 (crawlFuel fetch_html_content 1 seeds)
        (Crawl.start seeds) = some c ∧
      c.fetched = seeds.map (fun u => (u, (0 : Int))) ∧ contents c.store = []) := by
  constructor
  · obtain ⟨c, h, hc, hf, ha⟩ := fetch_url_closed_form fetch_html_content 0 seeds
    have hfuel : crawlFuel fetch_html_content 0 seeds = seeds.length + 1 := by
      simp [crawlFuel, roundsSteps]
    rw [hfuel] at h
    refine ⟨c, h, ?_, hc, ?_⟩
    · rw [hf]
      rfl
    · rw [ha]
      exact level_range_one fetch_html_content seeds
  · obtain ⟨c, h, hc, hf, _⟩ := fetch_url_closed_form fetch_html_content 1 seeds
    refine ⟨c, h, ?_, hc⟩
    rw [hf]
    exact level_range_one fetch_html_content seeds

theorem level_depth (f : Str → Option Str) (seeds : List Str) : ∀ (i : Nat),
    ∀ x ∈ level f seeds i, x.2 = (i : Int)
  | 0, x, hx => by
    obtain ⟨u, _, hu⟩ := List.mem_map.1 hx
    rw [← hu]
    rfl
  | i + 1, x, hx => by
    obtain ⟨y, hy, hxy⟩ := List.mem_flatMap.1 hx
    rw [children_depth f y x hxy, level_depth f seeds i y hy]
    push_cast
    rfl

theorem fetchable_levels (f : Str → Option Str) (m : Int) (seeds : List Str) :
    fetchable m ((List.range (m.toNat + 1)).flatMap (level f seeds))
      = (List.range m.toNat).flatMap (level f seeds) := by
  rw [List.range_succ, List.flatMap_append]
  unfold fetchable
  rw [List.filter_append]
  have h1 : ((List.range m.toNat).flatMap (level f seeds)).filter
      (fun x => decide (x.2 < m)) = (List.range m.toNat).flatMap (level f seeds) := by
    rw [List.filter_eq_self]
    intro x hx
    obtain ⟨i, hi, hxi⟩ := List.mem_flatMap.1 hx
    have hi2 : i < m.toNat := List.mem_range.1 hi
    have := level_depth f seeds i x hxi
    simp only [decide_eq_true_eq]
    omega
  have h2 : ([m.toNat].flatMap (level f seeds)).filter
      (fun x => decide (x.2 < m)) = [] := by
    rw [List.filter_eq_nil_iff]
    intro x hx
    obtain ⟨i, hi, hxi⟩ := List.mem_flatMap.1 hx
    have hi2 : i = m.toNat := List.mem_singleton.1 hi
    have := level_depth f seeds i x hxi
    simp only [decide_eq_true_eq]
    omega
  rw [h1, h2, List.append_nil]

theorem reachable_mem_level (f : Str → Option Str) (seeds : List Str) (u : Str) (d : Nat)
    (h : Reachable f seeds u d) : (u, (d : Int)) ∈ level f seeds d := by
  induction h with
  | seed hs => exact List.mem_map.2 ⟨_, hs, rfl⟩
  | @link v u html d _ hf hu ih =>
    refine List.mem_flatMap.2 ⟨(v, (d : Int)), ih, ?_⟩
    simp only [children, hf]
    refine List.mem_map.2 ⟨u, hu, ?_⟩
    push_cast
    rfl

/-- **C3.** For every seed list and every fetch function, the single-threaded loop of
`fetch_url` ends, and every URL reachable in `d` hops with `d < maxDepth` (a seed, or a
link extracted from a successfully fetched page reachable in `d - 1` hops) has been
fetched at depth `d` when it ends. -/
theorem reachable_is_fetched (fetch_html_content : Str → Option Str) (maxDepth : Int)
    (seeds : List Str) (u : Str) (d : Nat)
    (hr : Reachable fetch_html_content seeds u d) (hd : (d : Int) < maxDepth) :
    (∃ c, fetch_url fetch_html_content maxDepth
        (crawlFuel fetch_html_content maxDepth seeds) (Crawl.start seeds) = some c ∧
      (u, (d : Int)) ∈ c.fetched) ∧
    (∀ fuel c, fetch_url fetch_html_content maxDepth fuel (Crawl.start seeds) = some c →
      (u, (d : Int)) ∈ c.fetched ∧ u ∈ c.fetched.map Prod.fst) := by
  obtain ⟨c, h, _, hf, _⟩ := fetch_url_closed_form fetch_html_content maxDepth seeds
  have hmem : (u, (d : Int)) ∈ c.fetched := by
    rw [hf]
    exact List.mem_flatMap.2
      ⟨d, List.mem_range.2 (by omega), reachable_mem_level _ _ _ _ hr⟩
  refine ⟨⟨c, h, hmem⟩, fun fuel c2 h2 => ?_⟩
  have := fetch_url_fuel_unique fetch_html_content maxDepth _ _ _ _ _ h2 h
  subst this
  exact ⟨hmem, List.mem_map.2 ⟨_, hmem, rfl⟩⟩

/-- Witness for C3: in the scenario `http://d` is two hops from the seed (`a` links to
`b`, `b` links to `d`) and `2 < MAX_DEPTH`, so it is fetched. -/
theorem reachable_is_fetched_witness :
    ∃ c, fetch_url scenarioWeb MAX_DEPTH (crawlFuel scenarioWeb MAX_DEPTH [urlA])
        (Crawl.start [urlA]) = some c ∧ (urlD, ((2 : Nat) : Int)) ∈ c.fetched :=
  (reachable_is_fetched scenarioWeb MAX_DEPTH [urlA] urlD 2
    (Reachable.link
      (Reachable.link (Reachable.seed (by decide))
        (show scenarioWeb urlA = some (anchor urlB ++ anchor urlC) by decide) (by decide))
      (show scenarioWeb urlB = some (anchor urlA ++ anchor urlD) by decide) (by decide))
    (by decide)).1

/-- Witness for C7: `dequeue` right after `initQueue`, and two `dequeue` calls on the
queue holding only `http://a`. -/
theorem dequeue_empty_and_single_witness :
    contents (dequeue (runOps [] (initQueue Store.fresh)).1).2 = [] ∧
    contents (dequeueTwice false
      (runOps [QueueOp.enq urlA 0] (initQueue Store.fresh)).1).2.2 = [] :=
  ⟨((dequeue_empty_and_single Store.fresh []).1 (by decide)).2.1,
   ((dequeue_empty_and_single Store.fresh [QueueOp.enq urlA 0]).2 (urlA, 0) false
      (by decide)).2⟩

theorem chainLast_of_linked {cell : Nat → URLQueueNode} :
    ∀ {addrs : List Nat} {p : Option Nat} {fuel : Nat}, Linked cell p addrs →
      addrs.length ≤ fuel → chainLast cell fuel p = addrs.getLast?
  | [], p, fuel, h, _ => by
    have hp : p = none := h
    subst hp
    cases fuel <;> rfl
  | [a], p, fuel, h, hl => by
    obtain ⟨hp, hrest⟩ := h
    have hn : (cell a).next = none := hrest
    subst hp
    cases fuel with
    | zero => simp at hl
    | succ f => simp [chainLast, hn]
  | a :: b :: rest, p, fuel, h, hl => by
    obtain ⟨hp, hrest⟩ := h
    have hn : (cell a).next = some b := hrest.1
    subst hp
    cases fuel with
    | zero => simp at hl
    | succ f =>
      simp only [chainLast, hn, List.getLast?_cons_cons]
      rw [hn] at hrest
      exact chainLast_of_linked hrest (by simpa using hl)

theorem Linked.last_next {cell : Nat → URLQueueNode} {t : Nat} :
    ∀ {init : List Nat} {p : Option Nat}, Linked cell p (init ++ [t]) →
      (cell t).next = none
  | [], _, h => h.2
  | _ :: rest, _, h => @Linked.last_next cell t rest _ h.2

theorem QueueChain.structural {s : Store} {addrs : List Nat} (h : QueueChain s addrs) :
    structuralInvariant s := by
  have hlast := chainLast_of_linked h.linked (length_le_of_nodup_bound h.nodup h.bound)
  refine ⟨?_, by rw [h.tail, hlast], ?_⟩
  · cases addrs with
    | nil =>
      have hh : s.queue.head = none := h.linked
      have ht : s.queue.tail = none := h.tail
      simp [hh, ht]
    | cons a rest =>
      have hh : s.queue.head = some a := h.linked.1
      have ht := h.tail
      rw [hh, ht]
      simp [List.getLast?_eq_none_iff]
  · cases ht : s.queue.tail with
    | none => rfl
    | some t =>
      obtain ⟨init, hinit⟩ := h.tail_some ht
      subst hinit
      exact Linked.last_next h.linked

/-- **C17.** Every state of the linked queue reached from `initQueue` by `enqueue` and
`dequeue` calls satisfies the structural invariant: `head` is `NULL` if and only if
`tail` is `NULL`; `tail` is the last node of the chain that starts at `head`; and
`tail->next` is `NULL`. In particular, in such a state holding exactly one item,
`dequeue` resets both `head` and `tail` to `NULL`, and a later `enqueue` makes its new
node both the head and the tail. -/
theorem queue_structural_invariant (s0 : Store) (ops : List QueueOp) :
    structuralInvariant (runOps ops (initQueue s0)).1 ∧
    (∀ x : Item, contents (runOps ops (initQueue s0)).1 = [x] →
      (dequeue (runOps ops (initQueue s0)).1).2.queue.head = none ∧
      (dequeue (runOps ops (initQueue s0)).1).2.queue.tail = none ∧
      ∀ (url : Str) (depth : Int),
        (enqueue (dequeue (runOps ops (initQueue s0)).1).2 url depth).queue.head
          = some (dequeue (runOps ops (initQueue s0)).1).2.brk ∧
        (enqueue (dequeue (runOps ops (initQueue s0)).1).2 url depth).queue.tail
          = some (dequeue (runOps ops (initQueue s0)).1).2.brk ∧
        contents (enqueue (dequeue (runOps ops (initQueue s0)).1).2 url depth)
          = [(url, depth)] ∧
        structuralInvariant (enqueue (dequeue (runOps ops (initQueue s0)).1).2 url depth)) := by
  have h0 : WellFormed (initQueue s0) := ⟨[], initQueue_chain s0⟩
  obtain ⟨hw, _, _⟩ := runOps_fifo ops _ h0
  generalize (runOps ops (initQueue s0)).1 = s at hw ⊢
  obtain ⟨addrs, hch⟩ := hw
  refine ⟨hch.structural, fun x hx => ?_⟩
  rw [hch.contents_eq] at hx
  cases addrs with
  | nil => simp at hx
  | cons a rest =>
    have hrest : rest = [] := by
      simp only [List.map_cons, List.cons.injEq, List.map_eq_nil_iff] at hx
      exact hx.2
    subst hrest
    obtain ⟨_, h2, _, _⟩ := dequeue_chain_cons hch
    have hh : (dequeue s).2.queue.head = none := h2.linked
    have ht : (dequeue s).2.queue.tail = none := h2.tail
    refine ⟨hh, ht, fun url depth => ?_⟩
    obtain ⟨h3, _, _, _⟩ := enqueue_chain h2 url depth
    have hc := (enqueue_contents ⟨_, h2⟩ url depth).2
    rw [h2.contents_eq] at hc
    refine ⟨?_, ?_, by simpa using hc, h3.structural⟩
    · simp [enqueue, ht]
    · simp [enqueue, ht]

/-- Witness for C17: after `enqueue`, `dequeue` the queue is empty with `head` and
`tail` both `NULL`; the node of the next `enqueue` is head and tail. -/
theorem queue_structural_invariant_witness :
    (dequeue (runOps [QueueOp.enq urlA 0] (initQueue Store.fresh)).1).2.queue.head = none ∧
    (dequeue (runOps [QueueOp.enq urlA 0] (initQueue Store.fresh)).1).2.queue.tail = none ∧
    contents (enqueue (dequeue (runOps [QueueOp.enq urlA 0] (initQueue Store.fresh)).1).2
      urlB 1) = [(urlB, 1)] :=
  ⟨((queue_structural_invariant Store.fresh [QueueOp.enq urlA 0]).2 (urlA, 0)
      (by decide)).1,
   ((queue_structural_invariant Store.fresh [QueueOp.enq urlA 0]).2 (urlA, 0)
      (by decide)).2.1,
   (((queue_structural_invariant Store.fresh [QueueOp.enq urlA 0]).2 (urlA, 0)
      (by decide)).2.2 urlB 1).2.2.1⟩

theorem roundsFetched_length_le (f : Str → Option Str) (m : Int) :
    ∀ (k : Nat) (q : List Item), (roundsFetched f m k q).length ≤ roundsSteps f m k q
  | 0, _ => by simp [roundsFetched, roundsSteps]
  | k + 1, q => by
    simp only [roundsFetched, roundsSteps, List.length_append]
    have h1 : (fetchable m q).length ≤ q.length := List.length_filter_le _ _
    have h2 := roundsFetched_length_le f m k (expand f m q)
    omega

theorem level_depth_le (f : Str → Option Str) (m : Int) (seeds : List Str) (x : Item)
    (hx : x ∈ (List.range (m.toNat + 1)).flatMap (level f seeds)) :
    0 ≤ x.2 ∧ x.2 ≤ (m.toNat : Int) := by
  obtain ⟨i, hi, hxi⟩ := List.mem_flatMap.1 hx
  have hi2 : i < m.toNat + 1 := List.mem_range.1 hi
  have := level_depth f seeds i x hxi
  omega

/-- **C16.** For every seed list and every fetch function the single-threaded loop of
`fetch_url` terminates, cyclic link graphs included: after at most `crawlFuel`
iterations `dequeue` returns `NULL` on an empty queue. Every item ever enqueued has a
depth between 0 and the bound (`maxDepth` when it is not negative, as `MAX_DEPTH = 3`
is); every fetched item has depth below the bound, and the number of fetches is less
than `crawlFuel`. In each iteration on a well-formed queue the nodes created are the
items enqueued for the dequeued item: each has depth one more than that item, and
there are none when that item has depth `≥ maxDepth`. -/
theorem fetch_url_terminates (fetch_html_content : Str → Option Str) (maxDepth : Int)
    (seeds : List Str) :
    (∃ c, fetch_url fetch_html_content maxDepth (crawlFuel fetch_html_content maxDepth seeds)
        (Crawl.start seeds) = some c ∧
      contents c.store = [] ∧
      fetch_url_iter fetch_html_content maxDepth c = none ∧
      (∀ x ∈ allocated c.store, 0 ≤ x.2 ∧ x.2 ≤ (maxDepth.toNat : Int)) ∧
      (∀ x ∈ c.fetched, x.2 < maxDepth) ∧
      c.fetched.length < crawlFuel fetch_html_content maxDepth seeds) ∧
    (∀ (c : Crawl) (x : Item) (rest : List Item), WellFormed c.store →
      contents c.store = x :: rest →
      ∃ c1 added, fetch_url_iter fetch_html_content maxDepth c = some c1 ∧
        allocated c1.store = allocated c.store ++ added ∧
        contents c1.store = rest ++ added ∧
        (∀ y ∈ added, y.2 = x.2 + 1) ∧
        (maxDepth ≤ x.2 → added = [])) := by
  constructor
  · obtain ⟨hw, hc, _⟩ := seed_queue_contents seeds
    have hq : ∀ x ∈ seeds.map (fun u => (u, (0 : Int))), x.2 = ((0 : Nat) : Int) := by
      intro x hx
      obtain ⟨u, _, hu⟩ := List.mem_map.1 hx
      rw [← hu]
      rfl
    obtain ⟨h1, _, _⟩ :=
      rounds_closed_form fetch_html_content maxDepth maxDepth.toNat
        (seeds.map (fun u => (u, (0 : Int)))) 0 hq (by simp)
    obtain ⟨c, hrun, hce, hfe, _⟩ :=
      fetch_url_terminates_of_generation fetch_html_content maxDepth (maxDepth.toNat + 1)
        (Crawl.start seeds) hw
        (by rw [show (Crawl.start seeds).store = seed_queue seeds Store.fresh from rfl, hc]
            exact h1)
    rw [show (Crawl.start seeds).store = seed_queue seeds Store.fresh from rfl, hc] at hrun hfe
    obtain ⟨c2, hrun2, _, hf2, ha2⟩ :=
      fetch_url_closed_form fetch_html_content maxDepth seeds
    have heq : c = c2 :=
      fetch_url_fuel_unique fetch_html_content maxDepth _ _ _ _ _ hrun hrun2
    subst heq
    have hexit : fetch_url_iter fetch_html_content maxDepth c = none := by
      have hsteps := fetch_url_rounds fetch_html_content maxDepth (maxDepth.toNat + 1)
        (Crawl.start seeds) hw
      obtain ⟨c3, hw3, hc3, _, _, hrun3⟩ := hsteps
      rw [show (Crawl.start seeds).store = seed_queue seeds Store.fresh from rfl, hc,
        h1] at hc3
      have h3 := hrun3 1
      rw [show (Crawl.start seeds).store = seed_queue seeds Store.fresh from rfl, hc] at h3
      have hnone := (fetch_url_iter_spec fetch_html_content maxDepth c3 hw3).1 hc3
      have h4 : fetch_url fetch_html_content maxDepth 1 c3 = some c3 := by
        simp only [fetch_url, hnone]
      rw [h4] at h3
      have : c = c3 := by
        have h5 : fetch_url fetch_html_content maxDepth
            (crawlFuel fetch_html_content maxDepth seeds) (Crawl.start seeds) = some c3 := h3
        exact fetch_url_fuel_unique fetch_html_content maxDepth _ _ _ _ _ hrun h5
      rw [this]
      exact hnone
    refine ⟨c, hrun, hce, hexit, ?_, ?_, ?_⟩
    · intro x hx
      rw [ha2] at hx
      exact level_depth_le fetch_html_content maxDepth seeds x hx
    · intro x hx
      rw [hf2] at hx
      obtain ⟨i, hi, hxi⟩ := List.mem_flatMap.1 hx
      have hi2 : i < maxDepth.toNat := List.mem_range.1 hi
      have := level_depth fetch_html_content seeds i x hxi
      omega
    · rw [hfe]
      have := roundsFetched_length_le fetch_html_content maxDepth (maxDepth.toNat + 1)
        (seeds.map (fun u => (u, (0 : Int))))
      simp only [Crawl.start, List.nil_append, crawlFuel]
      omega
  · intro c x rest hw hc
    obtain ⟨c1, h1, _, hc1, _, ha1⟩ :=
      (fetch_url_iter_spec fetch_html_content maxDepth c hw).2 x rest hc
    refine ⟨c1, enqueuedFor fetch_html_content maxDepth x, h1, ha1, hc1, ?_, ?_⟩
    · intro y hy
      unfold enqueuedFor at hy
      split at hy
      · cases hy
      · exact children_depth fetch_html_content x y hy
    · intro hge
      simp [enqueuedFor, hge]

/-- Witness for C16: the scenario, whose link graph has the cycle `a → b → a`; the loop
ends within 8 iterations, and an iteration on the seeded queue creates the two children
of `a` at depth 1. -/
theorem fetch_url_terminates_witness :
    (fetch_url scenarioWeb MAX_DEPTH 8 (Crawl.start [urlA])).isSome = true ∧
    crawlFuel scenarioWeb MAX_DEPTH [urlA] = 8 ∧
    (∃ c1 added, fetch_url_iter scenarioWeb MAX_DEPTH (Crawl.start [urlA]) = some c1 ∧
        allocated c1.store = allocated (Crawl.start [urlA]).store ++ added ∧
        contents c1.store = [] ++ added ∧
        (∀ y ∈ added, y.2 = (urlA, (0 : Int)).2 + 1) ∧
        (MAX_DEPTH ≤ (urlA, (0 : Int)).2 → added = [])) :=
  ⟨by decide, by decide,
    (fetch_url_terminates scenarioWeb MAX_DEPTH [urlA]).2 (Crawl.start [urlA]) (urlA, 0) []
      (seed_queue_contents [urlA]).1 (by decide)⟩

/-- One call of `write_callback` on a data block of `size * nmemb` bytes: the return
value is `size * nmemb` and the buffer afterwards holds that block and a NUL, whatever
it held before. -/
theorem write_callback_spec (ptr : Str) (size nmemb : Nat) (html_content : Option Str)
    (hlen : ptr.length = size * nmemb) (hfit : size * nmemb < SIZE_MODULUS) :
    write_callback ptr size nmemb html_content = (size * nmemb, some (ptr ++ [NUL])) := by
  have hblock : (realloc html_content (size * nmemb + 1)).length = size * nmemb + 1 := by
    simp [realloc]
  obtain ⟨b, hb⟩ : ∃ b, (realloc html_content (size * nmemb + 1)).drop (size * nmemb) = [b] := by
    have hl : ((realloc html_content (size * nmemb + 1)).drop (size * nmemb)).length = 1 := by
      rw [List.length_drop, hblock]
      omega
    exact List.length_eq_one.1 hl
  unfold write_callback
  simp only [Nat.mod_eq_of_lt hfit, memcpy, hb]
  rw [← hlen, List.take_length, List.set_append_right _ _ (le_refl _)]
  simp

theorem deliver_last (chunk : Str) : ∀ (chunks : List Str) (html_content : Option Str),
    (∀ c ∈ chunk :: chunks, c.length < SIZE_MODULUS) →
    deliver (chunk :: chunks) html_content
      = ((chunk :: chunks).map List.length,
         some ((chunk :: chunks).getLast (List.cons_ne_nil _ _) ++ [NUL])) := by
  intro chunks
  induction chunks generalizing chunk with
  | nil =>
    intro html_content h
    have hc := h chunk (List.mem_cons_self _ _)
    simp only [deliver, List.map_cons, List.map_nil, List.getLast_singleton]
    rw [write_callback_spec chunk 1 chunk.length html_content (by simp) (by simpa using hc)]
    simp
  | cons c2 rest ih =>
    intro html_content h
    have hc := h chunk (List.mem_cons_self _ _)
    have ih2 := ih c2 (write_callback chunk 1 chunk.length html_content).2
      (fun c hcm => h c (List.mem_cons_of_mem _ hcm))
    rw [deliver, ih2]
    rw [write_callback_spec chunk 1 chunk.length html_content (by simp) (by simpa using hc)]
    simp [List.getLast_cons]

/-- **C15 (fails in the code).** A body delivered as the two pieces `ab` and `cd` to
`write_callback`, starting from a `NULL` buffer with every `realloc` succeeding: both
calls return `size * nmemb = 2`, and after the second call the buffer holds `cd`
followed by NUL, not the whole body `abcd` followed by NUL. Each call resizes the
buffer to the size of the piece at hand and copies the piece to its start. -/
theorem write_callback_keeps_last_chunk_only :
    deliver ["ab".toList, "cd".toList] none = ([2, 2], some ("cd".toList ++ [NUL])) ∧
    (deliver ["ab".toList, "cd".toList] none).2 ≠ some ("abcd".toList ++ [NUL]) ∧
    (write_callback "cd".toList 1 2 (some ("ab".toList ++ [NUL]))).2
      = some ("cd".toList ++ [NUL]) := by
  decide

theorem strstr_anchor_none : ∀ (s : Str), ¬ ANCHOR <:+: s → strstr s ANCHOR = none
  | [], _ => by simp [strstr, ANCHOR]
  | c :: rest, h => by
    rw [List.infix_cons_iff, not_or] at h
    have hp : ANCHOR.isPrefixOf (c :: rest) = false := by
      rw [Bool.eq_false_iff]
      intro hp
      exact h.1 (List.isPrefixOf_iff_prefix.1 hp)
    rw [strstr, hp]
    simpa using strstr_anchor_none rest h.2

/-- Text without `<a` in front of an occurrence of `<a` is skipped by
`strstr(cursor, "<a")`. -/
theorem strstr_anchor_skip : ∀ (s0 rest : Str), ¬ ANCHOR <:+: s0 →
    strstr (s0 ++ ANCHOR ++ rest) ANCHOR = some (ANCHOR ++ rest)
  | [], rest, _ => by
    simp [strstr, ANCHOR, List.isPrefixOf]
  | c :: s0, rest, h => by
    rw [List.infix_cons_iff, not_or] at h
    have hp : ANCHOR.isPrefixOf (c :: s0 ++ ANCHOR ++ rest) = false := by
      rw [Bool.eq_false_iff]
      intro hp
      have hpre := List.isPrefixOf_iff_prefix.1 hp
      apply h.1
      cases s0 with
      | nil =>
        simp only [ANCHOR, List.cons_append, List.nil_append, List.cons_prefix_cons] at hpre
        exact absurd hpre.2.1 (by decide)
      | cons c2 s1 =>
        simp only [ANCHOR, List.cons_append, List.cons_prefix_cons] at hpre ⊢
        exact ⟨hpre.1, hpre.2.1, List.nil_prefix⟩
    have hstep : strstr (c :: s0 ++ ANCHOR ++ rest) ANCHOR
        = strstr (s0 ++ ANCHOR ++ rest) ANCHOR := by
      show strstr (c :: (s0 ++ ANCHOR ++ rest)) ANCHOR = _
      rw [strstr]
      have hp2 : ANCHOR.isPrefixOf (c :: (s0 ++ ANCHOR ++ rest)) = false := hp
      rw [hp2]
      rfl
    rw [hstep]
    exact strstr_anchor_skip s0 rest h.2

theorem strstr_href_link_open (rest : Str) :
    strstr (LINK_OPEN ++ rest) HREF = some (HREF ++ rest) := by
  simp [LINK_OPEN, ANCHOR, HREF, strstr, List.isPrefixOf]

theorem strchr_skip : ∀ (u rest : Str), DQUOTE ∉ u →
    strchr (u ++ DQUOTE :: rest) DQUOTE = some (DQUOTE :: rest)
  | [], rest, _ => by simp [strchr]
  | c :: u, rest, h => by
    have hc : c ≠ DQUOTE := fun e => h (by simp [e])
    have hu : DQUOTE ∉ u := fun m => h (List.mem_cons_of_mem _ m)
    simp only [List.cons_append, strchr, hc, if_false]
    exact strchr_skip u rest hu

/-- One iteration of the loop of `parse_html` on a link of the form of C13: the URL
between the quotes is handed to `enqueue` and the cursor moves behind the closing
quote. -/
theorem scan_iter_link (s0 u rest : Str) (h0 : ¬ ANCHOR <:+: s0) (hu : DQUOTE ∉ u) :
    scan_iter (s0 ++ LINK_OPEN ++ u ++ [DQUOTE] ++ rest) = some (rest, some u) := by
  have e1 : s0 ++ LINK_OPEN ++ u ++ [DQUOTE] ++ rest
      = s0 ++ ANCHOR ++ ([' '] ++ HREF ++ u ++ [DQUOTE] ++ rest) := by
    simp [LINK_OPEN]
  have e2 : ANCHOR ++ ([' '] ++ HREF ++ u ++ [DQUOTE] ++ rest)
      = LINK_OPEN ++ (u ++ [DQUOTE] ++ rest) := by
    simp [LINK_OPEN]
  have e3 : (HREF ++ (u ++ [DQUOTE] ++ rest)).drop 6 = u ++ DQUOTE :: rest := by
    simp [HREF]
  unfold scan_iter
  rw [e1, strstr_anchor_skip s0 _ h0]
  simp only
  rw [e2, strstr_href_link_open]
  simp only
  rw [e3, strchr_skip u rest hu]
  simp

theorem extract_links_of_scan_none {cursor : Str} (h : scan_iter cursor = none) :
    extract_links cursor = [] := by
  unfold extract_links
  cases hl : cursor.length with
  | zero => rfl
  | succ n => simp only [links_loop, h]

theorem extract_links_of_scan_some {cursor cursor2 url : Str}
    (h : scan_iter cursor = some (cursor2, some url)) :
    extract_links cursor = url :: extract_links cursor2 := by
  have hlt := scan_iter_length h
  unfold extract_links
  cases hl : cursor.length with
  | zero => omega
  | succ n =>
    simp only [links_loop, h]
    rw [links_loop_fuel n cursor2 (by omega)]

theorem extract_links_linkDocument : ∀ (segments : List (Str × Str)) (s0 : Str),
    ¬ ANCHOR <:+: s0 → (∀ p ∈ segments, DQUOTE ∉ p.1 ∧ ¬ ANCHOR <:+: p.2) →
    extract_links (linkDocument s0 segments) = segments.map Prod.fst
  | [], s0, h0, _ => by
    have : linkDocument s0 [] = s0 := by simp [linkDocument]
    rw [this]
    apply extract_links_of_scan_none
    unfold scan_iter
    rw [strstr_anchor_none s0 h0]
  | (u, s1) :: rest, s0, h0, hseg => by
    have hp := hseg (u, s1) (List.mem_cons_self _ _)
    have e : linkDocument s0 ((u, s1) :: rest)
        = s0 ++ LINK_OPEN ++ u ++ [DQUOTE] ++ linkDocument s1 rest := by
      simp [linkDocument]
    rw [e, extract_links_of_scan_some (scan_iter_link s0 u _ h0 hp.1)]
    rw [extract_links_linkDocument rest s1 hp.2
      (fun p hpm => hseg p (List.mem_cons_of_mem _ hpm))]
    rfl

/-- **C13.** For every document of the form `s0 ++ link u1 ++ s1 ++ ... ++ link un ++
sn`, where `link u` is `<a href="` followed by `u` and a double quote, no `ui` contains
a double quote and no `si` contains `<a`: the URLs `parse_html` hands to `enqueue` are
exactly `u1, ..., un`, each once and in document order, and on a well-formed queue it
appends exactly these, at depth `d + 1`, after the items already there (nothing when
`n = 0`). -/
theorem parse_html_links_in_document_order (s0 : Str) (segments : List (Str × Str))
    (s : Store) (d : Int) (hw : WellFormed s) (h0 : ¬ ANCHOR <:+: s0)
    (hseg : ∀ p ∈ segments, DQUOTE ∉ p.1 ∧ ¬ ANCHOR <:+: p.2) :
    extract_links (linkDocument s0 segments) = segments.map Prod.fst ∧
    contents (parse_html (linkDocument s0 segments) s d)
      = contents s ++ segments.map (fun p => (p.1, d + 1)) ∧
    allocated (parse_html (linkDocument s0 segments) s d)
      = allocated s ++ segments.map (fun p => (p.1, d + 1)) := by
  have hl := extract_links_linkDocument segments s0 h0 hseg
  refine ⟨hl, ?_, ?_⟩
  · rw [(parse_html_contents _ s d hw).2, hl, List.map_map]
    rfl
  · unfold parse_html
    rw [allocated_parse_html_loop]
    have : links_loop (linkDocument s0 segments).length (linkDocument s0 segments)
        = segments.map Prod.fst := hl
    rw [this, List.map_map]
    rfl

/-- Witness for C13: a paragraph with two links, parsed while the seed is queued. -/
theorem parse_html_links_in_document_order_witness :
    extract_links (linkDocument "<p>".toList sampleSegments) = [urlB, urlC] ∧
    contents (parse_html (linkDocument "<p>".toList sampleSegments)
        (seed_queue [urlA] Store.fresh) 0)
      = contents (seed_queue [urlA] Store.fresh) ++ [(urlB, 0 + 1), (urlC, 0 + 1)] :=
  ⟨(parse_html_links_in_document_order "<p>".toList sampleSegments
      (seed_queue [urlA] Store.fresh) 0 (seed_queue_contents [urlA]).1
      (by decide) (by decide)).1,
   (parse_html_links_in_document_order "<p>".toList sampleSegments
      (seed_queue [urlA] Store.fresh) 0 (seed_queue_contents [urlA]).1
      (by decide) (by decide)).2.1⟩

theorem strstr_found : ∀ (hay needle r : Str), strstr hay needle = some r →
    r <:+ hay ∧ needle <+: r
  | [], needle, r, h => by
    simp only [strstr] at h
    split at h
    · rename_i hn
      cases h
      subst hn
      exact ⟨List.suffix_rfl, List.prefix_rfl⟩
    · cases h
  | c :: rest, needle, r, h => by
    simp only [strstr] at h
    split at h
    · rename_i hp
      cases h
      exact ⟨List.suffix_rfl, List.isPrefixOf_iff_prefix.1 hp⟩
    · have ih := strstr_found rest needle r h
      exact ⟨ih.1.trans (List.suffix_cons c rest), ih.2⟩

theorem strchr_found : ∀ (s : Str) (c : Char) (r : Str), strchr s c = some r →
    r <:+ s ∧ ∃ rest, r = c :: rest
  | [], _, _, h => by cases h
  | x :: xs, c, r, h => by
    simp only [strchr] at h
    split at h
    · rename_i hx
      cases h
      exact ⟨List.suffix_rfl, xs, by rw [hx]⟩
    · have ih := strchr_found xs c r h
      exact ⟨ih.1.trans (List.suffix_cons x xs), ih.2⟩

theorem scan_iter_suffix {cursor cursor2 : Str} {u : Option Str}
    (h : scan_iter cursor = some (cursor2, u)) : cursor2 <:+ cursor := by
  unfold scan_iter at h
  split at h
  · cases h
  · rename_i c1 h1
    have l1 := (strstr_found _ _ _ h1).1
    split at h
    · cases h
      exact (List.drop_suffix 1 c1).trans l1
    · rename_i href h2
      have l2 := (strstr_found _ _ _ h2).1
      split at h
      · cases h
        exact (List.drop_suffix 1 c1).trans l1
      · rename_i href_end h3
        have l3 := (strchr_found _ _ _ h3).1
        cases h
        exact (((List.drop_suffix 1 href_end).trans l3).trans
          (List.drop_suffix 6 href)).trans (l2.trans l1)

theorem parse_html_run_eq (depth : Int) : ∀ (fuel : Nat) (cursor : Str) (s : Store),
    cursor.length < fuel →
      parse_html_run depth fuel cursor s
        = some (parse_html_loop depth cursor.length cursor s)
  | 0, _, _, h => by omega
  | fuel + 1, cursor, s, h => by
    simp only [parse_html_run]
    rw [parse_html_iter_eq]
    cases hs : scan_iter cursor with
    | none =>
      simp only [Option.map_none']
      cases hl : cursor.length with
      | zero => rfl
      | succ n =>
        simp only [parse_html_loop]
        rw [parse_html_iter_eq, hs]
        rfl
    | some r =>
      obtain ⟨c2, u⟩ := r
      have hlt := scan_iter_length hs
      simp only [Option.map_some']
      rw [parse_html_run_eq depth fuel c2 _ (by omega)]
      cases hl : cursor.length with
      | zero => omega
      | succ n =>
        simp only [parse_html_loop]
        rw [parse_html_iter_eq, hs]
        simp only [Option.map_some']
        rw [parse_html_loop_fuel depth n c2 _ (by omega)]

/-- **C11.** `parse_html` is total. (1) On every input the loop exits: within
`html_content.length + 1` evaluations of its condition `strstr(cursor, "<a")` returns
`NULL`, and the memory then is the result of `parse_html`; more fuel changes nothing.
(2) Every iteration moves the cursor forward by `k` characters with
`0 < k ≤` the length of the remaining text, so the cursor advances strictly and never
passes the terminator. (3) The pointers formed on the way stay inside the string: the
`<a` found is in the text and the cursor is incremented over its `<`; the `href="`
found is in the text and `href_start += 6` skips exactly its six characters; the quote
found is in the text and the cursor is incremented over it. (4) On a well-formed queue
the result is well formed and holds the old items followed by the links found. -/
theorem parse_html_total (html_content : Str) (s : Store) (depth : Int) :
    (∀ extra, parse_html_run depth (html_content.length + 1 + extra) html_content s
      = some (parse_html html_content s depth)) ∧
    (∀ (cursor cursor2 : Str) (s1 s2 : Store),
      parse_html_iter depth cursor s1 = some (cursor2, s2) →
      ∃ k, 0 < k ∧ k ≤ cursor.length ∧ cursor2 = cursor.drop k) ∧
    (∀ (cursor cursor1 : Str), strstr cursor ANCHOR = some cursor1 →
      cursor1 <:+ cursor ∧ ANCHOR <+: cursor1 ∧
        (cursor1.drop 1).length + 1 = cursor1.length) ∧
    (∀ (cursor1 href : Str), strstr cursor1 HREF = some href →
      href <:+ cursor1 ∧ HREF <+: href ∧ (href.drop 6).length + 6 = href.length) ∧
    (∀ (href_start href_end : Str), strchr href_start DQUOTE = some href_end →
      href_end <:+ href_start ∧ (∃ rest, href_end = DQUOTE :: rest) ∧
        (href_end.drop 1).length + 1 = href_end.length) ∧
    (WellFormed s →
      WellFormed (parse_html html_content s depth) ∧
      contents (parse_html html_content s depth)
        = contents s ++ (extract_links html_content).map (fun u => (u, depth + 1))) := by
  refine ⟨fun extra => ?_, ?_, ?_, ?_, ?_, fun hw => parse_html_contents html_content s depth hw⟩
  · exact parse_html_run_eq depth _ html_content s (by omega)
  · intro cursor cursor2 s1 s2 h
    rw [parse_html_iter_eq] at h
    cases hs : scan_iter cursor with
    | none => rw [hs] at h; cases h
    | some r =>
      obtain ⟨c2, u⟩ := r
      rw [hs] at h
      simp only [Option.map_some', Option.some.injEq, Prod.mk.injEq] at h
      have hlt := scan_iter_length hs
      have hsuf := scan_iter_suffix hs
      rw [h.1] at hlt hsuf
      exact ⟨cursor.length - cursor2.length, by omega, by omega,
        List.suffix_iff_eq_drop.1 hsuf⟩
  · intro cursor cursor1 h
    obtain ⟨h1, h2⟩ := strstr_found _ _ _ h
    have hl := h2.length_le
    have ha : ANCHOR.length = 2 := rfl
    refine ⟨h1, h2, ?_⟩
    rw [List.length_drop]
    omega
  · intro cursor1 href h
    obtain ⟨h1, h2⟩ := strstr_found _ _ _ h
    have hl := h2.length_le
    have ha : HREF.length = 6 := rfl
    refine ⟨h1, h2, ?_⟩
    rw [List.length_drop]
    omega
  · intro href_start href_end h
    obtain ⟨h1, rest, h2⟩ := strchr_found _ _ _ h
    refine ⟨h1, ⟨rest, h2⟩, ?_⟩
    rw [h2]
    simp

/-- Witness for C11: three malformed documents. The loop exits on each of them;
nothing is extracted from an anchor without `href` or from `<a` at the very end, and
the link found before an unterminated `href` value is still returned. -/
theorem parse_html_total_witness :
    parse_html_run 0 (noHrefDocument.length + 1 + 0) noHrefDocument (initQueue Store.fresh)
      = some (parse_html noHrefDocument (initQueue Store.fresh) 0) ∧
    extract_links noHrefDocument = [] ∧
    extract_links anchorAtEndDocument = [] ∧
    extract_links openQuoteDocument = [urlB] ∧
    contents (parse_html openQuoteDocument (initQueue Store.fresh) 0) = [(urlB, 1)] ∧
    (∃ k, 0 < k ∧ k ≤ anchorAtEndDocument.length ∧
      ['a'] = anchorAtEndDocument.drop k) :=
  ⟨(parse_html_total noHrefDocument (initQueue Store.fresh) 0).1 0,
   by decide, by decide, by decide, by decide,
   (parse_html_total noHrefDocument (initQueue Store.fresh) 0).2.1
     anchorAtEndDocument ['a'] (initQueue Store.fresh) (initQueue Store.fresh)
     (by simp [parse_html_iter, anchorAtEndDocument, strstr, ANCHOR, HREF,
       List.isPrefixOf])⟩

/-- **C14 (fails in the code).** `parse_html` matches the two characters `<a` wherever
they stand and then the next `href="` wherever it stands. In `abbrDocument` the only
`<a` is the start of `<abbr` (there is no `a` element), yet the `href` value of the
`link` element is enqueued. In `bareAnchorDocument` the `a` element has no `href`; the
`href="` that is matched lies behind the first `>` after the `<a` (the rest of the
text from `href="` has 17 characters, from that `>` it has 28), in the `link` element,
and its value is enqueued. -/
theorem parse_html_takes_href_outside_anchor :
    extract_links abbrDocument = ["style.css".toList] ∧
    contents (parse_html abbrDocument (initQueue Store.fresh) 0)
      = [("style.css".toList, 1)] ∧
    (strstr abbrDocument ANCHOR).map (List.take 5) = some "<abbr".toList ∧
    strstr (abbrDocument.drop 1) ANCHOR = none ∧
    extract_links bareAnchorDocument = ["style.css".toList] ∧
    contents (parse_html bareAnchorDocument (initQueue Store.fresh) 0)
      = [("style.css".toList, 1)] ∧
    (strstr bareAnchorDocument ANCHOR).map List.length = some bareAnchorDocument.length ∧
    (strstr bareAnchorDocument HREF).map List.length = some 17 ∧
    (strchr bareAnchorDocument '>').map List.length = some 28 := by
  decide

theorem enqueue_brk (s : Store) (url : Str) (depth : Int) :
    (enqueue s url depth).brk = s.brk + 1 := by
  unfold enqueue
  cases s.queue.tail <;> rfl

theorem enqueue_item_of_ne (s : Store) (url : Str) (depth : Int) (a : Nat)
    (ha : a ≠ s.brk) : (enqueue s url depth).item a = s.item a := by
  unfold enqueue Store.item
  cases s.queue.tail with
  | none => simp [Function.update_noteq ha]
  | some t =>
    by_cases hat : a = t
    · subst hat; simp [Function.update_noteq ha]
    · simp [Function.update_noteq hat, Function.update_noteq ha]

theorem dequeue_cell_brk (s : Store) :
    (dequeue s).2.cell = s.cell ∧ (dequeue s).2.brk = s.brk := by
  unfold dequeue
  cases s.queue.head with
  | none => exact ⟨rfl, rfl⟩
  | some t =>
    dsimp only
    cases (s.cell t).next <;> exact ⟨rfl, rfl⟩

theorem workerCost_congr (f : Str → Option Str) (m : Int) (s s2 : Store) (w : Worker)
    (h : ∀ node, w.held = some node → s2.item node = s.item node) :
    workerCost f m s2 w = workerCost f m s w := by
  cases w with
  | atDequeue => rfl
  | returned => rfl
  | holding node =>
    simp only [workerCost]
    rw [h node rfl]
  | parsing node cursor =>
    simp only [workerCost]
    rw [h node rfl]

theorem sum_map_set {α : Type} (g : α → Nat) : ∀ (l : List α) (i : Nat) (a : α)
    (hi : i < l.length), ((l.set i a).map g).sum + g (l.get ⟨i, hi⟩) = (l.map g).sum + g a
  | [], _, _, hi => by simp at hi
  | x :: l, 0, a, _ => by
    simp only [List.set_cons_zero, List.map_cons, List.sum_cons, List.get_eq_getElem,
      List.getElem_cons_zero]
    omega
  | x :: l, i + 1, a, hi => by
    have ih := sum_map_set g l i a (by simpa using hi)
    simp only [List.set_cons_succ, List.map_cons, List.sum_cons, List.get_eq_getElem,
      List.getElem_cons_succ] at ih ⊢
    omega

theorem treeCost_ge_two (f : Str → Option Str) (n : Nat) (x : Item) :
    2 ≤ treeCost f n x := by
  cases n with
  | zero => simp [treeCost]
  | succ k =>
    simp only [treeCost]
    split <;> omega

theorem extract_links_of_scan_skip {cursor cursor2 : Str}
    (h : scan_iter cursor = some (cursor2, none)) :
    extract_links cursor = extract_links cursor2 := by
  have hlt := scan_iter_length h
  unfold extract_links
  cases hl : cursor.length with
  | zero => omega
  | succ n =>
    simp only [links_loop, h]
    rw [links_loop_fuel n cursor2 (by omega)]

/-- Replacing worker `i` and the memory lowers the potential when the queue and the
new state of the worker together cost less than the queue and the old state did, the
nodes allocated before keeping their items. -/
theorem Pool.potential_replace (f : Str → Option Str) (m : Int) (p : Pool) (i : Nat)
    (hi : i < p.workers.length) (hv : p.Valid) (s2 : Store) (w2 : Worker)
    (fetched2 : List Item) (hw2 : WellFormed s2) (hbrk : p.store.brk ≤ s2.brk)
    (hitem : ∀ a, a < p.store.brk → s2.item a = p.store.item a)
    (hheld : ∀ node, w2.held = some node → node < s2.brk)
    (hcost : ((contents s2).map (itemCost f m)).sum + workerCost f m s2 w2
      < ((contents p.store).map (itemCost f m)).sum
        + workerCost f m p.store (p.workers.get ⟨i, hi⟩)) :
    Pool.Valid { store := s2, workers := p.workers.set i w2, fetched := fetched2 } ∧
    Pool.potential f m { store := s2, workers := p.workers.set i w2, fetched := fetched2 }
      < Pool.potential f m p := by
  constructor
  · refine ⟨hw2, ?_⟩
    intro w hw node hnode
    rcases List.mem_or_eq_of_mem_set hw with hmem | heq
    · exact Nat.lt_of_lt_of_le (hv.2 w hmem node hnode) hbrk
    · subst heq
      exact hheld node hnode
  · have hcongr : ∀ w ∈ p.workers, workerCost f m s2 w = workerCost f m p.store w := by
      intro w hw
      exact workerCost_congr f m p.store s2 w
        (fun node hnode => hitem node (hv.2 w hw node hnode))
    have hsum : (p.workers.map (workerCost f m s2)).sum
        = (p.workers.map (workerCost f m p.store)).sum := by
      rw [List.map_congr_left hcongr]
    have hget : workerCost f m s2 (p.workers.get ⟨i, hi⟩)
        = workerCost f m p.store (p.workers.get ⟨i, hi⟩) :=
      hcongr _ (List.get_mem _ _ _)
    have hset := sum_map_set (workerCost f m s2) p.workers i w2 hi
    simp only [Pool.potential]
    omega

theorem linksCost_of_scan_some (f : Str → Option Str) (m : Int) (d : Int)
    {cursor cursor2 url : Str} (h : scan_iter cursor = some (cursor2, some url)) :
    linksCost f m d cursor = itemCost f m (url, d + 1) + linksCost f m d cursor2 := by
  simp only [linksCost, extract_links_of_scan_some h, List.map_cons, List.sum_cons]

theorem linksCost_of_scan_skip (f : Str → Option Str) (m : Int) (d : Int)
    {cursor cursor2 : Str} (h : scan_iter cursor = some (cursor2, none)) :
    linksCost f m d cursor = linksCost f m d cursor2 := by
  simp only [linksCost, extract_links_of_scan_skip h]

theorem itemCost_fetched (f : Str → Option Str) (m : Int) (x : Item) (html : Str)
    (hlt : x.2 < m) (hf : f x.1 = some html) :
    itemCost f m x = html.length + 3 + linksCost f m x.2 html := by
  unfold itemCost linksCost
  obtain ⟨k, hk⟩ : ∃ k, (m - x.2).toNat = k + 1 := ⟨(m - x.2).toNat - 1, by omega⟩
  have hk2 : (m - (x.2 + 1)).toNat = k := by omega
  rw [hk]
  simp only [treeCost, hf, itemCost, hk2]

/-- A step taken by a worker that has not returned keeps the invariant and lowers the
potential. -/
theorem Pool.step_progress (f : Str → Option Str) (m : Int) (p : Pool) (i : Nat)
    (w : Worker) (hv : p.Valid) (hw : p.workers[i]? = some w)
    (hne : w ≠ Worker.returned) :
    (Pool.step f m p i).Valid ∧
      Pool.potential f m (Pool.step f m p i) < Pool.potential f m p := by
  obtain ⟨hi, hget⟩ := List.getElem?_eq_some.1 hw
  have hget2 : p.workers.get ⟨i, hi⟩ = w := hget
  have hmem : w ∈ p.workers := List.getElem?_mem hw
  unfold Pool.step
  rw [hw]
  cases w with
  | returned => exact absurd rfl hne
  | atDequeue =>
    simp only
    obtain ⟨addrs, hch⟩ := hv.1
    cases addrs with
    | nil =>
      rw [dequeue_chain_nil hch]
      simp only
      apply Pool.potential_replace f m p i hi hv p.store Worker.returned p.fetched hv.1
        (le_refl _) (fun _ _ => rfl) (fun node hnode => by simp [Worker.held] at hnode)
      rw [hget2]
      simp [workerCost]
    | cons a rest =>
      obtain ⟨h1, h2, h3, h4⟩ := dequeue_chain_cons hch
      have hc1 := h2.contents_eq
      have hc0 := hch.contents_eq
      generalize dequeue p.store = r at h1 h2 h3 h4 hc1
      obtain ⟨r1, s1⟩ := r
      simp only at h1 h2 h3 h4 hc1
      subst h1
      simp only
      have hitem : ∀ b, s1.item b = p.store.item b := by
        intro b
        simp only [Store.item, h3]
      apply Pool.potential_replace f m p i hi hv s1 (Worker.holding a) p.fetched ⟨rest, h2⟩
        (by rw [h4]) (fun b _ => hitem b)
        (fun node hnode => by
          simp only [Worker.held, Option.some.injEq] at hnode
          subst hnode
          rw [h4]
          exact hch.bound a (List.mem_cons_self _ _))
      rw [hget2, hc1, hc0]
      have hmap : rest.map s1.item = rest.map p.store.item :=
        List.map_congr_left (fun b _ => hitem b)
      simp only [workerCost, List.map_cons, List.sum_cons, hmap, hitem a]
      omega
  | holding node =>
    simp only
    have hnode : node < p.store.brk := hv.2 _ hmem node rfl
    have hcost1 : ((contents p.store).map (itemCost f m)).sum
        + workerCost f m p.store Worker.atDequeue
        < ((contents p.store).map (itemCost f m)).sum
          + workerCost f m p.store (p.workers.get ⟨i, hi⟩) := by
      rw [hget2]
      have := treeCost_ge_two f (m - (p.store.item node).2).toNat (p.store.item node)
      simp only [workerCost, itemCost]
      omega
    split
    · exact Pool.potential_replace f m p i hi hv p.store Worker.atDequeue _ hv.1
        (le_refl _) (fun _ _ => rfl) (fun n hn => by simp [Worker.held] at hn) hcost1
    · rename_i hlt
      have hlt2 : (p.store.item node).2 < m := not_le.1 hlt
      split
      · rename_i html hf
        apply Pool.potential_replace f m p i hi hv p.store (Worker.parsing node html) _
          hv.1 (le_refl _) (fun _ _ => rfl)
          (fun n hn => by
            simp only [Worker.held, Option.some.injEq] at hn
            subst hn
            exact hnode)
        rw [hget2]
        have hic := itemCost_fetched f m (p.store.item node) html hlt2 hf
        simp only [workerCost, hic]
        omega
      · exact Pool.potential_replace f m p i hi hv p.store Worker.atDequeue _ hv.1
          (le_refl _) (fun _ _ => rfl) (fun n hn => by simp [Worker.held] at hn) hcost1
  | parsing node cursor =>
    simp only
    have hnode : node < p.store.brk := hv.2 _ hmem node rfl
    rw [parse_html_iter_eq]
    cases hs : scan_iter cursor with
    | none =>
      simp only [Option.map_none']
      apply Pool.potential_replace f m p i hi hv p.store Worker.atDequeue _ hv.1
        (le_refl _) (fun _ _ => rfl) (fun n hn => by simp [Worker.held] at hn)
      rw [hget2]
      simp only [workerCost]
      omega
    | some r =>
      obtain ⟨c2, u⟩ := r
      have hlen := scan_iter_length hs
      cases u with
      | none =>
        simp only [Option.map_some']
        apply Pool.potential_replace f m p i hi hv p.store (Worker.parsing node c2) _
          hv.1 (le_refl _) (fun _ _ => rfl)
          (fun n hn => by
            simp only [Worker.held, Option.some.injEq] at hn
            subst hn
            exact hnode)
        rw [hget2]
        simp only [workerCost, linksCost_of_scan_skip f m _ hs]
        omega
      | some url =>
        simp only [Option.map_some']
        obtain ⟨hw2, hc2⟩ := enqueue_contents hv.1 url ((p.store.cell node).depth + 1)
        have hitem : ∀ a, a < p.store.brk →
            (enqueue p.store url ((p.store.cell node).depth + 1)).item a
              = p.store.item a :=
          fun a ha => enqueue_item_of_ne _ _ _ a (Nat.ne_of_lt ha)
        apply Pool.potential_replace f m p i hi hv _ (Worker.parsing node c2) _
          hw2 (by rw [enqueue_brk]; omega) hitem
          (fun n hn => by
            simp only [Worker.held, Option.some.injEq] at hn
            subst hn
            rw [enqueue_brk]
            omega)
        rw [hget2, hc2]
        have hd : (p.store.cell node).depth = (p.store.item node).2 := rfl
        have hin := hitem node hnode
        rw [hd] at hin
        simp only [workerCost, hd, hin, List.map_append, List.sum_append,
          List.map_cons, List.map_nil, List.sum_cons, List.sum_nil,
          linksCost_of_scan_some f m _ hs]
        omega

theorem Pool.step_idle (f : Str → Option Str) (m : Int) (p : Pool) (i : Nat)
    (h : p.workers[i]? = none ∨ p.workers[i]? = some Worker.returned) :
    Pool.step f m p i = p := by
  unfold Pool.step
  rcases h with h | h <;> rw [h]

theorem Pool.step_valid (f : Str → Option Str) (m : Int) (p : Pool) (i : Nat)
    (hv : p.Valid) :
    (Pool.step f m p i).Valid ∧
      Pool.potential f m (Pool.step f m p i) ≤ Pool.potential f m p := by
  cases hw : p.workers[i]? with
  | none =>
    rw [Pool.step_idle f m p i (Or.inl hw)]
    exact ⟨hv, le_refl _⟩
  | some w =>
    by_cases hr : w = Worker.returned
    · subst hr
      rw [Pool.step_idle f m p i (Or.inr hw)]
      exact ⟨hv, le_refl _⟩
    · obtain ⟨h1, h2⟩ := Pool.step_progress f m p i w hv hw hr
      exact ⟨h1, Nat.le_of_lt h2⟩

theorem Pool.run_valid (f : Str → Option Str) (m : Int) :
    ∀ (schedule : List Nat) (p : Pool), p.Valid → (Pool.run f m p schedule).Valid
  | [], _, hv => hv
  | i :: rest, p, hv => Pool.run_valid f m rest _ (Pool.step_valid f m p i hv).1

theorem Pool.start_valid (n : Nat) (seeds : List Str) : (Pool.start n seeds).Valid := by
  refine ⟨(seed_queue_contents seeds).1, ?_⟩
  intro w hw node hnode
  simp only [Pool.start, List.mem_replicate] at hw
  rw [hw.2] at hnode
  simp [Worker.held] at hnode

/-- From every valid state the workers can run to completion, in no more steps than
the potential. -/
theorem Pool.can_finish (f : Str → Option Str) (m : Int) : ∀ (n : Nat) (p : Pool),
    Pool.potential f m p ≤ n → p.Valid →
    ∃ schedule, schedule.length ≤ n ∧
      ∀ w ∈ (Pool.run f m p schedule).workers, w = Worker.returned := by
  intro n
  induction n with
  | zero =>
    intro p hp hv
    refine ⟨[], le_refl _, ?_⟩
    by_contra hall
    push_neg at hall
    obtain ⟨w, hw, hne⟩ := hall
    obtain ⟨i, hi⟩ := List.mem_iff_getElem?.1 hw
    have := (Pool.step_progress f m p i w hv hi hne).2
    omega
  | succ n ih =>
    intro p hp hv
    by_cases hall : ∀ w ∈ p.workers, w = Worker.returned
    · exact ⟨[], Nat.zero_le _, hall⟩
    · push_neg at hall
      obtain ⟨w, hw, hne⟩ := hall
      obtain ⟨i, hi⟩ := List.mem_iff_getElem?.1 hw
      obtain ⟨hv2, hlt⟩ := Pool.step_progress f m p i w hv hi hne
      obtain ⟨schedule, hlen, hdone⟩ := ih (Pool.step f m p i) (by omega) hv2
      exact ⟨i :: schedule, by simpa using hlen, hdone⟩

/-- In any schedule, the steps taken by workers that have not returned are at most as
many as the potential lost. -/
theorem Pool.effectiveSteps_le (f : Str → Option Str) (m : Int) :
    ∀ (schedule : List Nat) (p : Pool), p.Valid →
      Pool.effectiveSteps f m p schedule + Pool.potential f m (Pool.run f m p schedule)
        ≤ Pool.potential f m p
  | [], _, _ => by simp [Pool.effectiveSteps, Pool.run]
  | i :: rest, p, hv => by
    have ih := Pool.effectiveSteps_le f m rest _ (Pool.step_valid f m p i hv).1
    have hrun : Pool.run f m p (i :: rest) = Pool.run f m (Pool.step f m p i) rest := rfl
    rw [hrun]
    simp only [Pool.effectiveSteps]
    cases hw : p.workers[i]? with
    | none =>
      have := (Pool.step_valid f m p i hv).2
      simp only
      omega
    | some w =>
      cases w with
      | returned =>
        have := (Pool.step_valid f m p i hv).2
        simp only
        omega
      | atDequeue =>
        have := (Pool.step_progress f m p i _ hv hw (by simp)).2
        simp only
        omega
      | holding node =>
        have := (Pool.step_progress f m p i _ hv hw (by simp)).2
        simp only
        omega
      | parsing node cursor =>
        have := (Pool.step_progress f m p i _ hv hw (by simp)).2
        simp only
        omega

theorem Pool.run_append (f : Str → Option Str) (m : Int) (p : Pool) (a b : List Nat) :
    Pool.run f m p (a ++ b) = Pool.run f m (Pool.run f m p a) b := by
  simp [Pool.run, List.foldl_append]

theorem main_started (argv : List Str) (f : Str → Option Str) (schedule : List Nat)
    (h : 2 ≤ argv.length) :
    main argv true f schedule =
      if (Pool.run f MAX_DEPTH (Pool.start NUM_THREADS (argv.drop 1)) schedule).workers.all
          (fun w => decide (w = Worker.returned)) = true then
        { status := some 0
          pool := some
            (Pool.run f MAX_DEPTH (Pool.start NUM_THREADS (argv.drop 1)) schedule) }
      else
        { status := none
          pool := some
            (Pool.run f MAX_DEPTH (Pool.start NUM_THREADS (argv.drop 1)) schedule) } := by
  have h1 : ¬ argv.length < 2 := by omega
  simp [main, h1]

/-- **C12.** The exit status of `main`. (1) With fewer than two arguments (no seed
URL) `main` returns 1 and has neither created the queue nor started a worker. (2) When
the log file cannot be opened `main` returns 1, again without queue or worker. (3)
Otherwise the queue is created and seeded with the URL arguments and `NUM_THREADS`
workers are started: `main` returns 0 as soon as all workers have returned, has not
returned while one is still running, and never returns another value. (4) The
workers do finish: every schedule can be continued so that all workers return and
`main` returns 0, and in any schedule the workers that have not returned take at most
`Pool.potential` steps altogether. -/
theorem main_exit_status (argv : List Str) (fetch_html_content : Str → Option Str) :
    (∀ (logOpens : Bool) (schedule : List Nat), argv.length < 2 →
      (main argv logOpens fetch_html_content schedule).status = some 1 ∧
      (main argv logOpens fetch_html_content schedule).pool.isNone = true) ∧
    (∀ (schedule : List Nat),
      (main argv false fetch_html_content schedule).status = some 1 ∧
      (main argv false fetch_html_content schedule).pool.isNone = true) ∧
    (∀ (schedule : List Nat), 2 ≤ argv.length →
      (main argv true fetch_html_content schedule).pool
        = some (Pool.run fetch_html_content MAX_DEPTH
            (Pool.start NUM_THREADS (argv.drop 1)) schedule) ∧
      ((∀ w ∈ (Pool.run fetch_html_content MAX_DEPTH
            (Pool.start NUM_THREADS (argv.drop 1)) schedule).workers, w = Worker.returned) →
        (main argv true fetch_html_content schedule).status = some 0) ∧
      ((∃ w ∈ (Pool.run fetch_html_content MAX_DEPTH
            (Pool.start NUM_THREADS (argv.drop 1)) schedule).workers, w ≠ Worker.returned) →
        (main argv true fetch_html_content schedule).status = none) ∧
      (∀ status, (main argv true fetch_html_content schedule).status = some status →
        status = 0)) ∧
    (∀ (schedule : List Nat), 2 ≤ argv.length →
      (∃ more, (main argv true fetch_html_content (schedule ++ more)).status = some 0) ∧
      Pool.effectiveSteps fetch_html_content MAX_DEPTH
          (Pool.start NUM_THREADS (argv.drop 1)) schedule
        ≤ Pool.potential fetch_html_content MAX_DEPTH
          (Pool.start NUM_THREADS (argv.drop 1))) := by
  refine ⟨fun logOpens schedule h => ?_, fun schedule => ?_, fun schedule h => ?_,
    fun schedule h => ?_⟩
  · simp [main, h]
  · by_cases h : argv.length < 2 <;> simp [main, h]
  · rw [main_started argv fetch_html_content schedule h]
    by_cases hall : (Pool.run fetch_html_content MAX_DEPTH
        (Pool.start NUM_THREADS (argv.drop 1)) schedule).workers.all
          (fun w => decide (w = Worker.returned)) = true
    · have hall2 := hall
      rw [List.all_eq_true] at hall2
      rw [if_pos hall]
      refine ⟨rfl, fun _ => rfl, fun hex => ?_, fun status hs => ?_⟩
      · obtain ⟨w, hw, hne⟩ := hex
        exact absurd (by simpa using hall2 w hw) hne
      · simp only [Option.some.injEq] at hs
        exact hs.symm
    · rw [if_neg hall]
      refine ⟨rfl, fun hret => ?_, fun _ => rfl, fun status hs => ?_⟩
      · exfalso
        apply hall
        rw [List.all_eq_true]
        intro w hw
        simpa using hret w hw
      · cases hs
  · have hv := Pool.run_valid fetch_html_content MAX_DEPTH schedule _
      (Pool.start_valid NUM_THREADS (argv.drop 1))
    obtain ⟨more, _, hdone⟩ := Pool.can_finish fetch_html_content MAX_DEPTH _ _ (le_refl _) hv
    refine ⟨⟨more, ?_⟩, ?_⟩
    · rw [main_started argv fetch_html_content _ h, Pool.run_append]
      have hall : (Pool.run fetch_html_content MAX_DEPTH
          (Pool.run fetch_html_content MAX_DEPTH (Pool.start NUM_THREADS (argv.drop 1))
            schedule) more).workers.all (fun w => decide (w = Worker.returned)) = true := by
        rw [List.all_eq_true]
        intro w hw
        simpa using hdone w hw
      rw [if_pos hall]
    · have := Pool.effectiveSteps_le fetch_html_content MAX_DEPTH schedule _
        (Pool.start_valid NUM_THREADS (argv.drop 1))
      omega

/-- Witness for C12: without a seed `main` returns 1; with the seed `http://a` and
every fetch failing it returns 0 after worker 0 has drained the queue and all four
workers have found it empty. -/
theorem main_exit_status_witness :
    (main [programName] true deadWeb []).status = some 1 ∧
    (main [programName] true deadWeb []).pool.isNone = true ∧
    (main [programName, urlA] true deadWeb [0, 0, 0, 1, 2, 3]).status = some 0 ∧
    (main [programName, urlA] true deadWeb [0, 0, 0]).status = none :=
  ⟨((main_exit_status [programName] deadWeb).1 true [] (by decide)).1,
   ((main_exit_status [programName] deadWeb).1 true [] (by decide)).2,
   ((main_exit_status [programName, urlA] deadWeb).2.2.1 [0, 0, 0, 1, 2, 3]
      (by decide)).2.1 (by decide),
   ((main_exit_status [programName, urlA] deadWeb).2.2.1 [0, 0, 0] (by decide)).2.2.1
      (by decide)⟩

/-- The `int` addition is the integer addition when the sum is an `int` value. -/
theorem int_add_exact (a b : Int) (hlo : INT_MIN ≤ a + b) (hhi : a + b ≤ INT_MAX) :
    int_add a b = a + b := by
  unfold int_add
  unfold INT_MIN at hlo
  unfold INT_MAX at hhi
  omega

/-- The `int` addition always yields an `int` value. -/
theorem int_add_range (a b : Int) : INT_MIN ≤ int_add a b ∧ int_add a b ≤ INT_MAX := by
  unfold int_add INT_MIN INT_MAX
  omega

/-- One iteration with `int` arithmetic is one iteration in the integers at the depth
whose successor is the `int` sum. -/
theorem parse_html_iter_int_eq (depth : Int) (cursor : Str) (s : Store) :
    parse_html_iter_int depth cursor s = parse_html_iter (int_add depth 1 - 1) cursor s := by
  unfold parse_html_iter_int parse_html_iter
  simp only [Int.sub_add_cancel]

/-- The loop with `int` arithmetic is the loop in the integers at the depth whose
successor is the `int` sum. -/
theorem parse_html_loop_int_eq (depth : Int) : ∀ (fuel : Nat) (cursor : Str) (s : Store),
    parse_html_loop_int depth fuel cursor s
      = parse_html_loop (int_add depth 1 - 1) fuel cursor s
  | 0, _, _ => rfl
  | fuel + 1, cursor, s => by
    simp only [parse_html_loop_int, parse_html_loop, parse_html_iter_int_eq]
    cases parse_html_iter (int_add depth 1 - 1) cursor s with
    | none => rfl
    | some r => exact parse_html_loop_int_eq depth fuel r.1 r.2

/-- The effect of `parse_html` with `int` arithmetic on a well-formed queue, for every
argument `depth`: the links of the body are appended, in order, at the depth that the
`int` addition `depth + 1` yields. -/
theorem parse_html_int_contents (html_content : Str) (s : Store) (depth : Int)
    (h : WellFormed s) :
    WellFormed (parse_html_int html_content s depth) ∧
      contents (parse_html_int html_content s depth)
        = contents s ++ (extract_links html_content).map (fun u => (u, int_add depth 1)) := by
  have e : parse_html_int html_content s depth
      = parse_html html_content s (int_add depth 1 - 1) :=
    parse_html_loop_int_eq depth _ _ _
  rw [e]
  have := parse_html_contents html_content s (int_add depth 1 - 1) h
  simpa only [Int.sub_add_cancel] using this

/-- Counterexample to C8: at `depth = INT_MAX` the `int` addition `depth + 1`
overflows, and the link found in the body is appended with depth `INT_MIN`
(-2147483648), not with depth `INT_MAX + 1`. The item already queued is kept. -/
theorem parse_html_overflows_at_int_max :
    contents (parse_html_int (anchor urlB) (seed_queue [urlA] Store.fresh) INT_MAX)
      = [(urlA, 0), (urlB, -2147483648)] ∧
    contents (parse_html_int (anchor urlB) (seed_queue [urlA] Store.fresh) INT_MAX)
      ≠ contents (seed_queue [urlA] Store.fresh) ++ [(urlB, INT_MAX + 1)] ∧
    ¬ (∀ x ∈ (contents (parse_html_int (anchor urlB) (seed_queue [urlA] Store.fresh)
          INT_MAX)).drop (contents (seed_queue [urlA] Store.fresh)).length,
        x.2 = INT_MAX + 1) := by
  decide

/-- **C8, as amended.** For every body, every well-formed queue state and every depth
`d`, `parse_html` leaves the items already queued unchanged and in order at the
front of the queue and appends exactly the extracted links, each at the depth that the
`int` addition `d + 1` yields. When `d` is an `int` value with `d < INT_MAX`, as in
every call made by `fetch_url` (where `d < MAX_DEPTH`), that depth is exactly `d + 1`,
and the function coincides with `parse_html` computed in the integers. -/
theorem parse_html_appends_at_next_depth (html_content : Str) (s : Store) (d : Int)
    (hw : WellFormed s) :
    contents (parse_html_int html_content s d)
      = contents s ++ (extract_links html_content).map (fun u => (u, int_add d 1)) ∧
    contents s <+: contents (parse_html_int html_content s d) ∧
    WellFormed (parse_html_int html_content s d) ∧
    (INT_MIN ≤ d → d < INT_MAX →
      contents (parse_html_int html_content s d)
        = contents s ++ (extract_links html_content).map (fun u => (u, d + 1)) ∧
      (∀ x ∈ (contents (parse_html_int html_content s d)).drop (contents s).length,
        x.2 = d + 1) ∧
      parse_html_int html_content s d = parse_html html_content s d) := by
  obtain ⟨hw2, hc⟩ := parse_html_int_contents html_content s d hw
  refine ⟨hc, ?_, hw2, fun hlo hlt => ?_⟩
  · rw [hc]
    exact List.prefix_append _ _
  · have hadd : int_add d 1 = d + 1 :=
      int_add_exact d 1 (by unfold INT_MIN at *; omega) (by unfold INT_MAX at *; omega)
    rw [hadd] at hc
    refine ⟨hc, ?_, ?_⟩
    · rw [hc, List.drop_left]
      intro x hx
      obtain ⟨u, _, hu⟩ := List.mem_map.1 hx
      rw [← hu]
    · have e : parse_html_int html_content s d
          = parse_html html_content s (int_add d 1 - 1) :=
        parse_html_loop_int_eq d _ _ _
      rw [e, hadd, Int.add_sub_cancel]

/-- Witness for C8 as amended: parsing the body of page `a` at depth 0 with the seed
`a` still queued. -/
theorem parse_html_appends_at_next_depth_witness :
    contents (parse_html_int (anchor urlB ++ anchor urlC) (seed_queue [urlA] Store.fresh) 0)
      = contents (seed_queue [urlA] Store.fresh)
        ++ (extract_links (anchor urlB ++ anchor urlC)).map (fun u => (u, (0 : Int) + 1)) ∧
    contents (parse_html_int (anchor urlB ++ anchor urlC) (seed_queue [urlA] Store.fresh) 0)
      = [(urlA, 0), (urlB, 1), (urlC, 1)] :=
  ⟨((parse_html_appends_at_next_depth (anchor urlB ++ anchor urlC)
      (seed_queue [urlA] Store.fresh) 0 (seed_queue_contents [urlA]).1).2.2.2
      (by decide) (by decide)).1,
   by decide⟩

/-- A sum of terms that are all zero is zero. -/
theorem sum_map_eq_zero {α : Type} (g : α → Nat) (l : List α) (h : ∀ w ∈ l, g w = 0) :
    (l.map g).sum = 0 := by
  induction l with
  | nil => rfl
  | cons a l ih =>
    rw [List.map_cons, List.sum_cons, h a (List.mem_cons_self _ _),
      ih (fun w hw => h w (List.mem_cons_of_mem _ hw))]

/-- The item in hand depends only on the items of the nodes allocated. -/
theorem Worker.inHand_congr (s s2 : Store) (w : Worker)
    (h : ∀ node, w.held = some node → s2.item node = s.item node) :
    w.inHand s2 = w.inHand s := by
  cases w with
  | holding node => simp only [Worker.inHand, h node rfl]
  | atDequeue => rfl
  | returned => rfl
  | parsing node cursor => rfl

/-- The pending links depend only on the items of the nodes allocated. -/
theorem Worker.pending_congr (s s2 : Store) (w : Worker)
    (h : ∀ node, w.held = some node → s2.item node = s.item node) :
    w.pending s2 = w.pending s := by
  cases w with
  | parsing node cursor => simp only [Worker.pending, h node rfl]
  | atDequeue => rfl
  | returned => rfl
  | holding node => rfl

/-- The items of the first `k` nodes depend only on the items of the nodes allocated. -/
theorem range_map_congr (s s2 : Store) (k : Nat)
    (h : ∀ a, a < k → s2.item a = s.item a) :
    (List.range k).map s2.item = (List.range k).map s.item :=
  List.map_congr_left (fun a ha => h a (List.mem_range.1 ha))

/-- Replacing worker `i`, the memory, the fetch record and the count of dequeued nodes
keeps the bookkeeping when the change balances: what the worker has in hand and the
fetches account for the newly dequeued nodes, and the nodes created and the links
pending account for the children of the new fetches. -/
theorem Pool.Ledger.replace {f : Str → Option Str} {m : Int} {seeds : List Str}
    {p : Pool} {k : Nat} {nodes : List Nat} (L : Pool.Ledger f m seeds p k nodes) (i : Nat)
    (hi : i < p.workers.length) (s2 : Store) (w2 : Worker) (fetched2 : List Item) (k2 : Nat)
    (nodes2 : List Nat)
    (hchain : QueueChain s2 (List.range' k2 (s2.brk - k2))) (hk2 : k2 ≤ s2.brk)
    (hkk : k ≤ k2)
    (hitem : ∀ a, a < p.store.brk → s2.item a = p.store.item a)
    (hheld : ∀ node, w2.held = some node → node < k2)
    (hrecord : fetched2 = nodes2.map s2.item)
    (hdeq : ∀ a ∈ nodes2, a < k2)
    (honce : ∀ a : Nat,
      nodes2.count a + w2.holdingNode.count a
          ≤ nodes.count a + (p.workers.get ⟨i, hi⟩).holdingNode.count a ∨
        (k ≤ a ∧ nodes2.count a + w2.holdingNode.count a ≤ 1))
    (hdepth : ∀ x ∈ fetched2, x.2 < m)
    (hfc : ∀ x : Item, x.2 < m →
      fetched2.count x + (w2.inHand s2).count x + ((List.range k).map p.store.item).count x
        = p.fetched.count x + ((p.workers.get ⟨i, hi⟩).inHand p.store).count x
          + ((List.range k2).map s2.item).count x)
    (hec : ∀ x : Item,
      (allocated s2).count x + (w2.pending s2).count x
          + (p.fetched.flatMap (children f)).count x
        = (allocated p.store).count x + ((p.workers.get ⟨i, hi⟩).pending p.store).count x
          + (fetched2.flatMap (children f)).count x) :
    Pool.Ledger f m seeds
      { store := s2, workers := p.workers.set i w2, fetched := fetched2 } k2 nodes2 := by
  have hold : ∀ w ∈ p.workers, ∀ node, w.held = some node →
      s2.item node = p.store.item node := by
    intro w hw node hnode
    exact hitem node (Nat.lt_of_lt_of_le (L.held w hw node hnode) L.kle)
  have hget := List.get_mem p.workers i hi
  refine ⟨hchain, hk2, ?_, hrecord, hdeq, ?_, hdepth, ?_, ?_⟩
  · intro w hw node hnode
    rcases List.mem_or_eq_of_mem_set hw with hmem | heq
    · exact Nat.lt_of_lt_of_le (L.held w hmem node hnode) hkk
    · subst heq
      exact hheld node hnode
  · intro a
    have h1 := L.once a
    have hset := sum_map_set (fun w => w.holdingNode.count a) p.workers i w2 hi
    simp only at hset ⊢
    rcases honce a with hb | ⟨hka, hle⟩
    · omega
    · have hzero : ∀ w ∈ p.workers, w.holdingNode.count a = 0 := by
        intro w hw
        rw [List.count_eq_zero]
        intro hmem2
        cases w with
        | holding node =>
          simp only [Worker.holdingNode, List.mem_singleton] at hmem2
          have := L.held _ hw node rfl
          omega
        | atDequeue => simp [Worker.holdingNode] at hmem2
        | returned => simp [Worker.holdingNode] at hmem2
        | parsing node cursor => simp [Worker.holdingNode] at hmem2
      have hz := sum_map_eq_zero (fun w => w.holdingNode.count a) p.workers hzero
      have hzi := hzero _ hget
      simp only at hz
      omega
  · intro x hx
    have h1 := L.fetchedCount x hx
    have h2 := hfc x hx
    have hsum : (p.workers.map (fun w => (w.inHand s2).count x)).sum
        = (p.workers.map (fun w => (w.inHand p.store).count x)).sum := by
      rw [List.map_congr_left
        (fun w hw => by rw [Worker.inHand_congr p.store s2 w (hold w hw)])]
    have hgi : ((p.workers.get ⟨i, hi⟩).inHand s2).count x
        = ((p.workers.get ⟨i, hi⟩).inHand p.store).count x := by
      rw [Worker.inHand_congr p.store s2 _ (hold _ hget)]
    have hset := sum_map_set (fun w => (w.inHand s2).count x) p.workers i w2 hi
    simp only at hset ⊢
    omega
  · intro x
    have h1 := L.enqueuedCount x
    have h2 := hec x
    have hsum : (p.workers.map (fun w => (w.pending s2).count x)).sum
        = (p.workers.map (fun w => (w.pending p.store).count x)).sum := by
      rw [List.map_congr_left
        (fun w hw => by rw [Worker.pending_congr p.store s2 w (hold w hw)])]
    have hgi : ((p.workers.get ⟨i, hi⟩).pending s2).count x
        = ((p.workers.get ⟨i, hi⟩).pending p.store).count x := by
      rw [Worker.pending_congr p.store s2 _ (hold _ hget)]
    have hset := sum_map_set (fun w => (w.pending s2).count x) p.workers i w2 hi
    simp only at hset ⊢
    omega

/-- Enqueueing on the chain of the nodes `k, ..., brk - 1` gives the chain of the nodes
`k, ..., brk`. -/
theorem enqueue_chain_range {s : Store} {k : Nat} (h : QueueChain s (List.range' k (s.brk - k)))
    (hk : k ≤ s.brk) (url : Str) (depth : Int) :
    QueueChain (enqueue s url depth)
      (List.range' k ((enqueue s url depth).brk - k)) := by
  have h2 := (enqueue_chain h url depth).1
  have e : (enqueue s url depth).brk - k = (s.brk - k) + 1 := by
    rw [enqueue_brk]
    omega
  rw [e, List.range'_concat]
  have e2 : k + 1 * (s.brk - k) = s.brk := by omega
  rw [e2]
  exact h2

/-- An item at or above the depth bound is not an item below it. -/
theorem count_singleton_of_depth_ge (m : Int) (x y : Item) (hx : x.2 < m) (hy : m ≤ y.2) :
    List.count x [y] = 0 := by
  rw [List.count_eq_zero]
  intro hmem
  rw [List.mem_singleton] at hmem
  rw [hmem] at hx
  omega

/-- A step of any worker keeps the bookkeeping of the crawl. -/
theorem Pool.Ledger.step {f : Str → Option Str} {m : Int} {seeds : List Str}
    {p : Pool} {k : Nat} {nodes : List Nat} (L : Pool.Ledger f m seeds p k nodes)
    (i : Nat) : ∃ k2 nodes2, Pool.Ledger f m seeds (Pool.step f m p i) k2 nodes2 := by
  cases hw : p.workers[i]? with
  | none =>
    rw [Pool.step_idle f m p i (Or.inl hw)]
    exact ⟨k, nodes, L⟩
  | some w =>
    obtain ⟨hi, hget⟩ := List.getElem?_eq_some.1 hw
    have hget2 : p.workers.get ⟨i, hi⟩ = w := hget
    have hmem : w ∈ p.workers := List.getElem?_mem hw
    cases w with
    | returned =>
      rw [Pool.step_idle f m p i (Or.inr hw)]
      exact ⟨k, nodes, L⟩
    | atDequeue =>
      unfold Pool.step
      rw [hw]
      simp only
      cases hn : p.store.brk - k with
      | zero =>
        have hch := L.chain
        rw [hn] at hch
        rw [dequeue_chain_nil hch]
        simp only
        refine ⟨k, nodes, L.replace i hi p.store Worker.returned p.fetched k nodes
          L.chain L.kle (le_refl _) (fun _ _ => rfl)
          (fun node hnode => by simp [Worker.held] at hnode)
          L.record L.dequeued (fun a => Or.inl (by rw [hget2]; simp [Worker.holdingNode]))
          L.depth (fun x _ => ?_) (fun x => ?_)⟩
        · rw [hget2]
          simp [Worker.inHand]
        · rw [hget2]
          simp [Worker.pending]
      | succ n =>
        have hch := L.chain
        rw [hn, List.range'_succ] at hch
        obtain ⟨h1, h2, h3, h4⟩ := dequeue_chain_cons hch
        generalize dequeue p.store = r at h1 h2 h3 h4
        obtain ⟨r1, s1⟩ := r
        simp only at h1 h2 h3 h4
        subst h1
        simp only
        have hitem : ∀ b, s1.item b = p.store.item b := by
          intro b
          simp only [Store.item, h3]
        have hn2 : s1.brk - (k + 1) = n := by rw [h4]; omega
        have hfresh : nodes.count k = 0 :=
          List.count_eq_zero.2 (fun hm => Nat.lt_irrefl _ (L.dequeued k hm))
        refine ⟨k + 1, nodes, L.replace i hi s1 (Worker.holding k) p.fetched (k + 1) nodes
          (by rw [hn2]; exact h2) (by rw [h4]; omega) (Nat.le_succ _)
          (fun b _ => hitem b)
          (fun node hnode => by
            simp only [Worker.held, Option.some.injEq] at hnode
            omega)
          (by rw [L.record]; exact List.map_congr_left (fun b _ => (hitem b).symm))
          (fun a ha => Nat.lt_succ_of_lt (L.dequeued a ha))
          (fun a => by
            by_cases hak : a = k
            · subst hak
              exact Or.inr ⟨le_refl _, by simp [Worker.holdingNode, hfresh]⟩
            · left
              have hc : List.count a [k] = 0 :=
                List.count_eq_zero.2 (fun hm => hak (List.mem_singleton.1 hm))
              rw [hget2]
              simp only [Worker.holdingNode, hc, List.count_nil]
              omega)
          L.depth (fun x _ => ?_) (fun x => ?_)⟩
        · rw [hget2, range_map_congr p.store s1 (k + 1) (fun b _ => hitem b)]
          simp only [Worker.inHand, hitem k, List.range_succ, List.map_append,
            List.map_cons, List.map_nil, List.count_append, List.count_nil]
          omega
        · rw [hget2]
          have ha : allocated s1 = allocated p.store := by
            simp only [allocated, h4]
            exact range_map_congr p.store s1 _ (fun b _ => hitem b)
          simp [Worker.pending, ha]
    | holding node =>
      unfold Pool.step
      rw [hw]
      simp only
      have hnode : node < k := L.held _ hmem node rfl
      split
      · rename_i hge
        refine ⟨k, nodes, L.replace i hi p.store Worker.atDequeue p.fetched k nodes
          L.chain L.kle (le_refl _) (fun _ _ => rfl)
          (fun n hn => by simp [Worker.held] at hn)
          L.record L.dequeued (fun a => Or.inl (by rw [hget2]; simp [Worker.holdingNode]))
          L.depth (fun x hx => ?_) (fun x => ?_)⟩
        · rw [hget2]
          have := count_singleton_of_depth_ge m x (p.store.item node) hx hge
          simp only [Worker.inHand, List.count_nil, this]
        · rw [hget2]
          simp [Worker.pending]
      · rename_i hlt
        have hlt2 : (p.store.item node).2 < m := not_le.1 hlt
        have hdepth2 : ∀ x ∈ p.fetched ++ [p.store.item node], x.2 < m := by
          intro x hx
          rcases List.mem_append.1 hx with hx | hx
          · exact L.depth x hx
          · rw [List.mem_singleton.1 hx]
            exact hlt2
        split
        · rename_i html hf
          have hf2 : f (p.store.item node).1 = some html := hf
          refine ⟨k, nodes ++ [node], L.replace i hi p.store (Worker.parsing node html)
            (p.fetched ++ [p.store.item node]) k (nodes ++ [node]) L.chain L.kle
            (le_refl _) (fun _ _ => rfl)
            (fun n hn => by
              simp only [Worker.held, Option.some.injEq] at hn
              omega)
            (by rw [L.record]; simp)
            (fun a ha => by
              rcases List.mem_append.1 ha with ha | ha
              · exact L.dequeued a ha
              · rw [List.mem_singleton.1 ha]
                exact hnode)
            (fun a => Or.inl (by
              rw [hget2]
              simp only [Worker.holdingNode, List.count_append, List.count_nil]
              omega))
            hdepth2 (fun x _ => ?_) (fun x => ?_)⟩
          · rw [hget2]
            simp only [Worker.inHand, List.count_append, List.count_nil]
            omega
          · rw [hget2]
            simp only [Worker.pending, List.flatMap_append, List.flatMap_cons,
              List.flatMap_nil, List.append_nil, List.count_append, List.count_nil,
              children, hf2]
            omega
        · rename_i hf
          have hf2 : f (p.store.item node).1 = none := hf
          refine ⟨k, nodes ++ [node], L.replace i hi p.store Worker.atDequeue
            (p.fetched ++ [p.store.item node]) k (nodes ++ [node]) L.chain L.kle
            (le_refl _) (fun _ _ => rfl) (fun n hn => by simp [Worker.held] at hn)
            (by rw [L.record]; simp)
            (fun a ha => by
              rcases List.mem_append.1 ha with ha | ha
              · exact L.dequeued a ha
              · rw [List.mem_singleton.1 ha]
                exact hnode)
            (fun a => Or.inl (by
              rw [hget2]
              simp only [Worker.holdingNode, List.count_append, List.count_nil]
              omega))
            hdepth2 (fun x _ => ?_) (fun x => ?_)⟩
          · rw [hget2]
            simp only [Worker.inHand, List.count_append, List.count_nil]
            omega
          · rw [hget2]
            simp only [Worker.pending, List.flatMap_append, List.flatMap_cons,
              List.flatMap_nil, List.append_nil, List.count_append, List.count_nil,
              children, hf2]
    | parsing node cursor =>
      unfold Pool.step
      rw [hw]
      simp only
      have hnode : node < k := L.held _ hmem node rfl
      rw [parse_html_iter_eq]
      cases hs : scan_iter cursor with
      | none =>
        simp only [Option.map_none']
        refine ⟨k, nodes, L.replace i hi p.store Worker.atDequeue p.fetched k nodes
          L.chain L.kle (le_refl _) (fun _ _ => rfl)
          (fun n hn => by simp [Worker.held] at hn)
          L.record L.dequeued (fun a => Or.inl (by rw [hget2]; simp [Worker.holdingNode]))
          L.depth (fun x _ => ?_) (fun x => ?_)⟩
        · rw [hget2]
          simp [Worker.inHand]
        · rw [hget2]
          simp [Worker.pending, extract_links_of_scan_none hs]
      | some r =>
        obtain ⟨c2, u⟩ := r
        cases u with
        | none =>
          simp only [Option.map_some']
          refine ⟨k, nodes, L.replace i hi p.store (Worker.parsing node c2) p.fetched k
            nodes L.chain L.kle (le_refl _) (fun _ _ => rfl)
            (fun n hn => by
              simp only [Worker.held, Option.some.injEq] at hn
              omega)
            L.record L.dequeued (fun a => Or.inl (by rw [hget2]; simp [Worker.holdingNode]))
            L.depth (fun x _ => ?_) (fun x => ?_)⟩
          · rw [hget2]
            simp [Worker.inHand]
          · rw [hget2]
            simp [Worker.pending, extract_links_of_scan_skip hs]
        | some url =>
          simp only [Option.map_some']
          have hitem : ∀ a, a < p.store.brk →
              (enqueue p.store url ((p.store.cell node).depth + 1)).item a
                = p.store.item a :=
            fun a ha => enqueue_item_of_ne _ _ _ a (Nat.ne_of_lt ha)
          have hd : (p.store.cell node).depth = (p.store.item node).2 := rfl
          have hin := hitem node (Nat.lt_of_lt_of_le hnode L.kle)
          refine ⟨k, nodes, L.replace i hi _ (Worker.parsing node c2) p.fetched k nodes
            (enqueue_chain_range L.chain L.kle _ _)
            (by rw [enqueue_brk]; exact Nat.le_succ_of_le L.kle) (le_refl _) hitem
            (fun n hn => by
              simp only [Worker.held, Option.some.injEq] at hn
              omega)
            (by
              rw [L.record]
              exact List.map_congr_left (fun b hb =>
                (hitem b (Nat.lt_of_lt_of_le (L.dequeued b hb) L.kle)).symm))
            L.dequeued (fun a => Or.inl (by rw [hget2]; simp [Worker.holdingNode]))
            L.depth (fun x _ => ?_) (fun x => ?_)⟩
          · rw [hget2, range_map_congr p.store _ k
              (fun a ha => hitem a (Nat.lt_of_lt_of_le ha L.kle))]
            simp [Worker.inHand]
          · rw [hget2, allocated_enqueue]
            rw [hd] at hin ⊢
            simp only [Worker.pending, hin, extract_links_of_scan_some hs, List.map_cons,
              List.count_append, List.count_cons, List.count_nil]
            omega

/-- Enqueueing a list of URLs at depth 0 extends the chain of the nodes from `k` on. -/
theorem enqueue_foldl_chain_range : ∀ (urls : List Str) (s : Store) (k : Nat),
    QueueChain s (List.range' k (s.brk - k)) → k ≤ s.brk →
    QueueChain (urls.foldl (fun acc url => enqueue acc url 0) s)
        (List.range' k ((urls.foldl (fun acc url => enqueue acc url 0) s).brk - k)) ∧
      k ≤ (urls.foldl (fun acc url => enqueue acc url 0) s).brk
  | [], _, _, h, hk => ⟨h, hk⟩
  | u :: urls, s, k, h, hk =>
    enqueue_foldl_chain_range urls (enqueue s u 0) k (enqueue_chain_range h hk u 0)
      (by rw [enqueue_brk]; exact Nat.le_succ_of_le hk)

/-- The bookkeeping holds when `main` has seeded the queue and created the threads. -/
theorem Pool.Ledger.start (f : Str → Option Str) (m : Int) (n : Nat) (seeds : List Str) :
    Pool.Ledger f m seeds (Pool.start n seeds) 0 [] := by
  have h0 : QueueChain (initQueue Store.fresh)
      (List.range' 0 ((initQueue Store.fresh).brk - 0)) := initQueue_chain Store.fresh
  obtain ⟨hch, hk⟩ := enqueue_foldl_chain_range seeds _ 0 h0 (Nat.zero_le _)
  have hall : ∀ w ∈ (Pool.start n seeds).workers, w = Worker.atDequeue := by
    intro w hw
    simp only [Pool.start, List.mem_replicate] at hw
    exact hw.2
  refine ⟨hch, hk, ?_, rfl, fun a ha => by simp at ha, ?_, ?_, ?_, ?_⟩
  · intro w hw node hnode
    rw [hall w hw] at hnode
    simp [Worker.held] at hnode
  · intro a
    rw [sum_map_eq_zero _ _ (fun w hw => by rw [hall w hw]; rfl)]
    simp
  · intro x hx
    simp [Pool.start] at hx
  · intro x _
    rw [sum_map_eq_zero _ _ (fun w hw => by rw [hall w hw]; rfl)]
    simp [Pool.start]
  · intro x
    rw [sum_map_eq_zero _ _ (fun w hw => by rw [hall w hw]; rfl)]
    have ha : allocated (Pool.start n seeds).store = seeds.map (fun u => (u, (0 : Int))) :=
      (seed_queue_contents seeds).2.2
    rw [ha]
    simp [Pool.start]

/-- The bookkeeping holds after every schedule. -/
theorem Pool.Ledger.run {f : Str → Option Str} {m : Int} {seeds : List Str} :
    ∀ (schedule : List Nat) (p : Pool) (k : Nat) (nodes : List Nat),
      Pool.Ledger f m seeds p k nodes →
      ∃ k2 nodes2, Pool.Ledger f m seeds (Pool.run f m p schedule) k2 nodes2
  | [], _, k, nodes, L => ⟨k, nodes, L⟩
  | i :: rest, _, _, _, L => by
    obtain ⟨k1, nodes1, L1⟩ := L.step i
    exact Pool.Ledger.run rest _ k1 nodes1 L1

/-- The fetches recorded were made for pairwise distinct nodes, all of them dequeued:
no node is fetched twice. -/
theorem Pool.Ledger.distinct {f : Str → Option Str} {m : Int} {seeds : List Str}
    {p : Pool} {k : Nat} {nodes : List Nat} (L : Pool.Ledger f m seeds p k nodes) :
    nodes.Nodup ∧ (∀ a ∈ nodes, a < p.store.brk) ∧ p.fetched = nodes.map p.store.item := by
  refine ⟨?_, fun a ha => Nat.lt_of_lt_of_le (L.dequeued a ha) L.kle, L.record⟩
  rw [List.nodup_iff_count_le_one]
  intro a
  have := L.once a
  omega

/-- No item is fetched more often than it was enqueued, and only items below the depth
bound are fetched. -/
theorem Pool.Ledger.fetched_le {f : Str → Option Str} {m : Int} {seeds : List Str}
    {p : Pool} {k : Nat} {nodes : List Nat} (L : Pool.Ledger f m seeds p k nodes)
    (x : Item) :
    p.fetched.count x ≤ (fetchable m (allocated p.store)).count x := by
  by_cases hx : x.2 < m
  · have h1 := L.fetchedCount x hx
    have h2 : ((List.range k).map p.store.item).count x ≤ (allocated p.store).count x :=
      ((List.range_sublist.2 L.kle).map _).count_le x
    have h3 : (fetchable m (allocated p.store)).count x = (allocated p.store).count x :=
      List.count_filter (by simpa using hx)
    omega
  · have h0 : p.fetched.count x = 0 :=
      List.count_eq_zero.2 (fun hmem => hx (L.depth x hmem))
    omega

/-- No more nodes are created than there are seeds and link occurrences on the pages
fetched. -/
theorem Pool.Ledger.allocated_le {f : Str → Option Str} {m : Int} {seeds : List Str}
    {p : Pool} {k : Nat} {nodes : List Nat} (L : Pool.Ledger f m seeds p k nodes)
    (x : Item) :
    (allocated p.store).count x
      ≤ (seeds.map (fun u => (u, (0 : Int))) ++ p.fetched.flatMap (children f)).count x := by
  have h := L.enqueuedCount x
  rw [List.count_append]
  omega

/-- Counting items does not depend on the equality test used. -/
theorem count_eq_count_decEq (x : Item) (l : List Item) :
    List.count x l = @List.count Item instBEqOfDecidableEq x l := by
  induction l with
  | nil => rfl
  | cons a l ih =>
    rw [List.count_cons, @List.count_cons _ instBEqOfDecidableEq, ih]
    by_cases h : a = x
    · have h1 : (@BEq.beq Item instBEqOfDecidableEq a x) = true := decide_eq_true h
      have h2 : (a == x) = true := beq_iff_eq.2 h
      rw [h1, h2]
    · have h1 : (@BEq.beq Item instBEqOfDecidableEq a x) = false := decide_eq_false h
      have h2 : (a == x) = false := beq_eq_false_iff_ne.2 h
      rw [h1, h2]

/-- Two lists of items with the same counts are permutations of each other. -/
theorem perm_of_count_eq {l1 l2 : List Item} (h : ∀ x, l1.count x = l2.count x) :
    l1.Perm l2 := by
  rw [List.perm_iff_count]
  intro x
  rw [← count_eq_count_decEq, ← count_eq_count_decEq]
  exact h x

/-- When all workers have returned and the queue is empty, every enqueued item below
the depth bound has been fetched exactly once, and the enqueued items are the seeds
and the children of the fetched items. -/
theorem Pool.Ledger.complete {f : Str → Option Str} {m : Int} {seeds : List Str}
    {p : Pool} {k : Nat} {nodes : List Nat} (L : Pool.Ledger f m seeds p k nodes)
    (hall : ∀ w ∈ p.workers, w = Worker.returned) (hhead : p.store.queue.head = none) :
    p.fetched.Perm (fetchable m (allocated p.store)) ∧
    (allocated p.store).Perm
      (seeds.map (fun u => (u, (0 : Int))) ++ p.fetched.flatMap (children f)) := by
  have hk : k = p.store.brk := by
    have hl := L.chain.linked
    rw [hhead] at hl
    cases hn : p.store.brk - k with
    | zero => have := L.kle; omega
    | succ n =>
      rw [hn, List.range'_succ] at hl
      cases hl.1
  constructor
  · apply perm_of_count_eq
    intro x
    by_cases hx : x.2 < m
    · have h1 := L.fetchedCount x hx
      rw [sum_map_eq_zero _ _ (fun w hw => by rw [hall w hw]; rfl), hk] at h1
      have h3 : (fetchable m (allocated p.store)).count x = (allocated p.store).count x :=
        List.count_filter (by simpa using hx)
      rw [h3]
      simpa [allocated] using h1
    · have h0 : p.fetched.count x = 0 :=
        List.count_eq_zero.2 (fun hmem => hx (L.depth x hmem))
      have h1 : (fetchable m (allocated p.store)).count x = 0 := by
        rw [List.count_eq_zero]
        intro hmem
        have := (List.mem_filter.1 hmem).2
        exact hx (by simpa using this)
      rw [h0, h1]
  · apply perm_of_count_eq
    intro x
    have h := L.enqueuedCount x
    rw [sum_map_eq_zero _ _ (fun w hw => by rw [hall w hw]; rfl)] at h
    rw [List.count_append]
    omega

set_option maxRecDepth 100000 in
/-- Counterexample to C2: in the scenario of the specification (seed `a`; `a` links to
`b` and `c`; `b` links to `a` and `d`) with `MAX_DEPTH = 3`, `a` is fetched at depth 0
and again at depth 2, and `http://a` is enqueued twice. This is so in the run of a
single thread and in the run of the four workers under the schedule `interleaved`,
where workers 0 and 1 fetch side by side. -/
theorem scenario_fetches_a_twice :
    (fetch_url scenarioWeb MAX_DEPTH 8 (Crawl.start [urlA])).map (fun c => c.fetched)
      = some [(urlA, 0), (urlB, 1), (urlC, 1), (urlA, 2), (urlD, 2)] ∧
    (fetch_url scenarioWeb MAX_DEPTH 8 (Crawl.start [urlA])).map
      (fun c => (c.fetched.map Prod.fst).count urlA) = some 2 ∧
    (fetch_url scenarioWeb MAX_DEPTH 8 (Crawl.start [urlA])).map
      (fun c => ((allocated c.store).map Prod.fst).count urlA) = some 2 ∧
    (∀ w ∈ (Pool.run scenarioWeb MAX_DEPTH (Pool.start NUM_THREADS [urlA])
        interleaved).workers, w = Worker.returned) ∧
    (Pool.run scenarioWeb MAX_DEPTH (Pool.start NUM_THREADS [urlA]) interleaved).fetched
      = [(urlA, 0), (urlC, 1), (urlB, 1), (urlA, 2), (urlD, 2)] ∧
    ((Pool.run scenarioWeb MAX_DEPTH (Pool.start NUM_THREADS [urlA])
        interleaved).fetched.map Prod.fst).count urlA = 2 ∧
    ((allocated (Pool.run scenarioWeb MAX_DEPTH (Pool.start NUM_THREADS [urlA])
        interleaved).store).map Prod.fst).count urlA = 2 := by
  decide

/-- **C2, as amended.** Across the whole crawl, for every seed list, every fetch
function, every number of workers and every interleaving of their steps: (1) the calls
of `fetch_html_content` were made for pairwise distinct queue nodes, so every enqueued
item is fetched at most once; counted with multiplicity, no item is fetched more often
than it was enqueued, and none at a depth `≥ maxDepth`; (2) no more items are enqueued
than one per seed and one per link occurrence on a fetched page; (3) when all workers
(at least one) have returned, the fetched items are exactly the enqueued items of depth
`< maxDepth`, each once, and the enqueued items are exactly the seeds at depth 0 and,
for every fetch, the links of the fetched body at the next depth, one item for each
occurrence; (4) the workers can always be run on until all have returned. URLs are not
de-duplicated: a URL is enqueued and fetched as often as items carry it. -/
theorem every_item_fetched_once_no_dedup (fetch_html_content : Str → Option Str)
    (maxDepth : Int) (seeds : List Str) (n : Nat) (schedule : List Nat) :
    (∃ nodes : List Nat, nodes.Nodup ∧
      (∀ a ∈ nodes,
        a < (Pool.run fetch_html_content maxDepth (Pool.start n seeds) schedule).store.brk) ∧
      (Pool.run fetch_html_content maxDepth (Pool.start n seeds) schedule).fetched
        = nodes.map
          (Pool.run fetch_html_content maxDepth (Pool.start n seeds) schedule).store.item) ∧
    (∀ x : Item,
      (Pool.run fetch_html_content maxDepth (Pool.start n seeds) schedule).fetched.count x
        ≤ (fetchable maxDepth (allocated
            (Pool.run fetch_html_content maxDepth (Pool.start n seeds) schedule).store)).count
          x) ∧
    (∀ x : Item,
      (allocated
          (Pool.run fetch_html_content maxDepth (Pool.start n seeds) schedule).store).count x
        ≤ (seeds.map (fun u => (u, (0 : Int))) ++
            (Pool.run fetch_html_content maxDepth (Pool.start n seeds) schedule).fetched.flatMap
              (children fetch_html_content)).count x) ∧
    (0 < n →
      (∀ w ∈ (Pool.run fetch_html_content maxDepth (Pool.start n seeds) schedule).workers,
        w = Worker.returned) →
      (Pool.run fetch_html_content maxDepth (Pool.start n seeds) schedule).fetched.Perm
        (fetchable maxDepth (allocated
          (Pool.run fetch_html_content maxDepth (Pool.start n seeds) schedule).store)) ∧
      (allocated
          (Pool.run fetch_html_content maxDepth (Pool.start n seeds) schedule).store).Perm
        (seeds.map (fun u => (u, (0 : Int))) ++
          (Pool.run fetch_html_content maxDepth (Pool.start n seeds) schedule).fetched.flatMap
            (children fetch_html_content))) ∧
    (∃ more,
      ∀ w ∈ (Pool.run fetch_html_content maxDepth (Pool.start n seeds)
          (schedule ++ more)).workers, w = Worker.returned) := by
  obtain ⟨k, nodes, L⟩ := Pool.Ledger.run schedule _ 0 []
    (Pool.Ledger.start fetch_html_content maxDepth n seeds)
  refine ⟨⟨nodes, L.distinct⟩, L.fetched_le, L.allocated_le, fun hn hall => ?_, ?_⟩
  · have hstart : (∀ w ∈ (Pool.start n seeds).workers, w = Worker.returned) →
        (Pool.start n seeds).store.queue.head = none := by
      intro h
      have hm : Worker.atDequeue ∈ (Pool.start n seeds).workers := by
        simp only [Pool.start, List.mem_replicate]
        exact ⟨Nat.pos_iff_ne_zero.1 hn, trivial⟩
      cases h _ hm
    exact L.complete hall
      (Pool.run_all_returned fetch_html_content maxDepth schedule _ hstart hall)
  · have hv := Pool.run_valid fetch_html_content maxDepth schedule _
      (Pool.start_valid n seeds)
    obtain ⟨more, _, hdone⟩ :=
      Pool.can_finish fetch_html_content maxDepth _ _ (le_refl _) hv
    refine ⟨more, ?_⟩
    rw [Pool.run_append]
    exact hdone

set_option maxRecDepth 100000 in
/-- Witness for C2 as amended: the four workers on the scenario under the schedule
`interleaved`, after which all have returned. -/
theorem every_item_fetched_once_no_dedup_witness :
    0 < NUM_THREADS ∧
    (∀ w ∈ (Pool.run scenarioWeb MAX_DEPTH (Pool.start NUM_THREADS [urlA])
        interleaved).workers, w = Worker.returned) ∧
    (Pool.run scenarioWeb MAX_DEPTH (Pool.start NUM_THREADS [urlA]) interleaved).fetched.Perm
      (fetchable MAX_DEPTH (allocated
        (Pool.run scenarioWeb MAX_DEPTH (Pool.start NUM_THREADS [urlA]) interleaved).store)) :=
  ⟨by decide, by decide,
    ((every_item_fetched_once_no_dedup scenarioWeb MAX_DEPTH [urlA] NUM_THREADS
      interleaved).2.2.2.1 (by decide) (by decide)).1⟩

end WebCrawler
